import Mathlib

/-!
# TensorIterator: dynamic control flow node of the CPU plugin

Verification development for `src/plugins/intel_cpu/src/nodes/tensoriterator.h`.

The header declares the data (`PortMap`, `PortMapHelper`, `PortChecker`,
`DynamicBuffer`, `TensorIterator`) and defines `needShapeInfer` inline.  The
bodies of the other member functions live in `tensoriterator.cpp`, which is not
part of the available sources; every definition that stands for one of them is
marked `Modelled from the spec:` and follows the wording of the specification.

Tensors are row-major lists of elements together with their dimensions.
Machine integers are `Int`/`Nat`; no claim below depends on overflow.
-/

namespace ov.intel_cpu.node

/-! ## Data model -/

/-- Port map rule, `struct PortMap` of the header.  The fields `from`, `to` and
`end` are spelled `from_`, `to_` and `end_` because the plain words are
reserved. -/
structure PortMap where
  /-- Index of external data from ins/outs fields of node. -/
  from_ : Int
  /-- Index of internal data in iterator body. -/
  to_ : Int
  /-- Axis to iterate through. -/
  axis : Int
  /-- Stride to iterate through. -/
  stride : Int
  /-- Start index of iteration range. -/
  start : Int
  /-- Last index of iteration range. -/
  end_ : Int
  /-- Part size which will be transferred to body subnetwork. -/
  part_size : Int
deriving DecidableEq, Repr

/-- Tensor memory: dimensions and row-major element storage. -/
structure Tensor where
  dims : List Nat
  data : List Int
deriving DecidableEq, Repr

/-- Error taxonomy of the specification (section 7). -/
inductive Error where
  /-- Malformed port map, detected at preparation. -/
  | configuration
  /-- Condition or trip count outside its domain, detected at execution. -/
  | runtimeContract
  /-- A dynamic buffer could not be allocated. -/
  | resourceExhaustion
deriving DecidableEq, Repr

/-- Number of elements a tensor of the given dimensions holds. -/
def Tensor.elemCount (t : Tensor) : Nat := t.dims.prod

/-- Product of the dimensions before `axis`. -/
def outerCount (dims : List Nat) (axis : Nat) : Nat := (dims.take axis).prod

/-- Product of the dimensions after `axis`. -/
def innerCount (dims : List Nat) (axis : Nat) : Nat := (dims.drop (axis + 1)).prod

/-- Extent of `dims` along `axis` (0 when the axis does not exist). -/
def axisLen (dims : List Nat) (axis : Nat) : Nat := dims.getD axis 0

/-- Element read at a signed flat position; positions outside the storage read
as 0. -/
def readAt (data : List Int) (idx : Int) : Int :=
  if idx < 0 then 0 else data.getD idx.toNat 0

/-! ## Iteration count -/

/-- Modelled from the spec: the body of `TensorIterator::getNumIteration` is
missing.  A negative `start`/`end` counts from the end of the actual dimension:
`-1` denotes the dimension length itself ("no upper bound, compute from actual
shape"), as the `[4,10]` scenario (end = -1, 5 slices of 2) requires. -/
def resolveIndex (v : Int) (space : Nat) : Int :=
  if v < 0 then (space : Int) + 1 + v else v

/-- Modelled from the spec: a port map slices its tensor when it names an
iteration axis; a rule without one (axis `-1`) is a plain, whole-tensor
transfer. -/
def PortMap.isIterable (rule : PortMap) : Bool := rule.axis != -1

/-- Modelled from the spec: a port map is malformed when it iterates with
`part_size = 0` or `stride = 0`, or when its axis does not fit the rank of the
tensor it slices. -/
def PortMap.malformed (rule : PortMap) (dims : List Nat) : Bool :=
  rule.isIterable &&
    (rule.part_size == 0 || rule.stride == 0 || rule.axis < 0 ||
      decide ((dims.length : Int) ≤ rule.axis))

/-- Modelled from the spec: offset along the iterated axis, in elements, used
by a strided helper with rule `rule` at iteration `i`:
`start + iteration_index * stride`, a negative `start` wrapping from the end
of the actual dimension.  The specification adds "(clamped/wrapped per
`end`)" without naming a rule; beyond the wrapping of a negative `start` no
clamping is modelled, so the properties of a strided transfer are stated for
slices that lie inside the tensor. -/
def sliceOffset (rule : PortMap) (space : Nat) (i : Nat) : Int :=
  resolveIndex rule.start space + (i : Int) * rule.stride

/-- Modelled from the spec: the rule a strided helper is built with at
preparation.  The stride of a port map counts slices of `part_size` elements:
in the `[4,10]` scenario stride 1 with part size 2 gives the column offsets
0, 2, 4, 6, 8 and `(end - start) / part_size` iterations.  The stride of the
helper counts elements along the axis, so it is `stride * part_size`. -/
def PortMap.helperRule (rule : PortMap) : PortMap :=
  { rule with stride := rule.stride * rule.part_size }

/-- Modelled from the spec: number of full slices obtainable from the actual
input shape, `(end - start) / part_size` with `start`/`end` resolved against
the actual dimension length. -/
def sliceCount (rule : PortMap) (dims : List Nat) : Nat :=
  let space := axisLen dims rule.axis.toNat
  (Int.tdiv (resolveIndex rule.end_ space - resolveIndex rule.start space)
    rule.part_size).toNat

/-- Dimensions of the outer tensor a rule refers to (`from` indexes the
external tensors); `none` when the index is out of range. -/
def ruleDims (rule : PortMap) (shapes : List (List Nat)) : Option (List Nat) :=
  if rule.from_ < 0 then none else shapes.get? rule.from_.toNat

/-- Modelled from the spec: slice counts derived from every input port map
with bounded slicing, in port-map order; a malformed rule is a fatal
configuration error. -/
def derivedSliceCounts : List PortMap → List (List Nat) → Except Error (List Nat)
  | [], _ => .ok []
  | rule :: rest, shapes =>
    if rule.isIterable then
      match ruleDims rule shapes with
      | none => .error .configuration
      | some dims =>
        if rule.malformed dims then .error .configuration
        else
          match derivedSliceCounts rest shapes with
          | .error e => .error e
          | .ok cs => .ok (sliceCount rule dims :: cs)
    else derivedSliceCounts rest shapes

/-- Minimum of a bound (`none` = unbounded) and a list of counts. -/
def minBound : Option Nat → List Nat → Option Nat
  | b, [] => b
  | none, c :: cs => minBound (some c) cs
  | some b, c :: cs => minBound (some (min b c)) cs

/-- Modelled from the spec: the body of `TensorIterator::getNumIteration` is
missing.  It derives the iteration bound the actual input shapes allow: the
minimum of the slice counts of all input port maps with bounded slicing
(`none` when no input is sliced).  The specification derives counts from the
input port maps only, so the output port maps do not contribute. -/
def getNumIteration (shapes : List (List Nat)) (inputPortMap : List PortMap)
    (_outputPortMap : List PortMap) : Except Error (Option Nat) :=
  match derivedSliceCounts inputPortMap shapes with
  | .error e => .error e
  | .ok counts => .ok (minBound none counts)

/-- Modelled from the spec: the trip count read by the trip-count checker,
resolved: `-1` is "unbounded", a value below `-1` is a fatal execution
error. -/
def resolveTripCount (trip : Int) : Except Error (Option Nat) :=
  if trip < -1 then .error .runtimeContract
  else if trip = -1 then .ok none
  else .ok (some trip.toNat)

/-- Minimum of two bounds, `none` standing for "unbounded". -/
def combineBound : Option Nat → Option Nat → Option Nat
  | none, b => b
  | a, none => a
  | some a, some b => some (min a b)

/-! ## Memory and data-transfer functors -/

/-- The four groups of tensors a transfer can touch: the node's external
inputs and outputs, and the inputs and outputs of the body. -/
inductive Bank where
  | ins
  | outs
  | bodyIn
  | bodyOut
deriving DecidableEq, Repr

/-- Pinned reference to one tensor. -/
structure MemRef where
  bank : Bank
  idx : Nat
deriving DecidableEq, Repr

/-- All tensor memory visible to one controller instance. -/
structure Memory where
  ins : List Tensor
  outs : List Tensor
  bodyIn : List Tensor
  bodyOut : List Tensor
deriving DecidableEq, Repr

/-- Tensors of one bank. -/
def Memory.bank (m : Memory) : Bank → List Tensor
  | .ins => m.ins
  | .outs => m.outs
  | .bodyIn => m.bodyIn
  | .bodyOut => m.bodyOut

/-- Tensor behind a reference. -/
def Memory.read (m : Memory) (r : MemRef) : Option Tensor := (m.bank r.bank)[r.idx]?

/-- Replace the tensor behind a reference. -/
def Memory.write (m : Memory) (r : MemRef) (t : Tensor) : Memory :=
  match r.bank with
  | .ins => { m with ins := m.ins.set r.idx t }
  | .outs => { m with outs := m.outs.set r.idx t }
  | .bodyIn => { m with bodyIn := m.bodyIn.set r.idx t }
  | .bodyOut => { m with bodyOut := m.bodyOut.set r.idx t }

/-- Whole-tensor copy into the existing destination storage. -/
def copyWhole (src dst : Tensor) : Tensor :=
  { dst with data := (List.range dst.data.length).map (fun (t : Nat) => readAt src.data (t : Int)) }

/-- Strided read: the destination (extent `part` along `axis`) receives the
slice `[off, off + part)` of the source along `axis`; every other dimension is
taken in full.  Destination element `(o, k, j)` is source element
`(o, off + k, j)`. -/
def copySliceOut (src dst : Tensor) (axis part : Nat) (off : Int) : Tensor :=
  let len := axisLen src.dims axis
  let inner := innerCount src.dims axis
  { dst with data := (List.range dst.data.length).map (fun t =>
      readAt src.data
        (((t / (part * inner) : Nat) : Int) * len * inner + off * inner
          + ((t % (part * inner) : Nat) : Int))) }

/-- Strided write: the slice `[off, off + part)` of the destination along
`axis` receives the source (extent `part` along `axis`); destination elements
outside the slice keep their value. -/
def copySliceIn (src dst : Tensor) (axis part : Nat) (off : Int) : Tensor :=
  let len := axisLen dst.dims axis
  let inner := innerCount dst.dims axis
  { dst with data := (List.range dst.data.length).map (fun u =>
      let o := u / (len * inner)
      let r := u % (len * inner)
      let k : Int := ((r / inner : Nat) : Int)
      if off ≤ k ∧ k < off + part then
        readAt src.data (((o * part : Nat) : Int) * inner + (k - off) * inner
          + ((r % inner : Nat) : Int))
      else dst.data.getD u 0) }

/-- Modelled from the spec: the classes derived from `PortMapHelper` are
missing.  The closed set of transfer kinds: plain copy, strided slice copy
(outer slice to body tensor, body tensor to outer slice) and back-edge copy.
Each helper holds its source and destination reference. -/
inductive PortMapHelper where
  | plainCopy (src dst : MemRef)
  | sliceToBody (src dst : MemRef) (rule : PortMap)
  | sliceFromBody (src dst : MemRef) (rule : PortMap)
  | backEdge (src dst : MemRef)
deriving DecidableEq, Repr

/-- Source reference of a helper. -/
def PortMapHelper.src : PortMapHelper → MemRef
  | .plainCopy s _ => s
  | .sliceToBody s _ _ => s
  | .sliceFromBody s _ _ => s
  | .backEdge s _ => s

/-- Destination reference of a helper. -/
def PortMapHelper.dst : PortMapHelper → MemRef
  | .plainCopy _ d => d
  | .sliceToBody _ d _ => d
  | .sliceFromBody _ d _ => d
  | .backEdge _ d => d

/-- Modelled from the spec: the result a helper writes to its destination for
iteration `n_iter`, given the current source and destination tensors. -/
def PortMapHelper.transferred (h : PortMapHelper) (n_iter : Int) (s d : Tensor) : Tensor :=
  match h with
  | .plainCopy _ _ => copyWhole s d
  | .backEdge _ _ => copyWhole s d
  | .sliceToBody _ _ rule =>
    copySliceOut s d rule.axis.toNat rule.part_size.toNat
      (sliceOffset rule (axisLen s.dims rule.axis.toNat) n_iter.toNat)
  | .sliceFromBody _ _ rule =>
    copySliceIn s d rule.axis.toNat rule.part_size.toNat
      (sliceOffset rule (axisLen d.dims rule.axis.toNat) n_iter.toNat)

/-- Modelled from the spec: `PortMapHelper::execute(strm, n_iter)` performs
exactly one transfer between the bound source and destination; it mutates the
destination contents only. -/
def PortMapHelper.execute (h : PortMapHelper) (n_iter : Int) (m : Memory) : Memory :=
  match m.read h.src, m.read h.dst with
  | some s, some d => m.write h.dst (h.transferred n_iter s d)
  | _, _ => m

/-- Modelled from the spec: the classes derived from `PortChecker` are
missing.  As in the base class of the header, whose only data member is
`mem_holder`, a checker owns a reference to a single scalar tensor and nothing
else. -/
structure PortChecker where
  mem_holder : MemRef
deriving DecidableEq, Repr

/-- Modelled from the spec: `PortChecker::getStatus` re-reads the scalar of the
bound tensor on every call. -/
def PortChecker.getStatus (c : PortChecker) (m : Memory) : Int :=
  match m.read c.mem_holder with
  | some t => readAt t.data 0
  | none => 0

/-! ## DynamicBuffer -/

/-- Growable accumulation buffer of one dynamic-shape output, `class
DynamicBuffer` of the header.  Field names, types and initial values are those
of the header; `mem_holder_buffer` is the owned byte array.  `growth` is the
capacity policy used when the buffer is too small (current capacity and
required size to proposed capacity): the specification recommends doubling
and fixes no policy. -/
structure DynamicBuffer where
  len : Nat := 1
  count : Nat := 1
  chunk_stride_in_byte : Int := 0
  chunk_offset_in_byte : Int := 0
  chunk_unit_in_byte : Nat := 0
  num_execs : Int := 0
  max_iter_count : Int := -1
  from_ : MemRef
  to_ : List MemRef
  map_rule : PortMap
  elem_size : Nat := 0
  mem_holder_buffer : List Int := []
  growth : Nat → Nat → Nat

/-- Geometric growth: double the capacity. -/
def doubling (capacity _required : Nat) : Nat := 2 * capacity

/-- Modelled from the spec: `DynamicBuffer::reset(max_iter_count_)` zeroes the
counters and preallocates a buffer sized for the estimate (nothing when the
estimate is not positive or the chunk size is not known yet). -/
def DynamicBuffer.reset (b : DynamicBuffer) (max_iter_count_ : Int) : DynamicBuffer :=
  { b with
    count := 0
    num_execs := 0
    chunk_offset_in_byte := 0
    max_iter_count := max_iter_count_
    mem_holder_buffer := List.replicate (max_iter_count_.toNat * b.chunk_unit_in_byte) 0 }

/-- Modelled from the spec: `DynamicBuffer::init` fixes the per-iteration chunk
size from the per-iteration source (its storage, read as bytes); consecutive
chunks follow each other, so the chunk stride is the chunk size. -/
def DynamicBuffer.init (b : DynamicBuffer) (src : Tensor) : DynamicBuffer :=
  { b with
    len := src.data.length
    chunk_unit_in_byte := src.data.length
    chunk_stride_in_byte := (src.data.length : Int) }

/-- Modelled from the spec: `DynamicBuffer::check_buffer`, true when the
existing buffer can hold this iteration's destination range. -/
def DynamicBuffer.check_buffer (b : DynamicBuffer) : Bool :=
  decide (0 ≤ b.chunk_offset_in_byte ∧
    b.chunk_offset_in_byte + b.chunk_unit_in_byte ≤ (b.mem_holder_buffer.length : Int))

/-- Modelled from the spec: `DynamicBuffer::create_buffer` allocates a new
buffer at least large enough for the range being written. -/
def DynamicBuffer.create_buffer (b : DynamicBuffer) : List Int :=
  let required := (b.chunk_offset_in_byte + b.chunk_unit_in_byte).toNat
  List.replicate (max (b.growth b.mem_holder_buffer.length required) required) 0

/-- Modelled from the spec: `DynamicBuffer::copy`, the bytes of `src` written
to `dst` at byte offset `offset`, `len` bytes. -/
def DynamicBuffer.copy (src dst : List Int) (offset : Int) (len : Nat) : List Int :=
  (List.range dst.length).map (fun (p : Nat) =>
    if offset ≤ (p : Int) ∧ (p : Int) < offset + len then readAt src ((p : Int) - offset)
    else dst.getD p 0)

/-- Modelled from the spec: `DynamicBuffer::move_data` copies all previously
written data (the first `count` chunks) into the new buffer. -/
def DynamicBuffer.move_data (b : DynamicBuffer) (new_buffer : List Int) : List Int :=
  DynamicBuffer.copy b.mem_holder_buffer new_buffer 0
    (min (b.count * b.chunk_unit_in_byte) b.mem_holder_buffer.length)

/-- Modelled from the spec: `DynamicBuffer::move_buffer` releases the old
buffer and holds the new one. -/
def DynamicBuffer.move_buffer (b : DynamicBuffer) (new_buffer : List Int) : DynamicBuffer :=
  { b with mem_holder_buffer := new_buffer }

/-- Modelled from the spec: one accumulation step on the chunk `src`: compute
the destination range (`chunk_offset = count * chunk_stride`), grow with copy
when the buffer cannot hold it, copy the chunk in, increment `count`. -/
def DynamicBuffer.accumulate (b : DynamicBuffer) (src : Tensor) : DynamicBuffer :=
  let b1 := if b.num_execs = 0 then b.init src else b
  let b2 := { b1 with chunk_offset_in_byte := (b1.count : Int) * b1.chunk_stride_in_byte }
  let b3 := if b2.check_buffer then b2 else b2.move_buffer (b2.move_data b2.create_buffer)
  { b3 with
    mem_holder_buffer :=
      DynamicBuffer.copy src.data b3.mem_holder_buffer b3.chunk_offset_in_byte
        b3.chunk_unit_in_byte
    count := b3.count + 1
    num_execs := b3.num_execs + 1 }

/-- Modelled from the spec: `DynamicBuffer::execute(eng, iter)` accumulates the
current content of the per-iteration source tensor. -/
def DynamicBuffer.execute (b : DynamicBuffer) (m : Memory) (_iter : Int) : DynamicBuffer :=
  match m.read b.from_ with
  | some src => b.accumulate src
  | none => b

/-- Modelled from the spec: the output `DynamicBuffer::transfer` exposes: the
logically used prefix of the buffer, the iterated-axis extent set to `count`;
the other dimensions are those of the per-iteration source (of the old output
when nothing was written). -/
def DynamicBuffer.exposed (b : DynamicBuffer) (src old : Tensor) : Tensor :=
  { dims := (if 0 < b.num_execs then src.dims else old.dims).set b.map_rule.axis.toNat b.count
    data := b.mem_holder_buffer.take (b.count * b.chunk_unit_in_byte) }

/-- Write the exposed output to every destination reference. -/
def DynamicBuffer.publish (b : DynamicBuffer) (src : Tensor) : List MemRef → Memory → Memory
  | [], m => m
  | r :: rs, m =>
    match m.read r with
    | some old => DynamicBuffer.publish b src rs (m.write r (b.exposed src old))
    | none => DynamicBuffer.publish b src rs m

/-- Modelled from the spec: `DynamicBuffer::transfer(node)` copies the used
prefix of the accumulated buffer into the node's output memory, resized to
exactly the accumulated size. -/
def DynamicBuffer.transfer (b : DynamicBuffer) (m : Memory) : Memory :=
  b.publish ((m.read b.from_).getD ⟨[], []⟩) b.to_ m

/-! ## TensorIterator controller -/

/-- Observable steps of one controller execution, in the order they happen.
Mappers and buffers are named by their position in the owning sequence. -/
inductive Event where
  | firstTransfer (k : Nat)
  | beforeTransfer (i k : Nat)
  | backTransfer (i k : Nat)
  | bodyExec (i : Nat)
  | afterTransfer (i k : Nat)
  | bufferExec (i k : Nat)
  | condRead (i : Nat) (status : Int)
  | lastTransfer (k : Nat)
  | bufferTransfer (k : Nat)
deriving DecidableEq, Repr

/-- Controller state, `class TensorIterator` of the header.  `sub_graph` is the
compiled body (body inputs to body outputs); `mem` holds the tensors behind
`input_mems`, `output_mem` and the node's own edges.  `numIteration` and
`preparedShapes` are the part of the prepared plan that the header keeps
inside the helpers: the bound returned by `getNumIteration` and the input
shapes the plan was derived from. -/
structure TensorIterator where
  sub_graph : List Tensor → List Tensor
  mem : Memory
  first_mappers : List ((Int × Int) × PortMapHelper) := []
  last_mappers : List PortMapHelper := []
  before_mappers : List PortMapHelper := []
  after_mappers : List PortMapHelper := []
  back_mappers : List PortMapHelper := []
  trip_count_check : PortChecker
  initial_cond_check : PortChecker
  continue_cond_check : PortChecker
  buffers : List DynamicBuffer := []
  inputPortMap : List PortMap := []
  outputPortMap : List PortMap := []
  backEdges : List PortMap := []
  loopBodyCurrentIterationIdx : List Int := []
  loopBodyConditionOutputIdx : Int := -1
  loopTripCountIdx : Int := -1
  loopExecutionConditionIdx : Int := -1
  lastUsedTripCount : Int := -1
  lastUsedCond : Bool := false
  numIteration : Option Nat := none
  preparedShapes : Option (List (List Nat)) := none

/-- Inline member of the header:
`bool needShapeInfer() const override { return false; }`. -/
def TensorIterator.needShapeInfer (_node : TensorIterator) : Bool := false

/-- Shapes of the node's external inputs. -/
def TensorIterator.inputShapes (node : TensorIterator) : List (List Nat) :=
  node.mem.ins.map Tensor.dims

/-- Insert into the `(from,to)`-keyed map of one-time transfers: an existing
entry with the same key is replaced, otherwise the entry is added. -/
def insertFirst (key : Int × Int) (h : PortMapHelper) :
    List ((Int × Int) × PortMapHelper) → List ((Int × Int) × PortMapHelper)
  | [] => [(key, h)]
  | (k, old) :: rest =>
    if k = key then (k, h) :: rest else (k, old) :: insertFirst key h rest

/-- Modelled from the spec: `TensorIterator::prepareInputPorts`.  In port-map
order, a sliced input rule yields a per-iteration "before" transfer (a strided
helper built with `helperRule`), any other input rule a once-before-loop
transfer keyed by `(from,to)`. -/
def prepareInputPorts (inputPortMap : List PortMap) :
    List ((Int × Int) × PortMapHelper) × List PortMapHelper :=
  inputPortMap.foldl (fun acc rule =>
    if rule.isIterable then
      (acc.1, acc.2 ++
        [.sliceToBody ⟨.ins, rule.from_.toNat⟩ ⟨.bodyIn, rule.to_.toNat⟩ rule.helperRule])
    else
      (insertFirst (rule.from_, rule.to_)
        (.plainCopy ⟨.ins, rule.from_.toNat⟩ ⟨.bodyIn, rule.to_.toNat⟩) acc.1, acc.2))
    ([], [])

/-- Modelled from the spec: `TensorIterator::prepareOutputPorts`.  In port-map
order, a sliced output rule yields a per-iteration "after" transfer, any other
output rule a once-after-loop transfer. -/
def prepareOutputPorts (outputPortMap : List PortMap) :
    List PortMapHelper × List PortMapHelper :=
  outputPortMap.foldl (fun acc rule =>
    if rule.isIterable then
      (acc.1, acc.2 ++
        [.sliceFromBody ⟨.bodyOut, rule.to_.toNat⟩ ⟨.outs, rule.from_.toNat⟩ rule.helperRule])
    else
      (acc.1 ++ [.plainCopy ⟨.bodyOut, rule.to_.toNat⟩ ⟨.outs, rule.from_.toNat⟩], acc.2))
    ([], [])

/-- Modelled from the spec: `TensorIterator::prepareBackEdges`, one back-edge
copy (body output `from` to body input `to`) per rule. -/
def prepareBackEdges (backEdges : List PortMap) : List PortMapHelper :=
  backEdges.map fun rule =>
    .backEdge ⟨.bodyOut, rule.from_.toNat⟩ ⟨.bodyIn, rule.to_.toNat⟩

/-- Modelled from the spec: `TensorIterator::needPrepareParams`: the plan is
reused when the trip count and the initial condition equal the cached values
and no input shape changed. -/
def TensorIterator.needPrepareParams (node : TensorIterator) : Bool :=
  node.trip_count_check.getStatus node.mem != node.lastUsedTripCount ||
  (node.initial_cond_check.getStatus node.mem != 0) != node.lastUsedCond ||
  node.preparedShapes != some node.inputShapes

/-- Modelled from the spec: a port map is well formed for the two tensors it
connects when `part_size` and `stride` are nonzero ("both nonzero in any used
mapping") and, when it names an iteration axis, the axis fits the rank of both
tensors. -/
def PortMap.wellFormed (rule : PortMap) (outer body : List Nat) : Bool :=
  rule.part_size != 0 && rule.stride != 0 &&
    (!rule.isIterable ||
      (decide (0 ≤ rule.axis) && decide (rule.axis < (outer.length : Int)) &&
        decide (rule.axis < (body.length : Int))))

/-- Tensor at a signed index of a tensor list. -/
def tensorAt (ts : List Tensor) (idx : Int) : Option Tensor :=
  if idx < 0 then none else ts[idx.toNat]?

/-- Modelled from the spec: preparation checks every rule of a port map
against the tensors it connects (`from` indexes `outer`, `to` indexes `body`);
a malformed rule, or a rule that names a tensor that does not exist, is a
fatal configuration error. -/
def validatePortMaps (outer body : List Tensor) : List PortMap → Except Error Unit
  | [] => .ok ()
  | rule :: rest =>
    match tensorAt outer rule.from_, tensorAt body rule.to_ with
    | some o, some b =>
      if rule.wellFormed o.dims b.dims then validatePortMaps outer body rest
      else .error .configuration
    | _, _ => .error .configuration

/-- Modelled from the spec: the checks `prepareInputPorts`,
`prepareOutputPorts` and `prepareBackEdges` make on their port maps.  Input
rules connect external inputs to body inputs, output rules external outputs to
body outputs, back edges body outputs to body inputs. -/
def TensorIterator.validatePlan (node : TensorIterator) : Except Error Unit :=
  match validatePortMaps node.mem.ins node.mem.bodyIn node.inputPortMap with
  | .error e => .error e
  | .ok _ =>
    match validatePortMaps node.mem.outs node.mem.bodyOut node.outputPortMap with
    | .error e => .error e
    | .ok _ => validatePortMaps node.mem.bodyOut node.mem.bodyIn node.backEdges

/-- Modelled from the spec: `TensorIterator::prepareParams` checks the port
maps, re-derives the mappers and the iteration bound from the port maps and
the actual shapes, and caches the trip count and condition it was prepared
for.  A malformed port map is a fatal configuration error. -/
def TensorIterator.prepareParams (node : TensorIterator) : Except Error TensorIterator :=
  match node.validatePlan with
  | .error e => .error e
  | .ok _ =>
    match getNumIteration node.inputShapes node.inputPortMap node.outputPortMap with
    | .error e => .error e
    | .ok n =>
      .ok { node with
        first_mappers := (prepareInputPorts node.inputPortMap).1
        before_mappers := (prepareInputPorts node.inputPortMap).2
        last_mappers := (prepareOutputPorts node.outputPortMap).1
        after_mappers := (prepareOutputPorts node.outputPortMap).2
        back_mappers := prepareBackEdges node.backEdges
        lastUsedTripCount := node.trip_count_check.getStatus node.mem
        lastUsedCond := node.initial_cond_check.getStatus node.mem != 0
        numIteration := n
        preparedShapes := some node.inputShapes }

/-- Apply a sequence of helpers in order for iteration `n_iter`. -/
def applyMappers (hs : List PortMapHelper) (n_iter : Int) (m : Memory) : Memory :=
  hs.foldl (fun acc h => h.execute n_iter acc) m

/-- Running state of one execution. -/
structure LoopState where
  mem : Memory
  buffers : List DynamicBuffer
  trace : List Event

/-- Modelled from the spec: the transfers preceding the body in iteration `i`:
all `before_mappers`, then all `back_mappers`.  The back-edge copy carries the
previous iteration's body output, so it applies from the second iteration
on. -/
def TensorIterator.beforeBody (node : TensorIterator) (i : Nat) (m : Memory) : Memory :=
  let m1 := applyMappers node.before_mappers i m
  if i = 0 then m1 else applyMappers node.back_mappers i m1

/-- Modelled from the spec: one `Iterating` step for iteration `i`: apply all
`before_mappers` and `back_mappers`, invoke the body, apply all
`after_mappers` and advance the dynamic buffers. -/
def TensorIterator.iterate (node : TensorIterator) (i : Nat) (st : LoopState) : LoopState :=
  let m2 := node.beforeBody i st.mem
  let m3 := { m2 with bodyOut := node.sub_graph m2.bodyIn }
  let m4 := applyMappers node.after_mappers i m3
  { mem := m4
    buffers := st.buffers.map (fun b => b.execute m4 i)
    trace := st.trace
      ++ (List.range node.before_mappers.length).map (Event.beforeTransfer i)
      ++ (if i = 0 then [] else (List.range node.back_mappers.length).map (Event.backTransfer i))
      ++ [Event.bodyExec i]
      ++ (List.range node.after_mappers.length).map (Event.afterTransfer i)
      ++ (List.range st.buffers.length).map (Event.bufferExec i) }

/-- One `Iterating` step followed by the evaluation of `continue_cond_check`
(recorded in the trace). -/
def TensorIterator.step (node : TensorIterator) (i : Nat) (st : LoopState) : LoopState :=
  let st1 := node.iterate i st
  { st1 with
    trace := st1.trace ++ [Event.condRead i (node.continue_cond_check.getStatus st1.mem)] }

/-- Modelled from the spec: the `Iterating` state.  `cond` is the condition
value read last (the initial condition before iteration 0); a value outside
`{0,1}` is a fatal execution error.  The loop stops when the condition is 0
or when the iteration count `i` reaches the resolved bound; otherwise it runs
iteration `i` and evaluates `continue_cond_check`.  `none` means the fuel ran
out before the loop stopped. -/
def TensorIterator.loop (node : TensorIterator) (bound : Option Nat) :
    Nat → Nat → Int → LoopState → Option (Except Error (Nat × LoopState))
  | fuel, i, cond, st =>
    if cond ≠ 0 ∧ cond ≠ 1 then some (.error .runtimeContract)
    else if cond = 0 ∨ bound = some i then some (.ok (i, st))
    else
      match fuel with
      | 0 => none
      | fuel + 1 =>
        node.loop bound fuel (i + 1)
          (node.continue_cond_check.getStatus (node.step i st).mem) (node.step i st)

/-- Outcome of one execution: the controller afterwards (memory and buffers
updated), the number of body executions and the event trace. -/
structure ExecResult where
  node : TensorIterator
  iterations : Nat
  trace : List Event

/-- Estimated maximum iteration count handed to the buffers (`-1` when
unknown). -/
def boundEstimate : Option Nat → Int
  | none => -1
  | some n => (n : Int)

/-- Apply every dynamic buffer's `transfer` in order. -/
def transferBuffers (bs : List DynamicBuffer) (m : Memory) : Memory :=
  bs.foldl (fun acc b => b.transfer acc) m

/-- Modelled from the spec: the `FirstTransfer` state: the dynamic buffers are
reset and every once-before-loop transfer is applied once. -/
def TensorIterator.firstTransfer (node : TensorIterator) (bound : Option Nat) : LoopState :=
  { mem := applyMappers (node.first_mappers.map Prod.snd) (-1) node.mem
    buffers := node.buffers.map (fun b => b.reset (boundEstimate bound))
    trace := (List.range node.first_mappers.length).map Event.firstTransfer }

/-- State reached from `st` after the `d` iterations `i, i+1, ..., i+d-1`. -/
def TensorIterator.iterFrom (node : TensorIterator) : Nat → Nat → LoopState → LoopState
  | 0, _, st => st
  | d + 1, i, st => node.iterFrom d (i + 1) (node.step i st)

/-- Condition values governing the iterations `i, i+1, ...` when the loop is at
iteration `i` with condition value `cond` in state `st`: value `0` is `cond`,
value `k+1` is what `continue_cond_check` reads after iteration `i+k`. -/
def TensorIterator.condFrom (node : TensorIterator) : Nat → Nat → Int → LoopState → Int
  | 0, _, cond, _ => cond
  | k + 1, i, _, st =>
    node.condFrom k (i + 1) (node.continue_cond_check.getStatus (node.step i st).mem)
      (node.step i st)

/-- Condition value governing iteration `k` of one execution: the initial
condition for `k = 0`, otherwise the value `continue_cond_check` reads after
iteration `k - 1` (were the loop to get that far). -/
def TensorIterator.condAt (node : TensorIterator) (k : Nat) : Int :=
  node.condFrom k 0 (node.initial_cond_check.getStatus node.mem) (node.firstTransfer none)

/-- Modelled from the spec: `TensorIterator::execute`.  Read the trip count
and the initial condition, reset the dynamic buffers, apply the once-before
transfers, run the loop, apply the once-after transfers and finalize the
dynamic outputs. -/
def TensorIterator.execute (node : TensorIterator) (fuel : Nat) :
    Option (Except Error ExecResult) :=
  match resolveTripCount (node.trip_count_check.getStatus node.mem) with
  | .error e => some (.error e)
  | .ok trip =>
    let bound := combineBound trip node.numIteration
    match node.loop bound fuel 0 (node.initial_cond_check.getStatus node.mem)
        (node.firstTransfer bound) with
    | none => none
    | some (.error e) => some (.error e)
    | some (.ok (n, st)) =>
      let m1 := applyMappers node.last_mappers (-1) st.mem
      some (.ok
        { node := { node with mem := transferBuffers st.buffers m1, buffers := st.buffers }
          iterations := n
          trace := st.trace
            ++ (List.range node.last_mappers.length).map Event.lastTransfer
            ++ (List.range st.buffers.length).map Event.bufferTransfer })

/-- Modelled from the spec: the host protocol around one execution with the
re-preparation shortcut: prepare only when `needPrepareParams` asks for it,
then execute. -/
def TensorIterator.executeDynamicImpl (node : TensorIterator) (fuel : Nat) :
    Option (Except Error ExecResult) :=
  if node.needPrepareParams then
    match node.prepareParams with
    | .error e => some (.error e)
    | .ok prepared => prepared.execute fuel
  else node.execute fuel

/-- Execution after an unconditional full re-preparation. -/
def TensorIterator.executeAfterPrepare (node : TensorIterator) (fuel : Nat) :
    Option (Except Error ExecResult) :=
  match node.prepareParams with
  | .error e => some (.error e)
  | .ok prepared => prepared.execute fuel

/-! ## Notions used to state the properties -/

/-- Accumulation invariant of a dynamic buffer that has received the chunks
`chunks` (each of `s` bytes) since its last reset. -/
def DynamicBuffer.Holds (b : DynamicBuffer) (s : Nat) (chunks : List (List Int)) : Prop :=
  b.count = chunks.length ∧ b.num_execs = (chunks.length : Int) ∧
  (0 < chunks.length → b.chunk_unit_in_byte = s ∧ b.chunk_stride_in_byte = (s : Int)) ∧
  b.mem_holder_buffer.take (chunks.length * s) = chunks.flatten

/-- Successive `execute` calls of one controller execution, one per memory
state (the memory as it is after the body ran), iteration numbers from `i`. -/
def DynamicBuffer.executeAll : DynamicBuffer → Nat → List Memory → DynamicBuffer
  | b, _, [] => b
  | b, i, m :: ms => DynamicBuffer.executeAll (b.execute m i) (i + 1) ms

/-- The `len` bytes a chunk copy reads from `src` (zero where `src` is
shorter). -/
def chunkBytes (src : List Int) (len : Nat) : List Int :=
  (List.range len).map (fun (p : Nat) => readAt src (p : Int))

/-- Scalar tensor. -/
def scalar (v : Int) : Tensor := ⟨[1], [v]⟩

/-- Example body: input 0 is the current slice `x`, input 1 the running sum
`s`; output 0 is `s + x`, output 1 the continue condition (`s + x ≤ 5`). -/
def sumBody (i : List Tensor) : List Tensor :=
  let x := readAt (i.getD 0 (scalar 0)).data 0
  let s := readAt (i.getD 1 (scalar 0)).data 0
  [scalar (s + x), scalar (if s + x > 5 then 0 else 1)]

/-- Example loop: sums the slices of a 4-vector; the external inputs are the
vector, the initial sum, the trip count and the initial condition. -/
def sumLoop (trip cond : Int) : TensorIterator :=
  { sub_graph := sumBody
    mem :=
      { ins := [⟨[4], [1, 2, 3, 4]⟩, scalar 0, scalar trip, scalar cond]
        outs := [scalar 0, ⟨[4], [0, 0, 0, 0]⟩, ⟨[0], []⟩]
        bodyIn := [scalar 0, scalar 0]
        bodyOut := [scalar 0, scalar 0] }
    trip_count_check := ⟨⟨.ins, 2⟩⟩
    initial_cond_check := ⟨⟨.ins, 3⟩⟩
    continue_cond_check := ⟨⟨.bodyOut, 1⟩⟩
    inputPortMap := [⟨0, 0, 0, 1, 0, -1, 1⟩, ⟨1, 1, -1, 1, 0, -1, 1⟩]
    outputPortMap := [⟨0, 0, -1, 1, 0, -1, 1⟩, ⟨1, 0, 0, 1, 0, -1, 1⟩]
    backEdges := [⟨0, 1, -1, 1, 0, -1, 1⟩]
    buffers :=
      [{ from_ := ⟨.bodyOut, 0⟩, to_ := [⟨.outs, 2⟩], map_rule := ⟨2, 0, 0, 1, 0, -1, 1⟩,
         growth := doubling }] }

/-- The example loop after preparation. -/
def sumLoopPrepared (trip cond : Int) : TensorIterator :=
  { sumLoop trip cond with
    first_mappers := (prepareInputPorts (sumLoop trip cond).inputPortMap).1
    before_mappers := (prepareInputPorts (sumLoop trip cond).inputPortMap).2
    last_mappers := (prepareOutputPorts (sumLoop trip cond).outputPortMap).1
    after_mappers := (prepareOutputPorts (sumLoop trip cond).outputPortMap).2
    back_mappers := prepareBackEdges (sumLoop trip cond).backEdges
    lastUsedTripCount := trip
    lastUsedCond := cond != 0
    numIteration := some 4
    preparedShapes := some [[4], [1], [1], [1]] }

/-- Example body: input 0 is a counter `c`; output 0 is `c + 1`, output 1 the
continue condition, 1 while `c + 1 < 4`. -/
def countingBody (i : List Tensor) : List Tensor :=
  let c := readAt (i.getD 0 (scalar 0)).data 0
  [scalar (c + 1), scalar (if c + 1 < 4 then 1 else 0)]

/-- Example loop around `countingBody`: the counter starts from external input
0 and is carried by a back edge; the external inputs 1 and 2 are the trip count
and the initial condition.  The continue condition reads 1, 1, 1, 0. -/
def countingLoop (trip cond : Int) : TensorIterator :=
  { sub_graph := countingBody
    mem :=
      { ins := [scalar 0, scalar trip, scalar cond]
        outs := [scalar 0]
        bodyIn := [scalar 0]
        bodyOut := [scalar 0, scalar 0] }
    trip_count_check := ⟨⟨.ins, 1⟩⟩
    initial_cond_check := ⟨⟨.ins, 2⟩⟩
    continue_cond_check := ⟨⟨.bodyOut, 1⟩⟩
    inputPortMap := [⟨0, 0, -1, 1, 0, -1, 1⟩]
    outputPortMap := [⟨0, 0, -1, 1, 0, -1, 1⟩]
    backEdges := [⟨0, 0, -1, 1, 0, -1, 1⟩]
    first_mappers := [((0, 0), .plainCopy ⟨.ins, 0⟩ ⟨.bodyIn, 0⟩)]
    last_mappers := [.plainCopy ⟨.bodyOut, 0⟩ ⟨.outs, 0⟩]
    back_mappers := [.backEdge ⟨.bodyOut, 0⟩ ⟨.bodyIn, 0⟩]
    lastUsedTripCount := trip
    lastUsedCond := cond != 0
    preparedShapes := some [[1], [1], [1]] }

/-- Example dynamic buffer: accumulates body output 0 into external output 0
along axis 0, doubling its capacity on growth. -/
def sampleBuffer : DynamicBuffer :=
  { from_ := ⟨.bodyOut, 0⟩, to_ := [⟨.outs, 0⟩], map_rule := ⟨0, 0, 0, 1, 0, -1, 1⟩,
    growth := doubling }

/-- Example memory whose body output 0 holds the given bytes as a `[1, n]`
chunk. -/
def chunkMemory (bytes : List Int) : Memory :=
  { ins := [], outs := [⟨[0, 2], []⟩], bodyIn := [], bodyOut := [⟨[1, bytes.length], bytes⟩] }

/-- Port map of the slice-copy scenario:
`PortMap{from=0,to=0,axis=1,stride=1,start=0,end=-1,part_size=2}`. -/
def scenarioMap : PortMap :=
  { from_ := 0, to_ := 0, axis := 1, stride := 1, start := 0, end_ := -1, part_size := 2 }

/-- Outer tensor of shape `[4,10]` whose element at row `r`, column `c` is
`10 * r + c`. -/
def scenarioOuter : Tensor := ⟨[4, 10], (List.range 40).map (fun (t : Nat) => (t : Int))⟩

/-- Body tensor of shape `[4,2]` receiving the slices. -/
def scenarioBody : Tensor := ⟨[4, 2], List.replicate 8 0⟩

/-- Example body with an invalid continue condition: input 0 is a counter `c`;
output 0 is `c + 1` and output 1, read as continue condition, is `c + 1` too
(1 after the first iteration, 2 after the second). -/
def brokenBody (i : List Tensor) : List Tensor :=
  let c := readAt (i.getD 0 (scalar 0)).data 0
  [scalar (c + 1), scalar (c + 1)]

/-- The counting loop (trip count 10, initial condition 1) around
`brokenBody`. -/
def brokenLoop : TensorIterator :=
  { countingLoop 10 1 with sub_graph := brokenBody }

/-- Example loop without transfers whose body always reports the continue
condition 1; trip count 2, initial condition 1. -/
def steadyLoop : TensorIterator :=
  { sub_graph := fun _ => [scalar 0, scalar 1]
    mem := { ins := [scalar 2, scalar 1], outs := [], bodyIn := [], bodyOut := [] }
    trip_count_check := ⟨⟨.ins, 0⟩⟩
    initial_cond_check := ⟨⟨.ins, 1⟩⟩
    continue_cond_check := ⟨⟨.bodyOut, 1⟩⟩ }

/-- A port map that the specification calls malformed for the tensor lists it
connects: its `part_size` is 0, or it names an iteration axis that does not fit
the rank of the tensors it connects (`from` indexes `outer`, `to` indexes
`body`). -/
def PortMap.IllFormed (rule : PortMap) (outer body : List Tensor) : Prop :=
  rule.part_size = 0 ∨
    (rule.axis ≠ -1 ∧ ∀ o b, tensorAt outer rule.from_ = some o →
      tensorAt body rule.to_ = some b →
      (rule.axis < 0 ∨ (o.dims.length : Int) ≤ rule.axis ∨ (b.dims.length : Int) ≤ rule.axis))

/-- The example loop with a second input rule of part size 0. -/
def zeroPartLoop : TensorIterator :=
  { sumLoop 2 1 with
    inputPortMap := [⟨0, 0, 0, 1, 0, -1, 1⟩, ⟨1, 1, -1, 1, 0, -1, 0⟩] }

/-- The example loop whose sliced output rule names axis 3 of rank-1 tensors. -/
def badAxisLoop : TensorIterator :=
  { sumLoop 2 1 with
    outputPortMap := [⟨0, 0, -1, 1, 0, -1, 1⟩, ⟨1, 0, 3, 1, 0, -1, 1⟩] }

/-- The example loop whose input port map names the pair `(1,1)` twice. -/
def repeatedPairLoop : TensorIterator :=
  { sumLoop 2 1 with
    inputPortMap :=
      [⟨1, 1, -1, 1, 0, -1, 1⟩, ⟨0, 0, 0, 1, 0, -1, 1⟩, ⟨1, 1, -1, 1, 0, -1, 1⟩] }

/-- The loop `repeatedPairLoop` after preparation. -/
def repeatedPairPrepared : TensorIterator :=
  match repeatedPairLoop.prepareParams with
  | .ok prepared => prepared
  | .error _ => repeatedPairLoop

/-- Result of executing `repeatedPairPrepared` with fuel 5. -/
def repeatedPairRun : ExecResult :=
  match repeatedPairPrepared.execute 5 with
  | some (.ok r) => r
  | _ => { node := repeatedPairPrepared, iterations := 0, trace := [] }

/-! ## Eltwise shape inference (`shape_inference/custom/eltwise.cpp`) -/

/-- Dimensions of a tensor, `VectorDims` (`std::vector<size_t>`). -/
abbrev VectorDims := List Nat

/-- Status of a shape inference.  The enumeration is declared in
`shape_inference_status.hpp`; `infer` returns `success`. -/
inductive ShapeInferStatus where
  | success
  | skip
deriving DecidableEq, Repr

/-- Result of a shape inference: the output shapes and the status. -/
structure Result where
  dims : List VectorDims
  status : ShapeInferStatus
deriving DecidableEq, Repr

/-- Ways `EltwiseShapeInfer::infer` can fail: its two assertions, and an
access outside a vector (undefined behaviour in the source). -/
inductive InferError where
  /-- "Eltwise shape infer input and output shapes rank mismatch". -/
  | rankMismatch
  /-- "Eltwise shape infer input shapes dim index: j mismatch". -/
  | dimMismatch (j : Nat)
  /-- Vector subscript out of range. -/
  | outOfRange
deriving DecidableEq, Repr

/-- First loop of `infer`, from index `i` on: the pair `(max_rank,
max_rank_idx)` is replaced whenever a shape has a strictly larger rank. -/
def EltwiseShapeInfer.maxRankLoop : List VectorDims → Nat → Nat × Nat → Nat × Nat
  | [], _, acc => acc
  | item :: rest, i, (max_rank, max_rank_idx) =>
    if item.length > max_rank then EltwiseShapeInfer.maxRankLoop rest (i + 1) (item.length, i)
    else EltwiseShapeInfer.maxRankLoop rest (i + 1) (max_rank, max_rank_idx)

/-- Inner loop of `infer` over the dimensions `input_shape[j], input_shape[j+1],
...` (the list argument) of one input shape:
`if (input_shape[j] != output_shape[offset + j])` the output extent 1 is
replaced by the input extent, any other output extent requires the input
extent 1. -/
def EltwiseShapeInfer.dimLoop (offset : Nat) :
    List Nat → Nat → VectorDims → Except InferError VectorDims
  | [], _, output_shape => .ok output_shape
  | dim :: rest, j, output_shape =>
    match output_shape[offset + j]? with
    | none => .error .outOfRange
    | some out_dim =>
      if dim ≠ out_dim then
        if out_dim = 1 then
          EltwiseShapeInfer.dimLoop offset rest (j + 1) (output_shape.set (offset + j) dim)
        else if dim = 1 then EltwiseShapeInfer.dimLoop offset rest (j + 1) output_shape
        else .error (.dimMismatch j)
      else EltwiseShapeInfer.dimLoop offset rest (j + 1) output_shape

/-- Second loop of `infer` over the input shapes from index `i` on: the shape
at `max_rank_idx` is skipped, every other shape must not exceed the rank of
`output_shape` and is broadcast into it. -/
def EltwiseShapeInfer.shapeLoop (max_rank_idx : Nat) :
    List VectorDims → Nat → VectorDims → Except InferError VectorDims
  | [], _, output_shape => .ok output_shape
  | input_shape :: rest, i, output_shape =>
    if i = max_rank_idx then EltwiseShapeInfer.shapeLoop max_rank_idx rest (i + 1) output_shape
    else if ¬ (input_shape.length ≤ output_shape.length) then .error .rankMismatch
    else
      match EltwiseShapeInfer.dimLoop (output_shape.length - input_shape.length)
          input_shape 0 output_shape with
      | .error e => .error e
      | .ok merged => EltwiseShapeInfer.shapeLoop max_rank_idx rest (i + 1) merged

/-- `EltwiseShapeInfer::infer`: broadcast all input shapes into a copy of the
first shape of maximal rank.  The unused `data_dependency` argument is left
out. -/
def EltwiseShapeInfer.infer (input_shapes : List VectorDims) : Except InferError Result :=
  match input_shapes[(EltwiseShapeInfer.maxRankLoop input_shapes 0 (0, 0)).2]? with
  | none => .error .outOfRange
  | some output_shape =>
    match EltwiseShapeInfer.shapeLoop (EltwiseShapeInfer.maxRankLoop input_shapes 0 (0, 0)).2
        input_shapes 0 output_shape with
    | .error e => .error e
    | .ok merged => .ok { dims := [merged], status := .success }

/-- Extent of a shape at position `q` counted from the right (shapes
right-aligned); 1 where the shape has no dimension. -/
def rightDim (shape : VectorDims) (q : Nat) : Nat := shape.reverse.getD q 1

/-- NumPy broadcast compatibility: at every right-aligned position any two
input extents are equal or one of them is 1. -/
def BroadcastCompatible (shapes : List VectorDims) : Prop :=
  ∀ a ∈ shapes, ∀ b ∈ shapes, ∀ q,
    rightDim a q = rightDim b q ∨ rightDim a q = 1 ∨ rightDim b q = 1

/-- With shapes right-aligned, some position holds two input extents that
differ from each other and are both different from 1. -/
def BroadcastConflict (shapes : List VectorDims) : Prop :=
  ∃ a ∈ shapes, ∃ b ∈ shapes, ∃ q,
    rightDim a q ≠ rightDim b q ∧ rightDim a q ≠ 1 ∧ rightDim b q ≠ 1

/-- NumPy broadcast of the input shapes, in the words of the rule: the rank is
the maximum input rank and each extent is the extent different from 1 found
among the inputs at that position, or 1 when every input has 1 (or no
dimension) there. -/
def IsNumpyBroadcast (shapes : List VectorDims) (out : VectorDims) : Prop :=
  (∀ s ∈ shapes, s.length ≤ out.length) ∧ (∃ s ∈ shapes, s.length = out.length) ∧
  ∀ q, (∃ s ∈ shapes, rightDim s q ≠ 1 ∧ rightDim out q = rightDim s q ∧
        ∀ t ∈ shapes, rightDim t q ≠ 1 → rightDim t q = rightDim s q) ∨
      ((∀ s ∈ shapes, rightDim s q = 1) ∧ rightDim out q = 1)

/-- The running output shape `out` summarises the shapes `seen` so far: at every
right-aligned position each seen extent is 1 or the output extent, and an
output extent different from 1 is the extent of some seen shape. -/
def BroadcastOf (seen : List VectorDims) (out : VectorDims) : Prop :=
  ∀ q, (∀ s ∈ seen, rightDim s q = 1 ∨ rightDim s q = rightDim out q) ∧
    (rightDim out q = 1 ∨ ∃ s ∈ seen, rightDim s q = rightDim out q)

/-- Iteration a per-iteration event belongs to; `none` for the once-before and
once-after transfers. -/
def Event.iteration : Event → Option Nat
  | .beforeTransfer i _ => some i
  | .backTransfer i _ => some i
  | .bodyExec i => some i
  | .afterTransfer i _ => some i
  | .bufferExec i _ => some i
  | .condRead i _ => some i
  | .firstTransfer _ => none
  | .lastTransfer _ => none
  | .bufferTransfer _ => none

/-- Stage of an event inside its iteration: 0 for the transfers before the
body (before and back mappers), 1 for the body execution, 2 for the transfers
after the body (after mappers, dynamic buffers), 3 for the read of the continue
condition. -/
def Event.stage : Event → Nat
  | .beforeTransfer _ _ => 0
  | .backTransfer _ _ => 0
  | .bodyExec _ => 1
  | .afterTransfer _ _ => 2
  | .bufferExec _ _ => 2
  | .condRead _ _ => 3
  | .firstTransfer _ => 0
  | .lastTransfer _ => 0
  | .bufferTransfer _ => 0

/-- Two per-iteration events are in schedule order: `a` belongs to an earlier
iteration than `b`, or to the same iteration and not to a later stage. -/
def Event.InOrder (a b : Event) : Prop :=
  ∀ i j, a.iteration = some i → b.iteration = some j → i < j ∨ (i = j ∧ a.stage ≤ b.stage)

/-- Every occurrence of `a` in the event list comes before every occurrence of
`b`. -/
def Precedes (events : List Event) (a b : Event) : Prop :=
  ∀ p q : Nat, events[p]? = some a → events[q]? = some b → p < q

/-- Modelled from the spec: the events one `Iterating` step appends to the
trace, for iteration `i` of a controller with `buffers` dynamic buffers whose
continue condition reads `status`: before mappers, back mappers, body, after
mappers, dynamic buffers, condition read. -/
def TensorIterator.iterationEvents (node : TensorIterator) (i buffers : Nat) (status : Int) :
    List Event :=
  (List.range node.before_mappers.length).map (Event.beforeTransfer i)
    ++ (if i = 0 then [] else (List.range node.back_mappers.length).map (Event.backTransfer i))
    ++ [Event.bodyExec i]
    ++ (List.range node.after_mappers.length).map (Event.afterTransfer i)
    ++ (List.range buffers).map (Event.bufferExec i)
    ++ [Event.condRead i status]

/-- Result of executing the prepared example loop with trip count 2 (fuel
5). -/
def sumLoopRun : ExecResult :=
  match (sumLoopPrepared 2 1).execute 5 with
  | some (.ok r) => r
  | _ => { node := sumLoopPrepared 2 1, iterations := 0, trace := [] }

/-- Modelled from the spec: the first stage of `DynamicBuffer.accumulate`, the
state once this iteration's destination range is computed
(`chunk_offset = count * chunk_stride`), before the size check. -/
def DynamicBuffer.located (b : DynamicBuffer) (src : Tensor) : DynamicBuffer :=
  let b1 := if b.num_execs = 0 then b.init src else b
  { b1 with chunk_offset_in_byte := (b1.count : Int) * b1.chunk_stride_in_byte }

/-- Modelled from the spec: the growth stage of `DynamicBuffer.accumulate`, the
state after the replacement of a buffer that is too small: a new buffer is
created, the data written so far is moved into it (`move_data`) and it takes
the place of the old one. -/
def DynamicBuffer.grown (b : DynamicBuffer) (src : Tensor) : DynamicBuffer :=
  (b.located src).move_buffer ((b.located src).move_data (b.located src).create_buffer)

/-- The example buffer after a reset with estimate 1 and one chunk `[1, 2]`:
its two bytes of capacity are used up. -/
def fullBuffer : DynamicBuffer :=
  (sampleBuffer.reset 1).execute (chunkMemory [1, 2]) 0

/-- Modelled from the spec: the operation an event of the trace stands for,
on the running state of an execution (tensor memory and dynamic buffers): a
transfer event executes the mapper it names, `bodyExec` invokes the body,
`bufferExec` advances the named dynamic buffer, `bufferTransfer` finalizes it,
and `condRead` only reads. -/
def TensorIterator.perform (node : TensorIterator) (e : Event)
    (s : Memory × List DynamicBuffer) : Memory × List DynamicBuffer :=
  match e with
  | .firstTransfer k =>
    match node.first_mappers[k]? with
    | some keyed => (keyed.2.execute (-1) s.1, s.2)
    | none => s
  | .beforeTransfer i k =>
    match node.before_mappers[k]? with
    | some h => (h.execute i s.1, s.2)
    | none => s
  | .backTransfer i k =>
    match node.back_mappers[k]? with
    | some h => (h.execute i s.1, s.2)
    | none => s
  | .bodyExec _ => ({ s.1 with bodyOut := node.sub_graph s.1.bodyIn }, s.2)
  | .afterTransfer i k =>
    match node.after_mappers[k]? with
    | some h => (h.execute i s.1, s.2)
    | none => s
  | .bufferExec i k =>
    match s.2[k]? with
    | some b => (s.1, s.2.set k (b.execute s.1 i))
    | none => s
  | .condRead _ _ => s
  | .lastTransfer k =>
    match node.last_mappers[k]? with
    | some h => (h.execute (-1) s.1, s.2)
    | none => s
  | .bufferTransfer k =>
    match s.2[k]? with
    | some b => (b.transfer s.1, s.2)
    | none => s

/-- The operations of a list of events, performed in list order. -/
def TensorIterator.replay (node : TensorIterator) (events : List Event)
    (s : Memory × List DynamicBuffer) : Memory × List DynamicBuffer :=
  events.foldl (fun acc e => node.perform e acc) s

/-- The events are a faithful log from state `s` on: every logged condition
value is the value `continue_cond_check` reads in the state the replay has
reached when the read happens. -/
def TensorIterator.Faithful (node : TensorIterator) :
    List Event → Memory × List DynamicBuffer → Prop
  | [], _ => True
  | e :: es, s =>
    (∀ i status, e = Event.condRead i status →
        status = node.continue_cond_check.getStatus s.1) ∧
      TensorIterator.Faithful node es (node.perform e s)

/-- Element `(o, a, j)` of a row-major tensor seen around `axis`: `o` indexes
the dimensions before the axis, `a` the axis and `j` the dimensions after it
(0 outside the storage). -/
def Tensor.elemAt (t : Tensor) (axis o a j : Nat) : Int :=
  readAt t.data (((o * axisLen t.dims axis + a) * innerCount t.dims axis + j : Nat) : Int)

/-- Memory of the slice-copy scenario: the outer `[4,10]` tensor as external
input 0 and a `[4,2]` body input 0. -/
def scenarioMemory : Memory :=
  { ins := [scenarioOuter], outs := [], bodyIn := [scenarioBody], bodyOut := [] }

end ov.intel_cpu.node

namespace intel_npu

/-! ## NPU device helpers (`device_helpers.cpp`) -/

/-- Source `utils::isNPUDevice`: bits 26-24 of the device id give the interface
type, and the id names an NPU device when the selected bits are zero. The
argument is a `uint32_t`, embedded as a natural number; the bitwise and of
two 32-bit values is a 32-bit value, so nothing wraps. -/
def utils.isNPUDevice (deviceId : Nat) : Bool :=
  let INTERFACE_TYPE_SELECTOR : Nat := 0x7000000
  let interfaceType : Nat := deviceId &&& INTERFACE_TYPE_SELECTOR
  interfaceType == 0

/-- Source `utils::getSliceIdBySwDeviceId`: shift right to drop bit 0, then
mask with `0x7`; neither operation can leave the 32-bit range. -/
def utils.getSliceIdBySwDeviceId (swDevId : Nat) : Nat :=
  let sliceId : Nat := (swDevId >>> 1) &&& 0x7
  sliceId

/-- Source `std::string::rfind(char)`: the position of the last occurrence of
`c`, or `none` for `npos`. -/
def rfind : List Char → Char → Option Nat
  | [], _ => none
  | x :: xs, c =>
    match rfind xs c with
    | some pos => some (pos + 1)
    | none => if x = c then some 0 else none

/-- Source `utils::getPlatformByDeviceName`: the device name up to its last
dot, or the whole name when it has no dot. -/
def utils.getPlatformByDeviceName (deviceName : String) : String :=
  match rfind deviceName.toList '.' with
  | none => deviceName
  | some platformPos => String.mk (deviceName.toList.take platformPos)

/-- The message of the exception thrown when no device is available. -/
def NO_DEVICES_FOUND : String := "No NPU devices were found."

/-- The error of `vector::at` on an index out of range; the emptiness check
before the call makes it unreachable. -/
def OUT_OF_RANGE : String := "vector::at out of range"

/-- Source `utils::getCompilationPlatform`. The constant
`ov::intel_npu::Platform::AUTO_DETECT` is declared in a header outside the
embedded sources and is taken as the parameter `AUTO_DETECT`; a thrown
exception is the error case, carrying its message. -/
def utils.getCompilationPlatform (AUTO_DETECT platform deviceId : String)
    (availableDevicesNames : List String) : Except String String :=
  if platform ≠ AUTO_DETECT then .ok platform
  else if ¬ (deviceId = "") then .ok (utils.getPlatformByDeviceName deviceId)
  else if availableDevicesNames.isEmpty then .error NO_DEVICES_FOUND
  else
    match availableDevicesNames[0]? with
    | none => .error OUT_OF_RANGE
    | some deviceName => .ok (utils.getPlatformByDeviceName deviceName)

end intel_npu

/-! # Properties -/

namespace ov.intel_cpu.node

/-! ## Shape inference query -/

/-- C10: `needShapeInfer` is false for every controller state, whatever the
input shapes, the cached trip count and condition, and the prepared plan. -/
theorem needShapeInfer_false (node : TensorIterator) : node.needShapeInfer = false := rfl

/-! ## Iteration count -/

theorem minBound_some_iff (cs : List Nat) : ∀ (b : Option Nat) (m : Nat),
    minBound b cs = some m ↔
      ((b = some m ∨ m ∈ cs) ∧ (∀ x, b = some x → m ≤ x) ∧ ∀ c ∈ cs, m ≤ c) := by
  induction cs with
  | nil =>
    intro b m
    cases b with
    | none => simp [minBound]
    | some x =>
      simp only [minBound, Option.some.injEq, List.not_mem_nil, or_false, IsEmpty.forall_iff,
        implies_true, and_true]
      constructor
      · intro h; subst h; exact ⟨rfl, fun y hy => by omega⟩
      · intro h; exact h.1
  | cons c cs ih =>
    intro b m
    cases b with
    | none =>
      simp only [minBound, ih, Option.some.injEq, List.mem_cons, false_or, reduceCtorEq,
        IsEmpty.forall_iff, implies_true, true_and, forall_eq_or_imp]
      constructor
      · rintro ⟨h1, h2, h3⟩
        have hm : m ≤ c := h2 c rfl
        refine ⟨?_, hm, h3⟩
        rcases h1 with h | h
        · left; exact h.symm
        · right; exact h
      · rintro ⟨h1, h2, h3⟩
        refine ⟨?_, ?_, h3⟩
        · rcases h1 with h | h
          · left; exact h.symm
          · right; exact h
        · intro x hx; omega
    | some x =>
      simp only [minBound, ih, Option.some.injEq, List.mem_cons, forall_eq_or_imp]
      constructor
      · rintro ⟨h1, h2, h3⟩
        have hm : m ≤ min x c := h2 _ rfl
        have hx : m ≤ x := le_trans hm (min_le_left _ _)
        have hc : m ≤ c := le_trans hm (min_le_right _ _)
        refine ⟨?_, ?_, hc, h3⟩
        · rcases h1 with h | h
          · rcases le_total x c with hxc | hxc
            · left; rw [min_eq_left hxc] at h; exact h
            · right; left; rw [min_eq_right hxc] at h; exact h.symm
          · right; right; exact h
        · intro y hy; omega
      · rintro ⟨h1, h2, h3, h4⟩
        have hx : m ≤ x := h2 x rfl
        refine ⟨?_, ?_, h4⟩
        · rcases h1 with h | h | h
          · left; subst h; exact min_eq_left h3
          · left; subst h; exact min_eq_right hx
          · right; exact h
        · intro y hy; subst hy; exact le_min hx h3

theorem combineBound_some_iff (a b : Option Nat) (m : Nat) :
    combineBound a b = some m ↔
      ((a = some m ∨ b = some m) ∧ (∀ x, a = some x → m ≤ x) ∧ ∀ x, b = some x → m ≤ x) := by
  cases a <;> cases b <;> simp [combineBound]
  case none.some y => intro h; omega
  case some.none x => intro h; omega
  case some.some x y =>
    constructor
    · intro h; subst h
      refine ⟨?_, min_le_left _ _, min_le_right _ _⟩
      rcases le_total x y with h | h
      · left; exact (min_eq_left h).symm
      · right; exact (min_eq_right h).symm
    · rintro ⟨h1 | h1, h2, h3⟩
      · subst h1; exact min_eq_left h3
      · subst h1; exact min_eq_right h2

theorem loop_runs (node : TensorIterator) (bound : Option Nat) :
    ∀ (d fuel i : Nat) (cond : Int) (st : LoopState), d ≤ fuel →
      (∀ k < d, node.condFrom k i cond st = 1 ∧ bound ≠ some (i + k)) →
      (node.condFrom d i cond st = 0 ∨
        (node.condFrom d i cond st = 1 ∧ bound = some (i + d))) →
      node.loop bound fuel i cond st = some (.ok (i + d, node.iterFrom d i st)) := by
  intro d
  induction d with
  | zero =>
    intro fuel i cond st _ _ hstop
    simp only [TensorIterator.condFrom, Nat.add_zero] at hstop
    unfold TensorIterator.loop
    rcases hstop with h | ⟨h1, h2⟩
    · simp [h, TensorIterator.iterFrom]
    · simp [h1, h2, TensorIterator.iterFrom]
  | succ d ih =>
    intro fuel i cond st hfuel hrun hstop
    have h0 := hrun 0 (Nat.succ_pos d)
    simp only [TensorIterator.condFrom, Nat.add_zero] at h0
    obtain ⟨fuel, rfl⟩ : ∃ f, fuel = f + 1 := ⟨fuel - 1, by omega⟩
    unfold TensorIterator.loop
    have hne : ¬ (cond = 0 ∨ bound = some i) := by
      rintro (h | h)
      · rw [h0.1] at h; exact one_ne_zero h
      · exact h0.2 h
    simp only [h0.1, ne_eq, one_ne_zero, not_false_eq_true, not_true_eq_false, and_false,
      ↓reduceIte, false_or]
    rw [if_neg (fun h => hne (Or.inr h))]
    have := ih fuel (i + 1)
      (node.continue_cond_check.getStatus (node.step i st).mem) (node.step i st)
      (by omega)
      (fun k hk => by
        have := hrun (k + 1) (by omega)
        simp only [TensorIterator.condFrom] at this
        refine ⟨this.1, ?_⟩
        have h2 := this.2
        rwa [show i + (k + 1) = i + 1 + k by omega] at h2)
      (by
        simp only [TensorIterator.condFrom] at hstop
        rwa [show i + (d + 1) = i + 1 + d by omega] at hstop)
    rw [this]
    simp only [TensorIterator.iterFrom]
    rw [show i + (d + 1) = i + 1 + d by omega]

theorem prepareParams_ok {node prepared : TensorIterator}
    (h : node.prepareParams = .ok prepared) :
    ∃ n, getNumIteration node.inputShapes node.inputPortMap node.outputPortMap = .ok n ∧
      prepared = { node with
        first_mappers := (prepareInputPorts node.inputPortMap).1
        before_mappers := (prepareInputPorts node.inputPortMap).2
        last_mappers := (prepareOutputPorts node.outputPortMap).1
        after_mappers := (prepareOutputPorts node.outputPortMap).2
        back_mappers := prepareBackEdges node.backEdges
        lastUsedTripCount := node.trip_count_check.getStatus node.mem
        lastUsedCond := node.initial_cond_check.getStatus node.mem != 0
        numIteration := n
        preparedShapes := some node.inputShapes } := by
  unfold TensorIterator.prepareParams at h
  split at h
  · cases h
  · split at h
    · cases h
    · rename_i n hn
      refine ⟨n, hn, ?_⟩
      cases h
      rfl

theorem execute_of_loop (node : TensorIterator) (fuel : Nat) (trip : Option Nat) (n : Nat)
    (st : LoopState)
    (htrip : resolveTripCount (node.trip_count_check.getStatus node.mem) = .ok trip)
    (hloop : node.loop (combineBound trip node.numIteration) fuel 0
      (node.initial_cond_check.getStatus node.mem)
      (node.firstTransfer (combineBound trip node.numIteration)) = some (.ok (n, st))) :
    ∃ r, node.execute fuel = some (.ok r) ∧ r.iterations = n ∧
      r.node.mem = transferBuffers st.buffers (applyMappers node.last_mappers (-1) st.mem) ∧
      r.node.buffers = st.buffers ∧
      r.trace = st.trace
        ++ (List.range node.last_mappers.length).map Event.lastTransfer
        ++ (List.range st.buffers.length).map Event.bufferTransfer := by
  unfold TensorIterator.execute
  rw [htrip]
  simp only [hloop]
  exact ⟨_, rfl, rfl, rfl, rfl, rfl⟩

theorem resolveTripCount_ok {trip : Int} (h : -1 ≤ trip) :
    resolveTripCount trip = .ok (if trip = -1 then none else some trip.toNat) := by
  unfold resolveTripCount
  rw [if_neg (by omega)]
  split <;> rfl

theorem step_mem_congr (node : TensorIterator) (i : Nat) {st st' : LoopState}
    (h : st.mem = st'.mem) : (node.step i st).mem = (node.step i st').mem := by
  simp only [TensorIterator.step, TensorIterator.iterate, h]

theorem condFrom_congr (node : TensorIterator) :
    ∀ (k i : Nat) (cond : Int) (st st' : LoopState), st.mem = st'.mem →
      node.condFrom k i cond st = node.condFrom k i cond st' := by
  intro k
  induction k with
  | zero => intro i cond st st' _; rfl
  | succ k ih =>
    intro i cond st st' h
    simp only [TensorIterator.condFrom]
    rw [step_mem_congr node i h]
    exact ih _ _ _ _ (step_mem_congr node i h)

theorem condAt_eq (node : TensorIterator) (bound : Option Nat) (k : Nat) :
    node.condFrom k 0 (node.initial_cond_check.getStatus node.mem) (node.firstTransfer bound)
      = node.condAt k :=
  condFrom_congr node k 0 _ _ _ rfl

/-- C1: after preparation for the actual shapes, one execution performs exactly
`n` body executions, where `n` is the minimum of the trip count (`-1` being
unbounded), every input-derived slice count and the first iteration whose
governing continue condition is 0; enough fuel (`n`) makes the run return. -/
theorem effective_iteration_count (node prepared : TensorIterator) (counts : List Nat)
    (trip : Int) (n fuel : Nat)
    (hprep : node.prepareParams = .ok prepared)
    (hcounts : derivedSliceCounts node.inputPortMap node.inputShapes = .ok counts)
    (htripv : node.trip_count_check.getStatus node.mem = trip)
    (htrip : -1 ≤ trip)
    (hvalid : ∀ k ≤ n, prepared.condAt k = 0 ∨ prepared.condAt k = 1)
    (hle_trip : trip = -1 ∨ (n : Int) ≤ trip)
    (hle_counts : ∀ c ∈ counts, n ≤ c)
    (hcont : ∀ k < n, prepared.condAt k ≠ 0)
    (hattain : trip = n ∨ n ∈ counts ∨ prepared.condAt n = 0)
    (hfuel : n ≤ fuel) :
    ∃ r, node.executeAfterPrepare fuel = some (.ok r) ∧ r.iterations = n := by
  obtain ⟨ni, hni, hp⟩ := prepareParams_ok hprep
  have hnum : prepared.numIteration = minBound none counts := by
    unfold getNumIteration at hni
    rw [hcounts] at hni
    cases hni
    rw [hp]
  have hmem : prepared.mem = node.mem := by rw [hp]
  have htc : prepared.trip_count_check = node.trip_count_check := by rw [hp]
  have hres := resolveTripCount_ok htrip
  set t : Option Nat := if trip = -1 then none else some trip.toNat with ht
  have hbound : ∀ m, combineBound t prepared.numIteration = some m →
      n ≤ m ∧ (trip = m ∨ m ∈ counts) := by
    intro m hm
    rw [combineBound_some_iff, hnum] at hm
    obtain ⟨hm1, -, -⟩ := hm
    rcases hm1 with h | h
    · have : trip ≠ -1 ∧ trip.toNat = m := by
        rw [ht] at h
        split at h
        · cases h
        · rename_i hne; exact ⟨hne, Option.some.inj h⟩
      have h3 : trip = m := by omega
      exact ⟨by omega, Or.inl h3⟩
    · rw [minBound_some_iff] at h
      rcases h.1 with h' | h'
      · cases h'
      · exact ⟨hle_counts m h', Or.inr h'⟩
  have hstop : prepared.condAt n = 0 ∨
      (prepared.condAt n = 1 ∧ combineBound t prepared.numIteration = some n) := by
    by_cases h0 : prepared.condAt n = 0
    · exact Or.inl h0
    · right
      refine ⟨(hvalid n le_rfl).resolve_left h0, ?_⟩
      rw [combineBound_some_iff, hnum]
      have hc : ∀ x, minBound none counts = some x → n ≤ x := by
        intro x hx
        rw [minBound_some_iff] at hx
        rcases hx.1 with h' | h'
        · cases h'
        · exact hle_counts x h'
      have ht' : ∀ x, t = some x → n ≤ x := by
        intro x hx
        rw [ht] at hx
        split at hx
        · cases hx
        · have := Option.some.inj hx; omega
      refine ⟨?_, ht', hc⟩
      rcases hattain with h | h | h
      · left
        rw [ht, if_neg (by omega)]
        congr 1; omega
      · right
        rw [minBound_some_iff]
        exact ⟨Or.inr h, fun x hx => by simp at hx, hle_counts⟩
      · exact absurd h h0
  have hloop := loop_runs prepared (combineBound t prepared.numIteration) n fuel 0
    (prepared.initial_cond_check.getStatus prepared.mem)
    (prepared.firstTransfer (combineBound t prepared.numIteration)) hfuel
    (fun k hk => by
      rw [condAt_eq]
      refine ⟨(hvalid k hk.le).resolve_left (hcont k hk), ?_⟩
      intro hb
      have := (hbound _ hb).1
      omega)
    (by rw [condAt_eq]; simpa using hstop)
  rw [Nat.zero_add] at hloop
  obtain ⟨r, hr, hit, -⟩ := execute_of_loop prepared fuel t n _
    (by rw [htc, hmem, htripv]; exact hres) hloop
  refine ⟨r, ?_, hit⟩
  unfold TensorIterator.executeAfterPrepare
  rw [hprep]
  exact hr

/-- Instance of C1: the example loop with unbounded trip count stops after 3
body executions, when the running sum exceeds 5. -/
theorem effective_iteration_count_witness :
    ∃ r, (sumLoop (-1) 1).executeAfterPrepare 5 = some (.ok r) ∧ r.iterations = 3 :=
  effective_iteration_count (sumLoop (-1) 1) (sumLoopPrepared (-1) 1) [4] (-1) 3 5
    (by rfl) (by rfl) (by rfl) (by decide) (by decide) (by decide) (by decide) (by decide)
    (by decide) (by decide)

/-! ## Memory and transfer lemmas -/

theorem Memory.read_write_ne (m : Memory) (r r' : MemRef) (t : Tensor) (h : r ≠ r') :
    (m.write r t).read r' = m.read r' := by
  obtain ⟨b, i⟩ := r
  obtain ⟨b', i'⟩ := r'
  cases b <;> cases b' <;> simp only [Memory.write, Memory.read, Memory.bank] <;>
    first
      | rfl
      | (rw [List.getElem?_set_ne]; intro hi; exact h (by rw [hi]))

theorem Memory.read_write_eq (m : Memory) (r : MemRef) (t old : Tensor)
    (h : m.read r = some old) : (m.write r t).read r = some t := by
  obtain ⟨b, i⟩ := r
  have hlt : i < (m.bank b).length := by
    simp only [Memory.read] at h
    exact (List.getElem?_eq_some_iff.mp h).1
  cases b <;> simp only [Memory.write, Memory.read, Memory.bank] at hlt ⊢ <;>
    rw [List.getElem?_set_self hlt]

theorem step_mem (node : TensorIterator) (i : Nat) (st : LoopState) :
    (node.step i st).mem = applyMappers node.after_mappers i
      { node.beforeBody i st.mem with
        bodyOut := node.sub_graph (node.beforeBody i st.mem).bodyIn } := rfl

/-! ## DynamicBuffer lemmas -/

theorem DynamicBuffer.copy_length (src dst : List Int) (offset : Int) (len : Nat) :
    (DynamicBuffer.copy src dst offset len).length = dst.length := by
  simp [DynamicBuffer.copy]

theorem DynamicBuffer.copy_getElem (src dst : List Int) (offset : Int) (len p : Nat)
    (hp : p < (DynamicBuffer.copy src dst offset len).length) (hp' : p < dst.length) :
    (DynamicBuffer.copy src dst offset len)[p] =
      if offset ≤ (p : Int) ∧ (p : Int) < offset + len then readAt src ((p : Int) - offset)
      else dst[p] := by
  simp only [DynamicBuffer.copy, List.getElem_map, List.getElem_range]
  split
  · rfl
  · exact List.getD_eq_getElem _ _ hp'

/-- Writing a chunk right behind the first `o` bytes: the first `o + |src|`
bytes are the old prefix followed by the chunk. -/
theorem DynamicBuffer.copy_take_append (src dst : List Int) (o : Nat)
    (h : o + src.length ≤ dst.length) :
    (DynamicBuffer.copy src dst (o : Int) src.length).take (o + src.length)
      = dst.take o ++ src := by
  apply List.ext_getElem
  · simp [DynamicBuffer.copy_length]; omega
  · intro p h1 h2
    have hp : p < o + src.length := by
      simp only [List.length_take, DynamicBuffer.copy_length] at h1; omega
    rw [List.getElem_take, DynamicBuffer.copy_getElem _ _ _ _ _ _ (by omega)]
    by_cases hpo : p < o
    · rw [if_neg (by omega), List.getElem_append_left (by simp; omega), List.getElem_take]
    · rw [if_pos (by omega), List.getElem_append_right (by simp; omega)]
      simp only [List.length_take, readAt]
      rw [if_neg (by omega)]
      have hmin : min o dst.length = o := by omega
      have : ((p : Int) - (o : Int)).toNat = p - o := by omega
      rw [this, List.getD_eq_getElem _ _ (by omega)]
      simp only [hmin]

/-- Moving data into a larger buffer keeps the first `q` bytes. -/
theorem DynamicBuffer.copy_take_prefix (src dst : List Int) (q : Nat)
    (h1 : q ≤ src.length) (h2 : q ≤ dst.length) :
    (DynamicBuffer.copy src dst 0 q).take q = src.take q := by
  apply List.ext_getElem
  · simp [DynamicBuffer.copy_length]; omega
  · intro p hp1 hp2
    have hp : p < q := by
      simp only [List.length_take] at hp2; omega
    rw [List.getElem_take, List.getElem_take,
      DynamicBuffer.copy_getElem _ _ _ _ _ _ (by omega)]
    rw [if_pos (by omega)]
    simp only [readAt, sub_zero]
    rw [if_neg (by omega)]
    simp only [Int.toNat_ofNat]
    exact List.getD_eq_getElem _ _ (by omega)

theorem join_length_const (chunks : List (List Int)) (s : Nat)
    (h : ∀ x ∈ chunks, x.length = s) : chunks.flatten.length = chunks.length * s := by
  induction chunks with
  | nil => simp
  | cons c cs ih =>
    simp only [List.flatten_cons, List.length_append, List.length_cons]
    rw [ih (fun x hx => h x (List.mem_cons_of_mem _ hx)), h c (List.mem_cons_self _ _)]
    ring

theorem DynamicBuffer.holds_reset (b : DynamicBuffer) (est : Int) (s : Nat) :
    (b.reset est).Holds s [] := by
  refine ⟨rfl, rfl, ?_, ?_⟩
  · intro h; simp at h
  · simp

theorem DynamicBuffer.holds_accumulate (b : DynamicBuffer) (s : Nat) (chunks : List (List Int))
    (c : Tensor) (hb : b.Holds s chunks) (hall : ∀ x ∈ chunks, x.length = s)
    (hc : c.data.length = s) : (b.accumulate c).Holds s (chunks ++ [c.data]) := by
  obtain ⟨hcount, hexecs, hunit, htake⟩ := hb
  have hjoin := join_length_const chunks s hall
  have hk : chunks.length * s ≤ b.mem_holder_buffer.length := by
    have := congrArg List.length htake
    rw [List.length_take, hjoin] at this
    omega
  -- state after `init` (when this is the first chunk) and the offset computation
  have h1 : (if b.num_execs = 0 then b.init c else b).chunk_unit_in_byte = s ∧
      (if b.num_execs = 0 then b.init c else b).chunk_stride_in_byte = (s : Int) ∧
      (if b.num_execs = 0 then b.init c else b).count = chunks.length ∧
      (if b.num_execs = 0 then b.init c else b).num_execs = (chunks.length : Int) ∧
      (if b.num_execs = 0 then b.init c else b).mem_holder_buffer = b.mem_holder_buffer := by
    split
    · exact ⟨hc, by simp [DynamicBuffer.init, hc], hcount, hexecs, rfl⟩
    · rename_i hne
      have hpos : 0 < chunks.length := by
        rcases Nat.eq_zero_or_pos chunks.length with h0 | h0
        · rw [h0] at hexecs; exact absurd hexecs hne
        · exact h0
      exact ⟨(hunit hpos).1, (hunit hpos).2, hcount, hexecs, rfl⟩
  unfold DynamicBuffer.Holds DynamicBuffer.accumulate
  simp only
  generalize (if b.num_execs = 0 then b.init c else b) = b1 at h1 ⊢
  obtain ⟨hu1, hs1, hc1, he1, hbuf1⟩ := h1
  have hoff : (b1.count : Int) * b1.chunk_stride_in_byte = ((chunks.length * s : Nat) : Int) := by
    rw [hc1, hs1]; push_cast; rfl
  have hoff' : (chunks.length : Int) * b1.chunk_stride_in_byte
      = ((chunks.length * s : Nat) : Int) := by
    rw [hs1]; push_cast; rfl
  refine ⟨?_, ?_, ?_, ?_⟩
  · show (if _ then _ else _ : DynamicBuffer).count + 1 = _
    split <;> simp [DynamicBuffer.move_buffer, hc1]
  · show (if _ then _ else _ : DynamicBuffer).num_execs + 1 = _
    split <;> simp [DynamicBuffer.move_buffer, he1]
  · intro _
    show (if _ then _ else _ : DynamicBuffer).chunk_unit_in_byte = s ∧
      (if _ then _ else _ : DynamicBuffer).chunk_stride_in_byte = (s : Int)
    split <;> simp [DynamicBuffer.move_buffer, hu1, hs1]
  · rw [List.length_append, List.length_singleton, Nat.add_mul, Nat.one_mul, List.flatten_append]
    simp only [List.flatten_cons, List.flatten_nil, List.append_nil]
    split
    · -- the buffer is large enough
      rename_i hchk
      simp only [DynamicBuffer.check_buffer, decide_eq_true_eq, hu1, hoff, hbuf1] at hchk
      simp only [hu1, hoff, hbuf1]
      rw [← hc, DynamicBuffer.copy_take_append _ _ _ (by rw [hc]; omega), hc, htake]
    · -- growth with copy
      simp only [DynamicBuffer.move_buffer, DynamicBuffer.move_data,
        DynamicBuffer.create_buffer, hu1, hoff, hbuf1, hc1, hoff']
      have hq : min (chunks.length * s) b.mem_holder_buffer.length = chunks.length * s := by
        omega
      rw [hq]
      have hreq : (((chunks.length * s : Nat) : Int) + (s : Int)).toNat
          = chunks.length * s + s := by omega
      rw [hreq]
      set cap := max (b1.growth b.mem_holder_buffer.length (chunks.length * s + s))
        (chunks.length * s + s) with hcap
      have hcap' : chunks.length * s + s ≤ cap := le_max_right _ _
      rw [← hc, DynamicBuffer.copy_take_append _ _ _
        (by rw [DynamicBuffer.copy_length, List.length_replicate, hc]; exact hcap'), hc]
      rw [DynamicBuffer.copy_take_prefix _ _ _ hk (by rw [List.length_replicate]; omega), htake]

theorem DynamicBuffer.publish_read_ne (b : DynamicBuffer) (src : Tensor) (r : MemRef) :
    ∀ (rs : List MemRef) (m : Memory), r ∉ rs →
      (DynamicBuffer.publish b src rs m).read r = m.read r := by
  intro rs
  induction rs with
  | nil => intro m _; rfl
  | cons r0 rest ih =>
    intro m hr
    have hne : r0 ≠ r := fun h => hr (h ▸ List.mem_cons_self _ _)
    have hrest : r ∉ rest := fun h => hr (List.mem_cons_of_mem _ h)
    unfold DynamicBuffer.publish
    split
    · rw [ih _ hrest, Memory.read_write_ne _ _ _ _ hne]
    · exact ih _ hrest

theorem DynamicBuffer.publish_read (b : DynamicBuffer) (src : Tensor) (r : MemRef) :
    ∀ (rs : List MemRef) (m : Memory), r ∈ rs → ∀ old, m.read r = some old →
      ∃ old', (DynamicBuffer.publish b src rs m).read r = some (b.exposed src old') := by
  intro rs
  induction rs with
  | nil => intro m hr; cases hr
  | cons r0 rest ih =>
    intro m hr old hold
    unfold DynamicBuffer.publish
    by_cases hrest : r ∈ rest
    · split
      · rename_i old0 h0
        by_cases h : r0 = r
        · subst h
          exact ih _ hrest _ (Memory.read_write_eq _ _ _ old0 h0)
        · exact ih _ hrest old (by rw [Memory.read_write_ne _ _ _ _ h]; exact hold)
      · exact ih _ hrest old hold
    · have h : r = r0 := by
        rcases List.mem_cons.mp hr with h | h
        · exact h
        · exact absurd h hrest
      subst h
      rw [hold]
      simp only
      rw [DynamicBuffer.publish_read_ne _ _ _ _ _ hrest]
      exact ⟨old, Memory.read_write_eq _ _ _ old hold⟩

theorem DynamicBuffer.accumulate_refs (b : DynamicBuffer) (c : Tensor) :
    (b.accumulate c).from_ = b.from_ ∧ (b.accumulate c).to_ = b.to_ ∧
      (b.accumulate c).map_rule = b.map_rule := by
  unfold DynamicBuffer.accumulate
  simp only
  split <;> split <;> simp [DynamicBuffer.init, DynamicBuffer.move_buffer]

theorem DynamicBuffer.execute_refs (b : DynamicBuffer) (m : Memory) (i : Int) :
    (b.execute m i).from_ = b.from_ ∧ (b.execute m i).to_ = b.to_ ∧
      (b.execute m i).map_rule = b.map_rule := by
  unfold DynamicBuffer.execute
  split
  · exact DynamicBuffer.accumulate_refs b _
  · exact ⟨rfl, rfl, rfl⟩

theorem DynamicBuffer.executeAll_refs :
    ∀ (ms : List Memory) (b : DynamicBuffer) (i : Nat),
      (b.executeAll i ms).from_ = b.from_ ∧ (b.executeAll i ms).to_ = b.to_ ∧
        (b.executeAll i ms).map_rule = b.map_rule := by
  intro ms
  induction ms with
  | nil => intro b i; exact ⟨rfl, rfl, rfl⟩
  | cons m ms ih =>
    intro b i
    simp only [DynamicBuffer.executeAll]
    obtain ⟨h1, h2, h3⟩ := ih (b.execute m i) (i + 1)
    obtain ⟨e1, e2, e3⟩ := DynamicBuffer.execute_refs b m i
    exact ⟨h1.trans e1, h2.trans e2, h3.trans e3⟩

theorem DynamicBuffer.holds_executeAll (s : Nat) :
    ∀ (ms : List Memory) (chunks : List Tensor) (b : DynamicBuffer) (i : Nat)
      (done : List (List Int)),
      ms.map (fun m => m.read b.from_) = chunks.map some →
      (∀ c ∈ chunks, c.data.length = s) → (∀ x ∈ done, x.length = s) → b.Holds s done →
      (b.executeAll i ms).Holds s (done ++ chunks.map Tensor.data) := by
  intro ms
  induction ms with
  | nil =>
    intro chunks b i done hread _ _ hb
    cases chunks with
    | nil => simpa [DynamicBuffer.executeAll] using hb
    | cons c cs => simp at hread
  | cons m ms ih =>
    intro chunks b i done hread hsize hdone hb
    cases chunks with
    | nil => simp at hread
    | cons c cs =>
      simp only [List.map_cons, List.cons.injEq] at hread
      obtain ⟨hm, hms⟩ := hread
      simp only [DynamicBuffer.executeAll]
      have hex : b.execute m i = b.accumulate c := by
        unfold DynamicBuffer.execute; rw [hm]
      have hc : c.data.length = s := hsize c (List.mem_cons_self _ _)
      have := ih cs (b.execute m i) (i + 1) (done ++ [c.data])
        (by rw [(DynamicBuffer.execute_refs b m i).1]; exact hms)
        (fun x hx => hsize x (List.mem_cons_of_mem _ hx))
        (by
          intro x hx
          rcases List.mem_append.mp hx with h | h
          · exact hdone x h
          · rw [List.mem_singleton.mp h]; exact hc)
        (by rw [hex]; exact DynamicBuffer.holds_accumulate b s done c hb hdone hc)
      simpa using this

theorem DynamicBuffer.exposed_of_holds (b : DynamicBuffer) (s : Nat) (done : List (List Int))
    (hb : b.Holds s done) (src old : Tensor) :
    (b.exposed src old).data = done.flatten ∧
      (b.map_rule.axis.toNat < (b.exposed src old).dims.length →
        axisLen (b.exposed src old).dims b.map_rule.axis.toNat = done.length) := by
  obtain ⟨hcount, -, hunit, htake⟩ := hb
  constructor
  · simp only [DynamicBuffer.exposed]
    rcases Nat.eq_zero_or_pos done.length with h0 | h0
    · have : done = [] := List.length_eq_zero.mp h0
      subst this
      simp [hcount]
    · rw [hcount, (hunit h0).1]; exact htake
  · intro hlt
    simp only [DynamicBuffer.exposed, List.length_set] at hlt ⊢
    simp only [axisLen]
    rw [List.getD_eq_getElem _ _ (by rw [List.length_set]; exact hlt), List.getElem_set_self]
    exact hcount

/-- C3: round trip of a dynamic buffer.  After `reset` (any estimate, any
growth policy, any earlier state), `m` executes that each read a chunk of `s`
bytes, and `transfer`, the write counter is `m` and every output the buffer is
bound to has extent `m` along the iterated axis and holds the concatenation of
the chunks in iteration order. -/
theorem dynamic_buffer_round_trip (b : DynamicBuffer) (est : Int) (s : Nat)
    (ms : List Memory) (chunks : List Tensor) (final : Memory)
    (hread : ms.map (fun m => m.read b.from_) = chunks.map some)
    (hsize : ∀ c ∈ chunks, c.data.length = s) :
    ((b.reset est).executeAll 0 ms).count = ms.length ∧
    ∀ r ∈ b.to_, ∀ old, final.read r = some old →
      ∃ t, (((b.reset est).executeAll 0 ms).transfer final).read r = some t ∧
        t.data = (chunks.map Tensor.data).flatten ∧
        (b.map_rule.axis.toNat < t.dims.length →
          axisLen t.dims b.map_rule.axis.toNat = ms.length) := by
  have hlen : chunks.length = ms.length := by
    have := congrArg List.length hread
    simpa using this.symm
  have hholds := DynamicBuffer.holds_executeAll s ms chunks (b.reset est) 0 []
    hread hsize (fun x hx => by cases hx) (DynamicBuffer.holds_reset b est s)
  rw [List.nil_append] at hholds
  obtain ⟨hfrom, hto, hrule⟩ := DynamicBuffer.executeAll_refs ms (b.reset est) 0
  have hto' : ((b.reset est).executeAll 0 ms).to_ = b.to_ := hto
  have hrule' : ((b.reset est).executeAll 0 ms).map_rule = b.map_rule := hrule
  refine ⟨?_, ?_⟩
  · rw [hholds.1, List.length_map, hlen]
  · intro r hr old hold
    unfold DynamicBuffer.transfer
    rw [hto']
    obtain ⟨old', hpub⟩ := DynamicBuffer.publish_read ((b.reset est).executeAll 0 ms)
      ((final.read ((b.reset est).executeAll 0 ms).from_).getD ⟨[], []⟩) r b.to_ final hr old hold
    refine ⟨_, hpub, ?_⟩
    have := DynamicBuffer.exposed_of_holds _ s _ hholds
      ((final.read ((b.reset est).executeAll 0 ms).from_).getD ⟨[], []⟩) old'
    rw [hrule', List.length_map, hlen] at this
    exact this

/-- Instance of C3: three chunks of 2 bytes. -/
theorem dynamic_buffer_round_trip_witness :
    ((sampleBuffer.reset (-1)).executeAll 0
        [chunkMemory [1, 2], chunkMemory [3, 4], chunkMemory [5, 6]]).count = 3 ∧
    ∀ r ∈ sampleBuffer.to_, ∀ old, (chunkMemory [5, 6]).read r = some old →
      ∃ t, (((sampleBuffer.reset (-1)).executeAll 0
          [chunkMemory [1, 2], chunkMemory [3, 4], chunkMemory [5, 6]]).transfer
            (chunkMemory [5, 6])).read r = some t ∧
        t.data = [1, 2, 3, 4, 5, 6] ∧
        (sampleBuffer.map_rule.axis.toNat < t.dims.length →
          axisLen t.dims sampleBuffer.map_rule.axis.toNat = 3) :=
  dynamic_buffer_round_trip sampleBuffer (-1) 2
    [chunkMemory [1, 2], chunkMemory [3, 4], chunkMemory [5, 6]]
    [⟨[1, 2], [1, 2]⟩, ⟨[1, 2], [3, 4]⟩, ⟨[1, 2], [5, 6]⟩] (chunkMemory [5, 6])
    (by decide) (by decide)

/-! ## Zero iterations -/

theorem Memory.read_write_isSome (m : Memory) (r r' : MemRef) (t : Tensor)
    (h : (m.read r').isSome) : ((m.write r t).read r').isSome := by
  by_cases hr : r = r'
  · subst hr
    obtain ⟨old, hold⟩ := Option.isSome_iff_exists.mp h
    rw [Memory.read_write_eq _ _ _ old hold]; rfl
  · rw [Memory.read_write_ne _ _ _ _ hr]; exact h

theorem PortMapHelper.execute_read_isSome (h : PortMapHelper) (n : Int) (m : Memory)
    (r : MemRef) (hr : (m.read r).isSome) : ((h.execute n m).read r).isSome := by
  unfold PortMapHelper.execute
  split
  · exact Memory.read_write_isSome _ _ _ _ hr
  · exact hr

theorem applyMappers_read_isSome (hs : List PortMapHelper) (n : Int) (r : MemRef) :
    ∀ (m : Memory), (m.read r).isSome → ((applyMappers hs n m).read r).isSome := by
  induction hs with
  | nil => intro m h; exact h
  | cons h hs ih =>
    intro m hm
    simp only [applyMappers, List.foldl_cons]
    exact ih _ (PortMapHelper.execute_read_isSome h n m r hm)

theorem DynamicBuffer.publish_read_isSome (b : DynamicBuffer) (src : Tensor) (r : MemRef) :
    ∀ (rs : List MemRef) (m : Memory), (m.read r).isSome →
      ((DynamicBuffer.publish b src rs m).read r).isSome := by
  intro rs
  induction rs with
  | nil => intro m h; exact h
  | cons r0 rest ih =>
    intro m hm
    unfold DynamicBuffer.publish
    split
    · exact ih _ (Memory.read_write_isSome _ _ _ _ hm)
    · exact ih _ hm

/-- Finalizing all buffers: an output that no later buffer is bound to holds
what the buffer at position `j` exposes. -/
theorem transferBuffers_read (r : MemRef) :
    ∀ (bs : List DynamicBuffer) (m : Memory) (j : Nat) (b : DynamicBuffer),
      bs[j]? = some b → r ∈ b.to_ →
      (∀ j' b', j < j' → bs[j']? = some b' → r ∉ b'.to_) → (m.read r).isSome →
      ∃ src old, (transferBuffers bs m).read r = some (b.exposed src old) := by
  intro bs
  induction bs with
  | nil => intro m j b hb; simp at hb
  | cons b0 rest ih =>
    intro m j b hb hr hlater hm
    simp only [transferBuffers, List.foldl_cons]
    cases j with
    | zero =>
      simp only [List.getElem?_cons_zero, Option.some.injEq] at hb
      subst hb
      have hrest : ∀ (bs : List DynamicBuffer) (m' : Memory),
          (∀ b' ∈ bs, r ∉ b'.to_) → (bs.foldl (fun acc b => b.transfer acc) m').read r
            = m'.read r := by
        intro bs
        induction bs with
        | nil => intro m' _; rfl
        | cons b1 bs ih' =>
          intro m' hall
          simp only [List.foldl_cons]
          rw [ih' _ (fun b' hb' => hall b' (List.mem_cons_of_mem _ hb'))]
          exact DynamicBuffer.publish_read_ne _ _ _ _ _ (hall b1 (List.mem_cons_self _ _))
      rw [hrest rest _ (fun b' hb' => by
        obtain ⟨i, hi⟩ := List.getElem?_of_mem hb'
        exact hlater (i + 1) b' (Nat.succ_pos i) (by simpa using hi))]
      obtain ⟨old, hold⟩ := Option.isSome_iff_exists.mp hm
      obtain ⟨old', h⟩ := DynamicBuffer.publish_read b0
        ((m.read b0.from_).getD ⟨[], []⟩) r b0.to_ m hr old hold
      exact ⟨_, old', h⟩
    | succ j =>
      simp only [List.getElem?_cons_succ] at hb
      exact ih (b0.transfer m) j b hb hr
        (fun j' b' hj' hb' => hlater (j' + 1) b' (by omega) (by simpa using hb'))
        (DynamicBuffer.publish_read_isSome _ _ _ _ _ hm)

theorem loop_zero (node : TensorIterator) (bound : Option Nat) (fuel : Nat) (cond : Int)
    (st : LoopState) (hcond : cond = 0 ∨ cond = 1) (hzero : cond = 0 ∨ bound = some 0) :
    node.loop bound fuel 0 cond st = some (.ok (0, st)) := by
  unfold TensorIterator.loop
  rw [if_neg (by omega), if_pos hzero]

theorem count_map_range_self (f : Nat → Event) (hf : Function.Injective f) (n k : Nat)
    (hk : k < n) : ((List.range n).map f).count (f k) = 1 :=
  List.count_eq_one_of_mem ((List.nodup_range n).map hf)
    (List.mem_map.mpr ⟨k, List.mem_range.mpr hk, rfl⟩)

theorem DynamicBuffer.exposed_reset (b : DynamicBuffer) (est : Int) (src old : Tensor) :
    ((b.reset est).exposed src old).data = [] ∧
      ((b.reset est).map_rule.axis.toNat < ((b.reset est).exposed src old).dims.length →
        axisLen ((b.reset est).exposed src old).dims (b.reset est).map_rule.axis.toNat = 0) := by
  have := DynamicBuffer.exposed_of_holds (b.reset est) 0 [] (DynamicBuffer.holds_reset b est 0)
    src old
  simpa using this

/-- C4: when the trip count is 0 or the initial condition is 0 (both in their
domains) the execution returns with any fuel, the body is never executed, each
once-before-loop and each once-after-loop transfer is applied exactly once,
and every dynamic buffer finalizes to an empty output of extent 0 along the
iterated axis. -/
theorem zero_trip_or_condition (node : TensorIterator) (fuel : Nat)
    (htrip : -1 ≤ node.trip_count_check.getStatus node.mem)
    (hcond : node.initial_cond_check.getStatus node.mem = 0 ∨
      node.initial_cond_check.getStatus node.mem = 1)
    (hzero : node.trip_count_check.getStatus node.mem = 0 ∨
      node.initial_cond_check.getStatus node.mem = 0) :
    ∃ r, node.execute fuel = some (.ok r) ∧ r.iterations = 0 ∧
      (∀ i, Event.bodyExec i ∉ r.trace) ∧
      (∀ k < node.first_mappers.length, r.trace.count (Event.firstTransfer k) = 1) ∧
      (∀ k < node.last_mappers.length, r.trace.count (Event.lastTransfer k) = 1) ∧
      r.node.mem = transferBuffers r.node.buffers (applyMappers node.last_mappers (-1)
        (applyMappers (node.first_mappers.map Prod.snd) (-1) node.mem)) ∧
      (∀ b ∈ r.node.buffers, b.count = 0) ∧
      ∀ (j : Nat) (b : DynamicBuffer), r.node.buffers[j]? = some b → ∀ ref ∈ b.to_,
        (∀ j' b', j < j' → r.node.buffers[j']? = some b' → ref ∉ b'.to_) →
        (node.mem.read ref).isSome →
        ∃ t, r.node.mem.read ref = some t ∧ t.data = [] ∧
          (b.map_rule.axis.toNat < t.dims.length → axisLen t.dims b.map_rule.axis.toNat = 0) := by
  have hres := resolveTripCount_ok htrip
  set trip : Option Nat := if node.trip_count_check.getStatus node.mem = -1 then none
    else some (node.trip_count_check.getStatus node.mem).toNat with htripdef
  have hz : node.initial_cond_check.getStatus node.mem = 0 ∨
      combineBound trip node.numIteration = some 0 := by
    rcases hzero with h | h
    · right
      rw [combineBound_some_iff]
      refine ⟨Or.inl ?_, fun x _ => Nat.zero_le x, fun x _ => Nat.zero_le x⟩
      rw [htripdef, h]; rfl
    · exact Or.inl h
  have hloop := loop_zero node (combineBound trip node.numIteration) fuel _
    (node.firstTransfer (combineBound trip node.numIteration)) hcond hz
  obtain ⟨r, hr, hit, hmem, hbuf, htrace⟩ := execute_of_loop node fuel trip 0 _ hres hloop
  simp only [TensorIterator.firstTransfer] at hmem hbuf htrace
  refine ⟨r, hr, hit, ?_, ?_, ?_, ?_, ?_, ?_⟩
  · intro i hi
    rw [htrace] at hi
    simp at hi
  · intro k hk
    rw [htrace, List.count_append, List.count_append,
      count_map_range_self _ (fun a b h => Event.firstTransfer.inj h) _ _ hk,
      List.count_eq_zero_of_not_mem (by simp), List.count_eq_zero_of_not_mem (by simp)]
  · intro k hk
    rw [htrace, List.count_append, List.count_append,
      count_map_range_self _ (fun a b h => Event.lastTransfer.inj h) _ _ hk,
      List.count_eq_zero_of_not_mem (by simp), List.count_eq_zero_of_not_mem (by simp)]
  · rw [hmem, hbuf]
  · intro b hb
    rw [hbuf] at hb
    obtain ⟨b0, -, rfl⟩ := List.mem_map.mp hb
    rfl
  · intro j b hb ref href hlater hsome
    have hbmem : b ∈ r.node.buffers := List.getElem?_mem hb
    rw [hbuf] at hbmem
    obtain ⟨b0, -, hb0⟩ := List.mem_map.mp hbmem
    have hm1 : ((applyMappers node.last_mappers (-1)
        (applyMappers (node.first_mappers.map Prod.snd) (-1) node.mem)).read ref).isSome :=
      applyMappers_read_isSome _ _ _ _ (applyMappers_read_isSome _ _ _ _ hsome)
    rw [hmem]
    rw [hbuf] at hb hlater
    obtain ⟨src, old, hread⟩ := transferBuffers_read ref _ _ j b hb href hlater hm1
    refine ⟨_, hread, ?_⟩
    rw [← hb0]
    exact DynamicBuffer.exposed_reset b0 _ src old

/-- Instance of C4: the example loop with trip count 0 and no fuel. -/
theorem zero_trip_or_condition_witness :
    ∃ r, (sumLoopPrepared 0 1).execute 0 = some (.ok r) ∧ r.iterations = 0 ∧
      (∀ i, Event.bodyExec i ∉ r.trace) ∧
      (∀ k < (sumLoopPrepared 0 1).first_mappers.length,
        r.trace.count (Event.firstTransfer k) = 1) ∧
      (∀ k < (sumLoopPrepared 0 1).last_mappers.length,
        r.trace.count (Event.lastTransfer k) = 1) ∧
      r.node.mem = transferBuffers r.node.buffers
        (applyMappers (sumLoopPrepared 0 1).last_mappers (-1)
          (applyMappers ((sumLoopPrepared 0 1).first_mappers.map Prod.snd) (-1)
            (sumLoopPrepared 0 1).mem)) ∧
      (∀ b ∈ r.node.buffers, b.count = 0) ∧
      ∀ (j : Nat) (b : DynamicBuffer), r.node.buffers[j]? = some b → ∀ ref ∈ b.to_,
        (∀ j' b', j < j' → r.node.buffers[j']? = some b' → ref ∉ b'.to_) →
        ((sumLoopPrepared 0 1).mem.read ref).isSome →
        ∃ t, r.node.mem.read ref = some t ∧ t.data = [] ∧
          (b.map_rule.axis.toNat < t.dims.length → axisLen t.dims b.map_rule.axis.toNat = 0) :=
  zero_trip_or_condition (sumLoopPrepared 0 1) 0 (by decide) (by decide) (by decide)

/-! ## Strided transfers -/

theorem flat_index_split (n inner o k j : Nat) (hk : k < n) (hj : j < inner) :
    ((o * n + k) * inner + j) / (n * inner) = o ∧
      ((o * n + k) * inner + j) % (n * inner) = k * inner + j := by
  have hlt : k * inner + j < n * inner := by
    have : (k + 1) * inner ≤ n * inner := Nat.mul_le_mul_right inner hk
    rw [Nat.add_mul, Nat.one_mul] at this
    omega
  have hpos : 0 < n * inner := by omega
  have hsplit : (o * n + k) * inner + j = (n * inner) * o + (k * inner + j) := by ring
  rw [hsplit, Nat.mul_add_div hpos, Nat.mul_add_mod, Nat.div_eq_of_lt hlt, Nat.mod_eq_of_lt hlt]
  exact ⟨by omega, rfl⟩

theorem readAt_natCast (data : List Int) (n : Nat) (h : n < data.length) :
    readAt data (n : Int) = data[n] := by
  unfold readAt
  rw [if_neg (by omega), Int.toNat_ofNat]
  exact List.getD_eq_getElem _ _ h

/-- What a helper leaves behind its destination reference. -/
theorem PortMapHelper.execute_read_dst (h : PortMapHelper) (n : Int) (m : Memory) (s d : Tensor)
    (hs : m.read h.src = some s) (hd : m.read h.dst = some d) :
    (h.execute n m).read h.dst = some (h.transferred n s d) := by
  unfold PortMapHelper.execute
  rw [hs, hd]
  exact Memory.read_write_eq _ _ _ d hd

/-- Strided read in coordinates: destination element `(o, k, j)` is source
element `(o, a + k, j)`. -/
theorem copySliceOut_elemAt (s d : Tensor) (axis part a o k j : Nat)
    (hpart : axisLen d.dims axis = part)
    (hinner : innerCount d.dims axis = innerCount s.dims axis)
    (hk : k < part) (hj : j < innerCount s.dims axis)
    (hstore : (o * part + k) * innerCount s.dims axis + j < d.data.length) :
    (copySliceOut s d axis part (a : Int)).elemAt axis o k j = s.elemAt axis o (a + k) j := by
  obtain ⟨h1, h2⟩ := flat_index_split part (innerCount s.dims axis) o k j hk hj
  have hdims : (copySliceOut s d axis part (a : Int)).dims = d.dims := rfl
  have hlen : (copySliceOut s d axis part (a : Int)).data.length = d.data.length := by
    simp [copySliceOut]
  unfold Tensor.elemAt
  rw [hdims, hpart, hinner, readAt_natCast _ _ (by rw [hlen]; exact hstore)]
  simp only [copySliceOut, List.getElem_map, List.getElem_range, h1, h2]
  congr 1
  push_cast
  ring

/-- C5: the port map
`PortMap{from=0,to=0,axis=1,stride=1,start=0,end=-1,part_size=2}` on an outer
tensor of shape `[4,10]` gives a derived iteration count of 5; preparation
builds one strided helper for it, and executing that helper for iteration `i`
(`i = 0..4`) moves the `[4,2]` slice at column offset `2 * i`, that is
0, 2, 4, 6, 8, which lies inside the row: the body tensor afterwards has
element `(r, c)` equal to outer element `(r, 2 * i + c)`. -/
theorem slice_scenario (m : Memory) (src dst : Tensor) (i r c : Nat)
    (hsrc : m.read ⟨.ins, 0⟩ = some src) (hdst : m.read ⟨.bodyIn, 0⟩ = some dst)
    (hsdims : src.dims = [4, 10]) (hddims : dst.dims = [4, 2]) (hdlen : dst.data.length = 8)
    (hi : i < 5) (hr : r < 4) (hc : c < 2) :
    getNumIteration [src.dims] [scenarioMap] [] = .ok (some 5) ∧
    (prepareInputPorts [scenarioMap]).2 =
      [PortMapHelper.sliceToBody ⟨.ins, 0⟩ ⟨.bodyIn, 0⟩ scenarioMap.helperRule] ∧
    (List.range 5).map (sliceOffset scenarioMap.helperRule (axisLen src.dims 1)) =
      [0, 2, 4, 6, 8] ∧
    sliceOffset scenarioMap.helperRule (axisLen src.dims 1) i = ((2 * i : Nat) : Int) ∧
    2 * i + 2 ≤ axisLen src.dims 1 ∧
    ∃ t, ((PortMapHelper.sliceToBody ⟨.ins, 0⟩ ⟨.bodyIn, 0⟩ scenarioMap.helperRule).execute
        i m).read ⟨.bodyIn, 0⟩ = some t ∧
      t.dims = [4, 2] ∧ t.data.length = 8 ∧
      t.elemAt 1 r c 0 = src.elemAt 1 r (2 * i + c) 0 := by
  have h10 : axisLen [4, 10] 1 = 10 := by decide
  have hoff : sliceOffset scenarioMap.helperRule 10 i = ((2 * i : Nat) : Int) := by
    simp only [sliceOffset, scenarioMap, PortMap.helperRule, resolveIndex]
    push_cast
    omega
  have hi' : ((i : Nat) : Int).toNat = i := Int.toNat_ofNat i
  rw [hsdims, h10]
  refine ⟨rfl, rfl, by decide, hoff, by omega, _,
    PortMapHelper.execute_read_dst (.sliceToBody ⟨.ins, 0⟩ ⟨.bodyIn, 0⟩ scenarioMap.helperRule)
      i m src dst hsrc hdst, hddims, ?_, ?_⟩
  · simp [PortMapHelper.transferred, copySliceOut, hdlen]
  · have haxis : scenarioMap.helperRule.axis.toNat = 1 := by decide
    have hpart : scenarioMap.helperRule.part_size.toNat = 2 := by decide
    simp only [PortMapHelper.transferred, hi', haxis, hpart, hsdims, h10, hoff]
    exact copySliceOut_elemAt src dst 1 2 (2 * i) r c 0 (by rw [hddims]; decide)
      (by rw [hddims, hsdims]; decide) hc (by rw [hsdims]; decide)
      (by rw [hsdims, hdlen, show innerCount [4, 10] 1 = 1 by decide]; omega)

/-- Instance of C5: on the scenario tensors, whose outer element `(r, q)` is
`10 * r + q`, iteration 3 moves the columns 6 and 7; the body tensor then holds
6, 7, 16, 17, 26, 27, 36, 37. -/
theorem slice_scenario_witness :
    (((PortMapHelper.sliceToBody ⟨.ins, 0⟩ ⟨.bodyIn, 0⟩ scenarioMap.helperRule).execute
        (3 : Nat) scenarioMemory).read ⟨.bodyIn, 0⟩).map Tensor.data =
      some [6, 7, 16, 17, 26, 27, 36, 37] ∧
    getNumIteration [scenarioOuter.dims] [scenarioMap] [] = .ok (some 5) ∧
    ∃ t, ((PortMapHelper.sliceToBody ⟨.ins, 0⟩ ⟨.bodyIn, 0⟩ scenarioMap.helperRule).execute
        (3 : Nat) scenarioMemory).read ⟨.bodyIn, 0⟩ = some t ∧
      t.dims = [4, 2] ∧ t.data.length = 8 ∧
      t.elemAt 1 2 1 0 = scenarioOuter.elemAt 1 2 (2 * 3 + 1) 0 :=
  ⟨by decide,
    (slice_scenario scenarioMemory scenarioOuter scenarioBody 3 2 1 rfl rfl rfl rfl (by decide)
      (by decide) (by decide) (by decide)).1,
    (slice_scenario scenarioMemory scenarioOuter scenarioBody 3 2 1 rfl rfl rfl rfl (by decide)
      (by decide) (by decide) (by decide)).2.2.2.2.2⟩

/-! ## Early exit by the continue condition -/

theorem chunkBytes_length (src : List Int) (len : Nat) : (chunkBytes src len).length = len := by
  simp [chunkBytes]

theorem DynamicBuffer.copy_take_append_bytes (src dst : List Int) (o len : Nat)
    (h : o + len ≤ dst.length) :
    (DynamicBuffer.copy src dst (o : Int) len).take (o + len)
      = dst.take o ++ chunkBytes src len := by
  apply List.ext_getElem
  · simp [DynamicBuffer.copy_length, chunkBytes_length]; omega
  · intro p h1 h2
    have hp : p < o + len := by
      simp only [List.length_take, DynamicBuffer.copy_length] at h1; omega
    rw [List.getElem_take, DynamicBuffer.copy_getElem _ _ _ _ _ _ (by omega)]
    by_cases hpo : p < o
    · rw [if_neg (by omega), List.getElem_append_left (by simp; omega), List.getElem_take]
    · rw [if_pos (by omega), List.getElem_append_right (by simp; omega)]
      have hmin : min o dst.length = o := by omega
      simp only [List.length_take, hmin, chunkBytes, List.getElem_map, List.getElem_range]
      congr 1
      omega

theorem step_buffers (node : TensorIterator) (i : Nat) (st : LoopState) :
    (node.step i st).buffers = st.buffers.map (fun b => b.execute (node.step i st).mem i) := rfl

theorem step_trace (node : TensorIterator) (i : Nat) (st : LoopState) :
    (node.step i st).trace = st.trace
      ++ (List.range node.before_mappers.length).map (Event.beforeTransfer i)
      ++ (if i = 0 then [] else (List.range node.back_mappers.length).map (Event.backTransfer i))
      ++ [Event.bodyExec i]
      ++ (List.range node.after_mappers.length).map (Event.afterTransfer i)
      ++ (List.range st.buffers.length).map (Event.bufferExec i)
      ++ [Event.condRead i (node.continue_cond_check.getStatus (node.step i st).mem)] := rfl

theorem execute_inv (node : TensorIterator) (fuel : Nat) (r : ExecResult)
    (h : node.execute fuel = some (.ok r)) :
    ∃ trip n st,
      resolveTripCount (node.trip_count_check.getStatus node.mem) = .ok trip ∧
      node.loop (combineBound trip node.numIteration) fuel 0
        (node.initial_cond_check.getStatus node.mem)
        (node.firstTransfer (combineBound trip node.numIteration)) = some (.ok (n, st)) ∧
      r = { node := { node with
              mem := transferBuffers st.buffers (applyMappers node.last_mappers (-1) st.mem)
              buffers := st.buffers }
            iterations := n
            trace := st.trace
              ++ (List.range node.last_mappers.length).map Event.lastTransfer
              ++ (List.range st.buffers.length).map Event.bufferTransfer } := by
  unfold TensorIterator.execute at h
  split at h
  · cases h
  · rename_i trip htrip
    simp only at h
    split at h
    · cases h
    · cases h
    · rename_i n st hloop
      refine ⟨trip, n, st, htrip, hloop, ?_⟩
      cases h
      rfl

/-! ## Runtime contract violations -/

theorem loop_error (node : TensorIterator) (bound : Option Nat) :
    ∀ (d fuel i : Nat) (cond : Int) (st : LoopState), d ≤ fuel →
      (∀ k < d, node.condFrom k i cond st = 1 ∧ bound ≠ some (i + k)) →
      node.condFrom d i cond st ≠ 0 → node.condFrom d i cond st ≠ 1 →
      node.loop bound fuel i cond st = some (.error .runtimeContract) := by
  intro d
  induction d with
  | zero =>
    intro fuel i cond st _ _ h0 h1
    simp only [TensorIterator.condFrom] at h0 h1
    unfold TensorIterator.loop
    rw [if_pos ⟨h0, h1⟩]
  | succ d ih =>
    intro fuel i cond st hfuel hrun h0 h1
    have hc := hrun 0 (Nat.succ_pos d)
    simp only [TensorIterator.condFrom, Nat.add_zero] at hc
    obtain ⟨fuel, rfl⟩ : ∃ f, fuel = f + 1 := ⟨fuel - 1, by omega⟩
    unfold TensorIterator.loop
    rw [if_neg (by rw [hc.1]; simp), if_neg (by
      rintro (h | h)
      · rw [hc.1] at h; exact one_ne_zero h
      · exact hc.2 h)]
    simp only [TensorIterator.condFrom] at h0 h1
    exact ih fuel (i + 1) _ _ (by omega)
      (fun k hk => by
        have := hrun (k + 1) (by omega)
        simp only [TensorIterator.condFrom] at this
        refine ⟨this.1, ?_⟩
        have h2 := this.2
        rwa [show i + (k + 1) = i + 1 + k by omega] at h2)
      h0 h1

theorem loop_no_error (node : TensorIterator) (bound : Option Nat) :
    ∀ (fuel i : Nat) (cond : Int) (st : LoopState),
      (∀ k, node.condFrom k i cond st = 0 ∨ node.condFrom k i cond st = 1) →
      ∀ e, node.loop bound fuel i cond st ≠ some (.error e) := by
  intro fuel
  induction fuel with
  | zero =>
    intro i cond st hvalid e
    have h0 := hvalid 0
    simp only [TensorIterator.condFrom] at h0
    unfold TensorIterator.loop
    rw [if_neg (by omega)]
    split <;> simp
  | succ fuel ih =>
    intro i cond st hvalid e
    have h0 := hvalid 0
    simp only [TensorIterator.condFrom] at h0
    unfold TensorIterator.loop
    rw [if_neg (by omega)]
    split
    · simp
    · exact ih (i + 1) _ _ (fun k => by
        have := hvalid (k + 1)
        simpa only [TensorIterator.condFrom] using this) e

theorem loop_error_inv (node : TensorIterator) (bound : Option Nat) :
    ∀ (fuel i : Nat) (cond : Int) (st : LoopState) (e : Error),
      node.loop bound fuel i cond st = some (.error e) →
      e = .runtimeContract ∧ ∃ d, d ≤ fuel ∧ (∀ k < d, node.condFrom k i cond st = 1) ∧
        node.condFrom d i cond st ≠ 0 ∧ node.condFrom d i cond st ≠ 1 := by
  intro fuel
  induction fuel with
  | zero =>
    intro i cond st e h
    unfold TensorIterator.loop at h
    split at h
    · rename_i hc
      cases h
      exact ⟨rfl, 0, le_rfl, fun k hk => absurd hk (Nat.not_lt_zero k), hc.1, hc.2⟩
    · split at h <;> cases h
  | succ fuel ih =>
    intro i cond st e h
    unfold TensorIterator.loop at h
    split at h
    · rename_i hc
      cases h
      exact ⟨rfl, 0, Nat.zero_le _, fun k hk => absurd hk (Nat.not_lt_zero k), hc.1, hc.2⟩
    · rename_i hc
      split at h
      · cases h
      · rename_i hstop
        obtain ⟨he, d, hd, hrun, h0, h1⟩ := ih (i + 1) _ _ e h
        have hc1 : cond = 1 := by
          by_contra hne
          exact hstop (Or.inl (by
            by_contra h0'
            exact hc ⟨h0', hne⟩))
        refine ⟨he, d + 1, by omega, ?_, ?_, ?_⟩
        · intro k hk
          cases k with
          | zero => exact hc1
          | succ k => simpa only [TensorIterator.condFrom] using hrun k (by omega)
        · simpa only [TensorIterator.condFrom] using h0
        · simpa only [TensorIterator.condFrom] using h1

/-- C11: an execution fails with a runtime-contract error when the trip-count
checker returns a value below -1, and when a condition read that the loop
reaches (the initial condition for `d = 0`, the continue condition read after
iteration `d - 1` otherwise) is outside `{0,1}`; with a trip count of at least
-1 and all condition values in `{0,1}` the execution raises no error: every
error an execution returns is a runtime-contract error caused by one of these
two violations. -/
theorem runtime_contract_violation (node : TensorIterator) (fuel : Nat) :
    (node.trip_count_check.getStatus node.mem < -1 →
      node.execute fuel = some (.error .runtimeContract)) ∧
    (∀ d, d ≤ fuel →
      (node.trip_count_check.getStatus node.mem = -1 ∨
        (d : Int) ≤ node.trip_count_check.getStatus node.mem) →
      (∀ c, node.numIteration = some c → d ≤ c) →
      (∀ k < d, node.condAt k = 1) → node.condAt d ≠ 0 → node.condAt d ≠ 1 →
      node.execute fuel = some (.error .runtimeContract)) ∧
    (-1 ≤ node.trip_count_check.getStatus node.mem →
      (∀ k, node.condAt k = 0 ∨ node.condAt k = 1) →
      ∀ e, node.execute fuel ≠ some (.error e)) ∧
    (∀ e, node.execute fuel = some (.error e) →
      e = .runtimeContract ∧
        (node.trip_count_check.getStatus node.mem < -1 ∨
          ∃ d, d ≤ fuel ∧ (∀ k < d, node.condAt k = 1) ∧
            node.condAt d ≠ 0 ∧ node.condAt d ≠ 1)) := by
  refine ⟨?_, ?_, ?_, ?_⟩
  · intro h
    unfold TensorIterator.execute resolveTripCount
    rw [if_pos h]
  · intro d hd htrip hnum hrun h0 h1
    have hres : resolveTripCount (node.trip_count_check.getStatus node.mem) = _ :=
      resolveTripCount_ok (by omega)
    set trip : Option Nat := if node.trip_count_check.getStatus node.mem = -1 then none
      else some (node.trip_count_check.getStatus node.mem).toNat with htripdef
    have hb : ∀ c, combineBound trip node.numIteration = some c → d ≤ c := by
      intro c hc
      rw [combineBound_some_iff] at hc
      rcases hc.1 with h | h
      · rw [htripdef] at h
        split at h
        · cases h
        · have := Option.some.inj h; omega
      · exact hnum c h
    have hloop := loop_error node (combineBound trip node.numIteration) d fuel 0
      (node.initial_cond_check.getStatus node.mem)
      (node.firstTransfer (combineBound trip node.numIteration)) hd
      (fun k hk => by
        rw [condAt_eq]
        refine ⟨hrun k hk, fun h => ?_⟩
        have := hb _ h
        omega)
      (by rw [condAt_eq]; exact h0) (by rw [condAt_eq]; exact h1)
    unfold TensorIterator.execute
    rw [hres]
    simp only [hloop]
  · intro htrip hvalid e
    have hres : resolveTripCount (node.trip_count_check.getStatus node.mem) = _ :=
      resolveTripCount_ok htrip
    have hloop := loop_no_error node
      (combineBound (if node.trip_count_check.getStatus node.mem = -1 then none
        else some (node.trip_count_check.getStatus node.mem).toNat) node.numIteration)
      fuel 0 (node.initial_cond_check.getStatus node.mem)
      (node.firstTransfer (combineBound
        (if node.trip_count_check.getStatus node.mem = -1 then none
          else some (node.trip_count_check.getStatus node.mem).toNat) node.numIteration))
      (fun k => by rw [condAt_eq]; exact hvalid k)
    unfold TensorIterator.execute
    rw [hres]
    simp only
    split
    · simp
    · rename_i e' hl
      exact absurd hl (hloop e')
    · simp
  · intro e h
    unfold TensorIterator.execute at h
    split at h
    · rename_i e' hres
      have he : e = e' := by
        simp only [Option.some.injEq, Except.error.injEq] at h
        exact h.symm
      subst he
      unfold resolveTripCount at hres
      split at hres
      · rename_i hlt
        cases hres
        exact ⟨rfl, Or.inl hlt⟩
      · split at hres <;> cases hres
    · rename_i trip hres
      simp only at h
      split at h
      · cases h
      · rename_i e' hl
        have he : e = e' := by
          simp only [Option.some.injEq, Except.error.injEq] at h
          exact h.symm
        subst he
        obtain ⟨he, d, hd, hrun, h0, h1⟩ := loop_error_inv node _ fuel 0 _ _ e hl
        refine ⟨he, Or.inr ⟨d, hd, fun k hk => ?_, ?_, ?_⟩⟩
        · rw [← condAt_eq]; exact hrun k hk
        · rw [← condAt_eq]; exact h0
        · rw [← condAt_eq]; exact h1
      · cases h

theorem steadyLoop_status (i : Nat) (st : LoopState) :
    steadyLoop.continue_cond_check.getStatus (steadyLoop.step i st).mem = 1 := by
  simp [TensorIterator.step, TensorIterator.iterate, TensorIterator.beforeBody, applyMappers,
    steadyLoop, PortChecker.getStatus, Memory.read, Memory.bank, readAt, scalar]

theorem steadyLoop_condFrom :
    ∀ (k i : Nat) (cond : Int) (st : LoopState), (cond = 0 ∨ cond = 1) →
      (steadyLoop.condFrom k i cond st = 0 ∨ steadyLoop.condFrom k i cond st = 1) := by
  intro k
  induction k with
  | zero => intro i cond st h; exact h
  | succ k ih =>
    intro i cond st _
    simp only [TensorIterator.condFrom]
    exact ih _ _ _ (Or.inr (steadyLoop_status i st))

/-- Instances of C11: a trip count of -2, a continue condition that reads 2
after the second iteration, a loop whose conditions are always 1, and the
cause reported for the first of these errors. -/
theorem runtime_contract_violation_witness :
    (sumLoopPrepared (-2) 1).execute 3 = some (.error .runtimeContract) ∧
    brokenLoop.execute 5 = some (.error .runtimeContract) ∧
    (∀ e, steadyLoop.execute 5 ≠ some (.error e)) ∧
    (Error.runtimeContract = Error.runtimeContract ∧
      ((sumLoopPrepared (-2) 1).trip_count_check.getStatus (sumLoopPrepared (-2) 1).mem < -1 ∨
        ∃ d, d ≤ 3 ∧ (∀ k < d, (sumLoopPrepared (-2) 1).condAt k = 1) ∧
          (sumLoopPrepared (-2) 1).condAt d ≠ 0 ∧ (sumLoopPrepared (-2) 1).condAt d ≠ 1)) :=
  ⟨(runtime_contract_violation (sumLoopPrepared (-2) 1) 3).1 (by decide),
   (runtime_contract_violation brokenLoop 5).2.1 2 (by decide) (by decide)
     (fun c hc => by cases hc) (by decide) (by decide) (by decide),
   (runtime_contract_violation steadyLoop 5).2.2.1 (by decide)
     (fun k => steadyLoop_condFrom k 0 _ _ (Or.inr rfl)),
   (runtime_contract_violation (sumLoopPrepared (-2) 1) 3).2.2.2 _ rfl⟩

/-! ## Malformed port maps -/

theorem validatePortMaps_error (outer body : List Tensor) :
    ∀ (rules : List PortMap) (e : Error), validatePortMaps outer body rules = .error e →
      e = .configuration := by
  intro rules
  induction rules with
  | nil => intro e h; cases h
  | cons rule rest ih =>
    intro e h
    unfold validatePortMaps at h
    split at h
    · split at h
      · exact ih e h
      · cases h; rfl
    · cases h; rfl

theorem validatePortMaps_illFormed (outer body : List Tensor) (rule : PortMap)
    (hbad : rule.IllFormed outer body) :
    ∀ (rules : List PortMap), rule ∈ rules →
      validatePortMaps outer body rules = .error .configuration := by
  intro rules
  induction rules with
  | nil => intro h; cases h
  | cons r rest ih =>
    intro hmem
    by_cases hr : r = rule
    · subst hr
      unfold validatePortMaps
      split
      · rename_i o b ho hb
        have hwf : r.wellFormed o.dims b.dims = false := by
          rcases hbad with h0 | ⟨hax, hfit⟩
          · simp [PortMap.wellFormed, h0]
          · have := hfit o b ho hb
            have hit : r.isIterable = true := by simp [PortMap.isIterable, hax]
            simp only [PortMap.wellFormed, hit, Bool.not_true, Bool.false_or,
              Bool.and_eq_false_imp, Bool.and_eq_true, bne_iff_ne, ne_eq, decide_eq_true_eq,
              decide_eq_false_iff_not, not_lt, and_imp]
            intro _ _ h1 h2
            omega
        rw [hwf]
        simp
      · rfl
    · have hmem' : rule ∈ rest := (List.mem_cons.mp hmem).resolve_left (fun h => hr h.symm)
      unfold validatePortMaps
      split
      · split
        · exact ih hmem'
        · rfl
      · rfl

theorem validatePlan_error (node : TensorIterator) (e : Error)
    (h : node.validatePlan = .error e) : e = .configuration := by
  unfold TensorIterator.validatePlan at h
  split at h
  · rename_i e' h1
    cases h
    exact validatePortMaps_error _ _ _ _ h1
  · split at h
    · rename_i e' h2
      cases h
      exact validatePortMaps_error _ _ _ _ h2
    · exact validatePortMaps_error _ _ _ _ h

theorem prepareParams_of_invalid (node : TensorIterator)
    (h : node.validatePlan = .error .configuration) :
    node.prepareParams = .error .configuration := by
  unfold TensorIterator.prepareParams
  rw [h]

/-- C12: preparation rejects a malformed port map.  When an input rule, an
output rule or a back edge has `part_size = 0` or names an iteration axis that
does not fit the rank of a tensor it connects, `prepareParams` fails with the
configuration error, and so does every execution that prepares first: it
returns the error without an execution result, so no iteration is executed. -/
theorem malformed_port_map_rejected (node : TensorIterator) (rule : PortMap)
    (h : (rule ∈ node.inputPortMap ∧ rule.IllFormed node.mem.ins node.mem.bodyIn) ∨
      (rule ∈ node.outputPortMap ∧ rule.IllFormed node.mem.outs node.mem.bodyOut) ∨
      (rule ∈ node.backEdges ∧ rule.IllFormed node.mem.bodyOut node.mem.bodyIn)) :
    node.prepareParams = .error .configuration ∧
    ∀ fuel, node.executeAfterPrepare fuel = some (.error .configuration) ∧
      (node.needPrepareParams = true →
        node.executeDynamicImpl fuel = some (.error .configuration)) := by
  have hv : node.validatePlan = .error .configuration := by
    cases hvp : node.validatePlan with
    | error e => rw [validatePlan_error node e hvp]
    | ok u =>
      exfalso
      unfold TensorIterator.validatePlan at hvp
      rcases h with ⟨hm, hbad⟩ | ⟨hm, hbad⟩ | ⟨hm, hbad⟩
      · rw [validatePortMaps_illFormed _ _ rule hbad _ hm] at hvp
        cases hvp
      · split at hvp
        · cases hvp
        · rw [validatePortMaps_illFormed _ _ rule hbad _ hm] at hvp
          cases hvp
      · split at hvp
        · cases hvp
        · split at hvp
          · cases hvp
          · rw [validatePortMaps_illFormed _ _ rule hbad _ hm] at hvp
            cases hvp
  have hp := prepareParams_of_invalid node hv
  refine ⟨hp, fun fuel => ⟨?_, fun hneed => ?_⟩⟩
  · unfold TensorIterator.executeAfterPrepare
    rw [hp]
  · unfold TensorIterator.executeDynamicImpl
    rw [hneed, hp]
    rfl

/-- Instances of C12: an input rule with part size 0 and a sliced output rule
whose axis 3 exceeds the rank of its tensors. -/
theorem malformed_port_map_rejected_witness :
    (zeroPartLoop.prepareParams = .error .configuration ∧
      ∀ fuel, zeroPartLoop.executeAfterPrepare fuel = some (.error .configuration) ∧
        (zeroPartLoop.needPrepareParams = true →
          zeroPartLoop.executeDynamicImpl fuel = some (.error .configuration))) ∧
    (badAxisLoop.prepareParams = .error .configuration ∧
      ∀ fuel, badAxisLoop.executeAfterPrepare fuel = some (.error .configuration) ∧
        (badAxisLoop.needPrepareParams = true →
          badAxisLoop.executeDynamicImpl fuel = some (.error .configuration))) :=
  ⟨malformed_port_map_rejected zeroPartLoop ⟨1, 1, -1, 1, 0, -1, 0⟩
      (Or.inl ⟨by decide, Or.inl rfl⟩),
   malformed_port_map_rejected badAxisLoop ⟨1, 0, 3, 1, 0, -1, 1⟩
      (Or.inr (Or.inl ⟨by decide, Or.inr ⟨by decide, fun o b ho hb => by
        have h1 : o = ⟨[4], [0, 0, 0, 0]⟩ := by
          have : (some (⟨[4], [0, 0, 0, 0]⟩ : Tensor)) = some o := ho
          exact (Option.some.inj this).symm
        subst h1
        right; left; decide⟩⟩))⟩

/-! ## One first mapper per `(from,to)` pair -/

theorem insertFirst_keys (key : Int × Int) (h : PortMapHelper) :
    ∀ (l : List ((Int × Int) × PortMapHelper)),
      (key ∈ l.map Prod.fst → (insertFirst key h l).map Prod.fst = l.map Prod.fst) ∧
      (key ∉ l.map Prod.fst → (insertFirst key h l).map Prod.fst = l.map Prod.fst ++ [key]) := by
  intro l
  induction l with
  | nil => exact ⟨fun hm => by simp at hm, fun _ => rfl⟩
  | cons p rest ih =>
    obtain ⟨k, old⟩ := p
    by_cases hk : k = key
    · subst hk
      refine ⟨fun _ => ?_, fun hn => absurd (by simp) hn⟩
      simp [insertFirst]
    · have hk' : key ≠ k := fun h' => hk h'.symm
      refine ⟨fun hm => ?_, fun hn => ?_⟩
      · have hm' : key ∈ rest.map Prod.fst := by
          simp only [List.map_cons, List.mem_cons] at hm
          exact hm.resolve_left hk'
        simp only [insertFirst, if_neg hk, List.map_cons]
        rw [ih.1 hm']
      · have hn' : key ∉ rest.map Prod.fst := by
          intro hm
          exact hn (by simp only [List.map_cons, List.mem_cons]; exact Or.inr hm)
        simp only [insertFirst, if_neg hk, List.map_cons, List.cons_append]
        rw [ih.2 hn']

theorem insertFirst_nodup (key : Int × Int) (h : PortMapHelper)
    (l : List ((Int × Int) × PortMapHelper)) (hl : (l.map Prod.fst).Nodup) :
    ((insertFirst key h l).map Prod.fst).Nodup ∧ key ∈ (insertFirst key h l).map Prod.fst ∧
      ∀ k ∈ l.map Prod.fst, k ∈ (insertFirst key h l).map Prod.fst := by
  by_cases hm : key ∈ l.map Prod.fst
  · rw [(insertFirst_keys key h l).1 hm]
    exact ⟨hl, hm, fun k hk => hk⟩
  · rw [(insertFirst_keys key h l).2 hm]
    refine ⟨?_, by simp, fun k hk => by simp [hk]⟩
    rw [List.nodup_append]
    refine ⟨hl, List.nodup_singleton key, ?_⟩
    intro a ha hb
    rw [List.mem_singleton] at hb
    subst hb
    exact hm ha

theorem prepareInputPorts_first_aux (rules : List PortMap) :
    ∀ (acc : List ((Int × Int) × PortMapHelper) × List PortMapHelper),
      (acc.1.map Prod.fst).Nodup →
      (((rules.foldl (fun acc rule =>
        if rule.isIterable then
          (acc.1, acc.2 ++
            [PortMapHelper.sliceToBody ⟨.ins, rule.from_.toNat⟩ ⟨.bodyIn, rule.to_.toNat⟩
              rule.helperRule])
        else
          (insertFirst (rule.from_, rule.to_)
            (.plainCopy ⟨.ins, rule.from_.toNat⟩ ⟨.bodyIn, rule.to_.toNat⟩) acc.1, acc.2))
        acc).1.map Prod.fst).Nodup ∧
      (∀ k ∈ acc.1.map Prod.fst, k ∈ (rules.foldl (fun acc rule =>
        if rule.isIterable then
          (acc.1, acc.2 ++
            [PortMapHelper.sliceToBody ⟨.ins, rule.from_.toNat⟩ ⟨.bodyIn, rule.to_.toNat⟩
              rule.helperRule])
        else
          (insertFirst (rule.from_, rule.to_)
            (.plainCopy ⟨.ins, rule.from_.toNat⟩ ⟨.bodyIn, rule.to_.toNat⟩) acc.1, acc.2))
        acc).1.map Prod.fst) ∧
      (∀ rule ∈ rules, rule.isIterable = false →
        (rule.from_, rule.to_) ∈ (rules.foldl (fun acc rule =>
        if rule.isIterable then
          (acc.1, acc.2 ++
            [PortMapHelper.sliceToBody ⟨.ins, rule.from_.toNat⟩ ⟨.bodyIn, rule.to_.toNat⟩
              rule.helperRule])
        else
          (insertFirst (rule.from_, rule.to_)
            (.plainCopy ⟨.ins, rule.from_.toNat⟩ ⟨.bodyIn, rule.to_.toNat⟩) acc.1, acc.2))
        acc).1.map Prod.fst)) := by
  induction rules with
  | nil => intro acc hacc; exact ⟨hacc, fun k hk => hk, fun rule hr => by cases hr⟩
  | cons rule rest ih =>
    intro acc hacc
    simp only [List.foldl_cons]
    by_cases hit : rule.isIterable = true
    · simp only [hit, if_true]
      obtain ⟨h1, h2, h3⟩ := ih (acc.1, acc.2 ++
        [PortMapHelper.sliceToBody ⟨.ins, rule.from_.toNat⟩ ⟨.bodyIn, rule.to_.toNat⟩
              rule.helperRule]) hacc
      refine ⟨h1, h2, ?_⟩
      intro r hr hni
      rcases List.mem_cons.mp hr with h | h
      · subst h; rw [hit] at hni; cases hni
      · exact h3 r h hni
    · simp only [hit, if_false, Bool.false_eq_true]
      obtain ⟨n1, n2, n3⟩ := insertFirst_nodup (rule.from_, rule.to_)
        (.plainCopy ⟨.ins, rule.from_.toNat⟩ ⟨.bodyIn, rule.to_.toNat⟩) acc.1 hacc
      obtain ⟨h1, h2, h3⟩ := ih (insertFirst (rule.from_, rule.to_)
        (.plainCopy ⟨.ins, rule.from_.toNat⟩ ⟨.bodyIn, rule.to_.toNat⟩) acc.1, acc.2) n1
      refine ⟨h1, fun k hk => h2 k (n3 k hk), ?_⟩
      intro r hr hni
      rcases List.mem_cons.mp hr with h | h
      · subst h; exact h2 _ n2
      · exact h3 r h hni

theorem step_count_first (node : TensorIterator) (i k : Nat) (st : LoopState) :
    (node.step i st).trace.count (Event.firstTransfer k)
      = st.trace.count (Event.firstTransfer k) := by
  rw [step_trace]
  simp only [List.count_append]
  have h1 : ((List.range node.before_mappers.length).map (Event.beforeTransfer i)).count
      (Event.firstTransfer k) = 0 := List.count_eq_zero_of_not_mem (by simp)
  have h2 : (if i = 0 then [] else
      (List.range node.back_mappers.length).map (Event.backTransfer i)).count
      (Event.firstTransfer k) = 0 := List.count_eq_zero_of_not_mem (by split <;> simp)
  have h3 : ([Event.bodyExec i]).count (Event.firstTransfer k) = 0 :=
    List.count_eq_zero_of_not_mem (by simp)
  have h4 : ((List.range node.after_mappers.length).map (Event.afterTransfer i)).count
      (Event.firstTransfer k) = 0 := List.count_eq_zero_of_not_mem (by simp)
  have h5 : ((List.range st.buffers.length).map (Event.bufferExec i)).count
      (Event.firstTransfer k) = 0 := List.count_eq_zero_of_not_mem (by simp)
  have h6 : ([Event.condRead i (node.continue_cond_check.getStatus (node.step i st).mem)]).count
      (Event.firstTransfer k) = 0 := List.count_eq_zero_of_not_mem (by simp)
  rw [h1, h2, h3, h4, h5, h6]
  simp

theorem loop_count_first (node : TensorIterator) (bound : Option Nat) (k : Nat) :
    ∀ (fuel i : Nat) (cond : Int) (st : LoopState) (n : Nat) (stf : LoopState),
      node.loop bound fuel i cond st = some (.ok (n, stf)) →
      stf.trace.count (Event.firstTransfer k) = st.trace.count (Event.firstTransfer k) := by
  intro fuel
  induction fuel with
  | zero =>
    intro i cond st n stf hrun
    unfold TensorIterator.loop at hrun
    split at hrun
    · cases hrun
    · split at hrun
      · cases hrun; rfl
      · cases hrun
  | succ fuel ih =>
    intro i cond st n stf hrun
    unfold TensorIterator.loop at hrun
    split at hrun
    · cases hrun
    · split at hrun
      · cases hrun; rfl
      · simp only at hrun
        rw [ih (i + 1) _ _ n stf hrun, step_count_first]

theorem filter_eq_length_one {α : Type} [DecidableEq α] (l : List α) (a : α)
    (hl : l.Nodup) (ha : a ∈ l) : (l.filter (fun k => decide (k = a))).length = 1 := by
  induction l with
  | nil => cases ha
  | cons x xs ih =>
    rw [List.nodup_cons] at hl
    by_cases hx : x = a
    · subst hx
      rw [List.filter_cons_of_pos (by simp)]
      have : xs.filter (fun k => decide (k = x)) = [] := by
        rw [List.filter_eq_nil_iff]
        intro y hy
        simp only [decide_eq_true_eq]
        intro h
        exact hl.1 (h ▸ hy)
      rw [this]; rfl
    · rw [List.filter_cons_of_neg (by simp [hx])]
      exact ih hl.2 ((List.mem_cons.mp ha).resolve_left (fun h => hx h.symm))

/-- C13: preparing the input port maps leaves at most one first mapper per
`(from,to)` pair: the keys of the prepared `first_mappers` are pairwise
distinct and the pair of every non-sliced input rule occurs exactly once,
however often it occurs among the rules.  This holds in every state reached
by `prepareParams`, and an execution of such a state keeps `first_mappers` and
applies each first mapper exactly once. -/
theorem first_mappers_unique (inputPortMap : List PortMap) :
    ((prepareInputPorts inputPortMap).1.map Prod.fst).Nodup ∧
    (∀ rule ∈ inputPortMap, rule.isIterable = false →
      (((prepareInputPorts inputPortMap).1.map Prod.fst).filter
        (fun key => decide (key = (rule.from_, rule.to_)))).length = 1) ∧
    (∀ node prepared : TensorIterator, node.inputPortMap = inputPortMap →
      node.prepareParams = .ok prepared →
      (prepared.first_mappers.map Prod.fst).Nodup ∧
      ∀ (fuel : Nat) (r : ExecResult), prepared.execute fuel = some (.ok r) →
        r.node.first_mappers = prepared.first_mappers ∧
        ∀ k < prepared.first_mappers.length, r.trace.count (Event.firstTransfer k) = 1) := by
  obtain ⟨h1, -, h3⟩ := prepareInputPorts_first_aux inputPortMap ([], []) List.nodup_nil
  refine ⟨h1, fun rule hr hni => filter_eq_length_one _ _ h1 (h3 rule hr hni), ?_⟩
  intro node prepared hmap hprep
  obtain ⟨n, -, hp⟩ := prepareParams_ok hprep
  have hfirst : prepared.first_mappers = (prepareInputPorts inputPortMap).1 := by
    rw [hp, ← hmap]
  refine ⟨by rw [hfirst]; exact h1, ?_⟩
  intro fuel r hr
  obtain ⟨trip, m, st, -, hloop, hres⟩ := execute_inv prepared fuel r hr
  have hnode : r.node.first_mappers = prepared.first_mappers := by rw [hres]
  have htrace : r.trace = st.trace
      ++ (List.range prepared.last_mappers.length).map Event.lastTransfer
      ++ (List.range st.buffers.length).map Event.bufferTransfer := by rw [hres]
  refine ⟨hnode, fun k hk => ?_⟩
  have h1 : ((List.range prepared.last_mappers.length).map Event.lastTransfer).count
      (Event.firstTransfer k) = 0 := List.count_eq_zero_of_not_mem (by simp)
  have h2 : ((List.range st.buffers.length).map Event.bufferTransfer).count
      (Event.firstTransfer k) = 0 := List.count_eq_zero_of_not_mem (by simp)
  rw [htrace, List.count_append, List.count_append, h1, h2,
    loop_count_first prepared _ k fuel 0 _ _ m st hloop]
  simp only [TensorIterator.firstTransfer, Nat.add_zero]
  exact count_map_range_self _ (fun a b h => Event.firstTransfer.inj h) _ _ hk

/-- Instance of C13: the pair `(1,1)` is named by two input rules and gets one
first mapper, applied once. -/
theorem first_mappers_unique_witness :
    ((prepareInputPorts repeatedPairLoop.inputPortMap).1.map Prod.fst).Nodup ∧
    (((prepareInputPorts repeatedPairLoop.inputPortMap).1.map Prod.fst).filter
      (fun key => decide (key = ((1 : Int), (1 : Int))))).length = 1 ∧
    (repeatedPairRun.node.first_mappers = repeatedPairPrepared.first_mappers ∧
      ∀ k < repeatedPairPrepared.first_mappers.length,
        repeatedPairRun.trace.count (Event.firstTransfer k) = 1) :=
  ⟨(first_mappers_unique repeatedPairLoop.inputPortMap).1,
   (first_mappers_unique repeatedPairLoop.inputPortMap).2.1 ⟨1, 1, -1, 1, 0, -1, 1⟩
     (by decide) (by decide),
   ((first_mappers_unique repeatedPairLoop.inputPortMap).2.2 repeatedPairLoop
     repeatedPairPrepared rfl rfl).2 5 repeatedPairRun rfl⟩

/-! ## DynamicBuffer counter -/

theorem DynamicBuffer.accumulate_count (b : DynamicBuffer) (c : Tensor) :
    (b.accumulate c).count = b.count + 1 := by
  unfold DynamicBuffer.accumulate
  simp only
  split <;> split <;> simp [DynamicBuffer.init, DynamicBuffer.move_buffer]

theorem DynamicBuffer.executeAll_count :
    ∀ (ms : List Memory) (b : DynamicBuffer) (i : Nat),
      (∀ m ∈ ms, (m.read b.from_).isSome) → (b.executeAll i ms).count = b.count + ms.length := by
  intro ms
  induction ms with
  | nil => intro b i _; rfl
  | cons m ms ih =>
    intro b i hall
    simp only [DynamicBuffer.executeAll]
    obtain ⟨c, hc⟩ := Option.isSome_iff_exists.mp (hall m (List.mem_cons_self _ _))
    have hex : b.execute m i = b.accumulate c := by
      unfold DynamicBuffer.execute; rw [hc]
    rw [ih (b.execute m i) (i + 1) (fun m' hm' => by
      rw [(DynamicBuffer.execute_refs b m i).1]
      exact hall m' (List.mem_cons_of_mem _ hm'))]
    rw [hex, DynamicBuffer.accumulate_count, List.length_cons]
    omega

theorem DynamicBuffer.exposed_extent (b : DynamicBuffer) (src old : Tensor)
    (h : b.map_rule.axis.toNat < (b.exposed src old).dims.length) :
    axisLen (b.exposed src old).dims b.map_rule.axis.toNat = b.count := by
  simp only [DynamicBuffer.exposed, List.length_set] at h ⊢
  simp only [axisLen]
  rw [List.getD_eq_getElem _ _ (by rw [List.length_set]; exact h), List.getElem_set_self]

/-- C14: the write counter of a dynamic buffer.  `reset` sets it to 0, every
`execute` (on a memory that holds the bound source) increases it by exactly
one, so after `reset` and `k` executes it is `k`; every output that `transfer`
exposes has the counter as its extent along the iterated axis. -/
theorem dynamic_buffer_counter (b : DynamicBuffer) (est : Int) (i : Nat) :
    (b.reset est).count = 0 ∧
    (∀ (m : Memory) (iter : Int), (m.read b.from_).isSome →
      (b.execute m iter).count = b.count + 1) ∧
    (∀ ms : List Memory, (∀ m ∈ ms, (m.read b.from_).isSome) →
      ((b.reset est).executeAll i ms).count = ms.length) ∧
    (∀ (final : Memory) (r : MemRef), r ∈ b.to_ → (final.read r).isSome →
      ∃ t, (b.transfer final).read r = some t ∧
        (b.map_rule.axis.toNat < t.dims.length →
          axisLen t.dims b.map_rule.axis.toNat = b.count)) := by
  refine ⟨rfl, ?_, ?_, ?_⟩
  · intro m iter hm
    obtain ⟨c, hc⟩ := Option.isSome_iff_exists.mp hm
    unfold DynamicBuffer.execute
    rw [hc]
    exact DynamicBuffer.accumulate_count b c
  · intro ms hall
    have := DynamicBuffer.executeAll_count ms (b.reset est) i hall
    rw [this]
    show 0 + ms.length = ms.length
    omega
  · intro final r hr hsome
    obtain ⟨old, hold⟩ := Option.isSome_iff_exists.mp hsome
    obtain ⟨old', hpub⟩ := DynamicBuffer.publish_read b
      ((final.read b.from_).getD ⟨[], []⟩) r b.to_ final hr old hold
    exact ⟨_, hpub, DynamicBuffer.exposed_extent b _ old'⟩

/-- Instance of C14: the sample buffer after three chunks. -/
theorem dynamic_buffer_counter_witness :
    ((sampleBuffer.reset (-1)).executeAll 0
        [chunkMemory [1, 2], chunkMemory [3, 4], chunkMemory [5, 6]]).count = 3 ∧
    (sampleBuffer.execute (chunkMemory [1, 2]) 0).count = sampleBuffer.count + 1 ∧
    ∃ t, (((sampleBuffer.reset (-1)).executeAll 0
          [chunkMemory [1, 2], chunkMemory [3, 4], chunkMemory [5, 6]]).transfer
            (chunkMemory [5, 6])).read ⟨.outs, 0⟩ = some t ∧
      ((((sampleBuffer.reset (-1)).executeAll 0
          [chunkMemory [1, 2], chunkMemory [3, 4], chunkMemory [5, 6]])).map_rule.axis.toNat
            < t.dims.length →
        axisLen t.dims
          (((sampleBuffer.reset (-1)).executeAll 0
            [chunkMemory [1, 2], chunkMemory [3, 4], chunkMemory [5, 6]])).map_rule.axis.toNat
          = ((sampleBuffer.reset (-1)).executeAll 0
            [chunkMemory [1, 2], chunkMemory [3, 4], chunkMemory [5, 6]]).count) :=
  ⟨(dynamic_buffer_counter sampleBuffer (-1) 0).2.2.1 _ (by decide),
   (dynamic_buffer_counter sampleBuffer (-1) 0).2.1 _ 0 (by decide),
   (dynamic_buffer_counter
      ((sampleBuffer.reset (-1)).executeAll 0
        [chunkMemory [1, 2], chunkMemory [3, 4], chunkMemory [5, 6]]) (-1) 0).2.2.2
     (chunkMemory [5, 6]) ⟨.outs, 0⟩ (by decide) (by decide)⟩

/-! ## Eltwise shape inference -/

theorem getD_set_eq (l : List Nat) (p q v : Nat) :
    (l.set p v).getD q 0 = if p = q ∧ p < l.length then v else l.getD q 0 := by
  simp only [List.getD_eq_getElem?_getD, List.getElem?_set]
  by_cases h : p = q
  · subst h
    by_cases hp : p < l.length
    · simp [hp]
    · simp [hp, List.getElem?_eq_none (Nat.le_of_not_lt hp)]
  · simp [h]

/-- What the inner loop computes when it succeeds: the ranks agree, no
processed position conflicts, and every processed output extent 1 is replaced
by the input extent. -/
theorem dimLoop_ok (offset : Nat) :
    ∀ (ds : List Nat) (j : Nat) (out out' : VectorDims),
      offset + j + ds.length ≤ out.length →
      EltwiseShapeInfer.dimLoop offset ds j out = .ok out' →
      out'.length = out.length ∧
      (∀ k, k < ds.length → ds.getD k 0 = out.getD (offset + j + k) 0 ∨
        out.getD (offset + j + k) 0 = 1 ∨ ds.getD k 0 = 1) ∧
      (∀ p, out'.getD p 0 =
        if offset + j ≤ p ∧ p < offset + j + ds.length then
          (if out.getD p 0 = 1 then ds.getD (p - (offset + j)) 0 else out.getD p 0)
        else out.getD p 0) := by
  intro ds
  induction ds with
  | nil =>
    intro j out out' _ h
    simp only [EltwiseShapeInfer.dimLoop] at h
    cases h
    refine ⟨rfl, fun k hk => absurd hk (Nat.not_lt_zero k), fun p => ?_⟩
    rw [if_neg (by simp)]
  | cons d ds ih =>
    intro j out out' hlen h
    simp only [List.length_cons] at hlen
    have hp0 : offset + j < out.length := by omega
    unfold EltwiseShapeInfer.dimLoop at h
    rw [List.getElem?_eq_getElem hp0] at h
    simp only at h
    have ho : out.getD (offset + j) 0 = out[offset + j] := List.getD_eq_getElem _ _ hp0
    -- the state handed to the rest of the loop
    have key : ∃ out1 : VectorDims, EltwiseShapeInfer.dimLoop offset ds (j + 1) out1 = .ok out' ∧
        out1.length = out.length ∧
        (d = out[offset + j] ∨ out[offset + j] = 1 ∨ d = 1) ∧
        (∀ p, out1.getD p 0 = if p = offset + j then
            (if out[offset + j] = 1 then d else out[offset + j]) else out.getD p 0) := by
      by_cases hne : d = out[offset + j]
      · rw [if_neg (by simpa using hne)] at h
        refine ⟨out, h, rfl, Or.inl hne, fun p => ?_⟩
        by_cases hp : p = offset + j
        · subst hp
          rw [if_pos rfl, ho]
          by_cases h1 : out[offset + j] = 1
          · rw [if_pos h1, hne, h1]
          · rw [if_neg h1]
        · rw [if_neg hp]
      · rw [if_pos (by simpa using hne)] at h
        by_cases h1 : out[offset + j] = 1
        · rw [if_pos h1] at h
          refine ⟨out.set (offset + j) d, h, by simp, Or.inr (Or.inl h1), fun p => ?_⟩
          rw [getD_set_eq, if_pos h1]
          by_cases hp : p = offset + j
          · subst hp; simp [hp0]
          · rw [if_neg (fun hc => hp hc.1.symm), if_neg hp]
        · rw [if_neg h1] at h
          by_cases hd : d = 1
          · rw [if_pos hd] at h
            refine ⟨out, h, rfl, Or.inr (Or.inr hd), fun p => ?_⟩
            by_cases hp : p = offset + j
            · subst hp
              rw [if_pos rfl, ho, if_neg h1]
            · rw [if_neg hp]
          · rw [if_neg hd] at h
            cases h
    obtain ⟨out1, hrest, hlen1, hcompat, hout1⟩ := key
    obtain ⟨hl, hc, hp⟩ := ih (j + 1) out1 out' (by rw [hlen1]; omega) hrest
    refine ⟨hl.trans hlen1, ?_, ?_⟩
    · intro k hk
      cases k with
      | zero =>
        simp only [List.getD_cons_zero, Nat.add_zero]
        rw [ho]; exact hcompat
      | succ k =>
        have := hc k (by simp only [List.length_cons] at hk; omega)
        rw [hout1, if_neg (by omega)] at this
        simp only [List.getD_cons_succ]
        rw [show offset + j + (k + 1) = offset + (j + 1) + k by omega]
        exact this
    · intro p
      have hl : (d :: ds).length = ds.length + 1 := rfl
      by_cases hp0' : p = offset + j
      · subst hp0'
        have e1 : ¬ (offset + (j + 1) ≤ offset + j ∧ offset + j < offset + (j + 1) + ds.length) := by
          omega
        have e2 : offset + j ≤ offset + j ∧ offset + j < offset + j + (d :: ds).length := by
          omega
        rw [hp, if_neg e1, hout1, if_pos rfl, if_pos e2, Nat.sub_self, List.getD_cons_zero, ho]
      · by_cases hr : offset + (j + 1) ≤ p ∧ p < offset + (j + 1) + ds.length
        · have e2 : offset + j ≤ p ∧ p < offset + j + (d :: ds).length := by omega
          rw [hp, if_pos hr, hout1, if_neg hp0', if_pos e2,
            show p - (offset + j) = (p - (offset + (j + 1))) + 1 by omega, List.getD_cons_succ]
        · have e2 : ¬ (offset + j ≤ p ∧ p < offset + j + (d :: ds).length) := by omega
          rw [hp, if_neg hr, hout1, if_neg hp0', if_neg e2]

/-- An error of the inner loop on indices in range is the dimension mismatch,
raised at a position whose input and output extents differ and are both
different from 1. -/
theorem dimLoop_error (offset : Nat) :
    ∀ (ds : List Nat) (j : Nat) (out out0 : VectorDims) (e : InferError),
      offset + j + ds.length ≤ out.length → out.length = out0.length →
      (∀ p, offset + j ≤ p → out.getD p 0 = out0.getD p 0) →
      EltwiseShapeInfer.dimLoop offset ds j out = .error e →
      ∃ k, k < ds.length ∧ e = .dimMismatch (j + k) ∧
        ds.getD k 0 ≠ out0.getD (offset + j + k) 0 ∧ out0.getD (offset + j + k) 0 ≠ 1 ∧
        ds.getD k 0 ≠ 1 := by
  intro ds
  induction ds with
  | nil =>
    intro j out out0 e _ _ _ h
    simp only [EltwiseShapeInfer.dimLoop] at h
    cases h
  | cons d ds ih =>
    intro j out out0 e hlen hlen0 hsame h
    simp only [List.length_cons] at hlen
    have hp0 : offset + j < out.length := by omega
    unfold EltwiseShapeInfer.dimLoop at h
    rw [List.getElem?_eq_getElem hp0] at h
    simp only at h
    have ho : out0.getD (offset + j) 0 = out[offset + j] := by
      rw [← hsame _ le_rfl]; exact List.getD_eq_getElem _ _ hp0
    have next : ∀ out1 : VectorDims, out1.length = out.length →
        (∀ p, offset + (j + 1) ≤ p → out1.getD p 0 = out.getD p 0) →
        EltwiseShapeInfer.dimLoop offset ds (j + 1) out1 = .error e →
        ∃ k, k < (d :: ds).length ∧ e = .dimMismatch (j + k) ∧
          (d :: ds).getD k 0 ≠ out0.getD (offset + j + k) 0 ∧
          out0.getD (offset + j + k) 0 ≠ 1 ∧ (d :: ds).getD k 0 ≠ 1 := by
      intro out1 hl1 hs1 hrest
      obtain ⟨k, hk, he, h1, h2, h3⟩ := ih (j + 1) out1 out0 e (by rw [hl1]; omega)
        (hl1.trans hlen0) (fun p hp => by rw [hs1 p hp]; exact hsame p (by omega)) hrest
      refine ⟨k + 1, by simp only [List.length_cons]; omega, ?_, ?_, ?_, ?_⟩
      · rw [he]; congr 1; omega
      · simp only [List.getD_cons_succ]
        rwa [show offset + j + (k + 1) = offset + (j + 1) + k by omega]
      · rwa [show offset + j + (k + 1) = offset + (j + 1) + k by omega]
      · simpa only [List.getD_cons_succ] using h3
    by_cases hne : d = out[offset + j]
    · rw [if_neg (by simpa using hne)] at h
      exact next out rfl (fun _ _ => rfl) h
    · rw [if_pos (by simpa using hne)] at h
      by_cases h1 : out[offset + j] = 1
      · rw [if_pos h1] at h
        exact next _ (by simp) (fun p hp => by
          rw [getD_set_eq, if_neg (by omega)]) h
      · rw [if_neg h1] at h
        by_cases hd : d = 1
        · rw [if_pos hd] at h
          exact next out rfl (fun _ _ => rfl) h
        · rw [if_neg hd] at h
          cases h
          refine ⟨0, by simp, rfl, ?_, ?_, ?_⟩
          · simp only [List.getD_cons_zero, Nat.add_zero]; rw [ho]; exact hne
          · rw [Nat.add_zero, ho]; exact h1
          · simpa using hd

theorem rightDim_of_lt {s : VectorDims} {q : Nat} (h : q < s.length) :
    rightDim s q = s.getD (s.length - 1 - q) 0 := by
  unfold rightDim
  rw [List.getD_eq_getElem _ _ (by simpa using h), List.getElem_reverse,
    List.getD_eq_getElem _ _ (by omega)]

theorem rightDim_of_le {s : VectorDims} {q : Nat} (h : s.length ≤ q) : rightDim s q = 1 := by
  unfold rightDim
  rw [List.getD_eq_default _ _ (by simpa using h)]

/-- The inner loop in right-aligned terms, for an input no longer than the
output: on success no position conflicts and the merged extent is the input
extent wherever the output extent was 1. -/
theorem dimLoop_ok_right {ds out out' : VectorDims} (hlen : ds.length ≤ out.length)
    (h : EltwiseShapeInfer.dimLoop (out.length - ds.length) ds 0 out = .ok out') :
    out'.length = out.length ∧
    ∀ q, (rightDim ds q = rightDim out q ∨ rightDim out q = 1 ∨ rightDim ds q = 1) ∧
      rightDim out' q = if rightDim out q = 1 then rightDim ds q else rightDim out q := by
  obtain ⟨hl, hc, hp⟩ := dimLoop_ok (out.length - ds.length) ds 0 out out' (by omega) h
  refine ⟨hl, fun q => ?_⟩
  by_cases hq : q < ds.length
  · have hqo : q < out.length := by omega
    have hqo' : q < out'.length := by omega
    have hidx : out.length - ds.length + 0 + (ds.length - 1 - q) = out.length - 1 - q := by omega
    rw [rightDim_of_lt hq, rightDim_of_lt hqo, rightDim_of_lt hqo', hl]
    constructor
    · have := hc (ds.length - 1 - q) (by omega)
      rwa [hidx] at this
    · rw [hp, if_pos (by omega)]
      congr 2
      omega
  · have hq1 : rightDim ds q = 1 := rightDim_of_le (by omega)
    rw [hq1]
    refine ⟨Or.inr (Or.inr rfl), ?_⟩
    by_cases hqo : q < out.length
    · have hqo' : q < out'.length := by omega
      rw [rightDim_of_lt hqo, rightDim_of_lt hqo', hl, hp, if_neg (by omega)]
      split
      · rename_i h1; exact h1
      · rfl
    · rw [rightDim_of_le (by omega : out'.length ≤ q), rightDim_of_le (by omega : out.length ≤ q)]
      rfl

/-- An error of the inner loop, in right-aligned terms: it is the dimension
mismatch and some position holds an input and an output extent that differ and
are both different from 1. -/
theorem dimLoop_error_right {ds out : VectorDims} {e : InferError} (hlen : ds.length ≤ out.length)
    (h : EltwiseShapeInfer.dimLoop (out.length - ds.length) ds 0 out = .error e) :
    (∃ j, e = .dimMismatch j) ∧
    ∃ q, rightDim ds q ≠ rightDim out q ∧ rightDim out q ≠ 1 ∧ rightDim ds q ≠ 1 := by
  obtain ⟨k, hk, he, h1, h2, h3⟩ := dimLoop_error (out.length - ds.length) ds 0 out out e
    (by omega) rfl (fun _ _ => rfl) h
  refine ⟨⟨_, he⟩, ds.length - 1 - k, ?_⟩
  have hidx : out.length - 1 - (ds.length - 1 - k) = out.length - ds.length + 0 + k := by omega
  have hidx2 : ds.length - 1 - (ds.length - 1 - k) = k := by omega
  rw [rightDim_of_lt (by omega : ds.length - 1 - k < ds.length),
    rightDim_of_lt (by omega : ds.length - 1 - k < out.length), hidx, hidx2]
  exact ⟨h1, h2, h3⟩

theorem BroadcastOf.congr {A B : List VectorDims} {out : VectorDims}
    (h : ∀ s, s ∈ A ↔ s ∈ B) (hA : BroadcastOf A out) : BroadcastOf B out := by
  intro q
  obtain ⟨h1, h2⟩ := hA q
  refine ⟨fun s hs => h1 s ((h s).2 hs), ?_⟩
  rcases h2 with h2 | ⟨s, hs, h2⟩
  · exact Or.inl h2
  · exact Or.inr ⟨s, (h s).1 hs, h2⟩

/-- One successful merge keeps the summary: the merged shape summarises the
seen shapes together with the merged-in input. -/
theorem BroadcastOf.merge {seen : List VectorDims} {ds out out' : VectorDims}
    (hinv : BroadcastOf seen out)
    (hm : ∀ q, (rightDim ds q = rightDim out q ∨ rightDim out q = 1 ∨ rightDim ds q = 1) ∧
      rightDim out' q = if rightDim out q = 1 then rightDim ds q else rightDim out q) :
    BroadcastOf (ds :: seen) out' := by
  intro q
  obtain ⟨h1, h2⟩ := hinv q
  obtain ⟨hc, ho⟩ := hm q
  by_cases ho1 : rightDim out q = 1
  · rw [if_pos ho1] at ho
    refine ⟨fun s hs => ?_, Or.inr ⟨ds, by simp, ho.symm⟩⟩
    rcases List.mem_cons.1 hs with rfl | hs
    · exact Or.inr ho.symm
    · rcases h1 s hs with h | h
      · exact Or.inl h
      · exact Or.inl (h.trans ho1)
  · rw [if_neg ho1] at ho
    refine ⟨fun s hs => ?_, ?_⟩
    · rcases List.mem_cons.1 hs with rfl | hs
      · rcases hc with h | h | h
        · exact Or.inr (h.trans ho.symm)
        · exact absurd h ho1
        · exact Or.inl h
      · rcases h1 s hs with h | h
        · exact Or.inl h
        · exact Or.inr (h.trans ho.symm)
    · rcases h2 with h | ⟨s, hs, h⟩
      · exact absurd h ho1
      · exact Or.inr ⟨s, List.mem_cons_of_mem _ hs, h.trans ho.symm⟩

/-- The outer loop on inputs no longer than the output, the skipped input
being among the seen shapes: on success the output rank is kept and the result
summarises every shape. -/
theorem shapeLoop_ok (idx : Nat) :
    ∀ (rest : List VectorDims) (i : Nat) (out : VectorDims) (seen : List VectorDims)
      (merged : VectorDims),
      (∀ s ∈ rest, s.length ≤ out.length) →
      (∀ k s, rest[k]? = some s → i + k = idx → s ∈ seen) →
      BroadcastOf seen out →
      EltwiseShapeInfer.shapeLoop idx rest i out = .ok merged →
      merged.length = out.length ∧ BroadcastOf (rest ++ seen) merged := by
  intro rest
  induction rest with
  | nil =>
    intro i out seen merged _ _ hinv h
    simp only [EltwiseShapeInfer.shapeLoop] at h
    cases h
    exact ⟨rfl, hinv⟩
  | cons ds rest ih =>
    intro i out seen merged hlen hskip hinv h
    have hskip' : ∀ (seen' : List VectorDims), (∀ s, s ∈ seen → s ∈ seen') →
        ∀ k s, rest[k]? = some s → i + 1 + k = idx → s ∈ seen' := fun seen' hsub k s hk hi =>
      hsub s (hskip (k + 1) s (by simpa using hk) (by omega))
    unfold EltwiseShapeInfer.shapeLoop at h
    by_cases hi : i = idx
    · rw [if_pos hi] at h
      have hds : ds ∈ seen := hskip 0 ds (by simp) (by omega)
      obtain ⟨hl, hb⟩ := ih (i + 1) out seen merged
        (fun s hs => hlen s (List.mem_cons_of_mem _ hs)) (hskip' seen fun _ hs => hs) hinv h
      refine ⟨hl, hb.congr fun s => ?_⟩
      simp only [List.mem_append, List.mem_cons]
      constructor
      · rintro (hs | hs)
        · exact Or.inl (Or.inr hs)
        · exact Or.inr hs
      · rintro ((rfl | hs) | hs)
        · exact Or.inr hds
        · exact Or.inl hs
        · exact Or.inr hs
    · rw [if_neg hi, if_neg (not_not.2 (hlen ds (List.mem_cons_self _ _)))] at h
      cases hd : EltwiseShapeInfer.dimLoop (out.length - ds.length) ds 0 out with
      | error e => rw [hd] at h; cases h
      | ok out1 =>
        rw [hd] at h
        simp only at h
        obtain ⟨hl1, hm⟩ := dimLoop_ok_right (hlen ds (List.mem_cons_self _ _)) hd
        obtain ⟨hl, hb⟩ := ih (i + 1) out1 (ds :: seen) merged
          (fun s hs => by rw [hl1]; exact hlen s (List.mem_cons_of_mem _ hs))
          (hskip' (ds :: seen) fun _ hs => List.mem_cons_of_mem _ hs) (hinv.merge hm) h
        refine ⟨hl.trans hl1, hb.congr fun s => ?_⟩
        simp only [List.mem_append, List.mem_cons]
        constructor
        · rintro (hs | rfl | hs)
          · exact Or.inl (Or.inr hs)
          · exact Or.inl (Or.inl rfl)
          · exact Or.inr hs
        · rintro ((rfl | hs) | hs)
          · exact Or.inr (Or.inl rfl)
          · exact Or.inl hs
          · exact Or.inr (Or.inr hs)

/-- The outer loop on inputs no longer than the output: an error is the
dimension mismatch, and two of the shapes conflict at some right-aligned
position. -/
theorem shapeLoop_error (idx : Nat) :
    ∀ (rest : List VectorDims) (i : Nat) (out : VectorDims) (seen : List VectorDims)
      (e : InferError),
      (∀ s ∈ rest, s.length ≤ out.length) →
      BroadcastOf seen out →
      EltwiseShapeInfer.shapeLoop idx rest i out = .error e →
      (∃ j, e = .dimMismatch j) ∧ BroadcastConflict (rest ++ seen) := by
  intro rest
  induction rest with
  | nil =>
    intro i out seen e _ _ h
    simp only [EltwiseShapeInfer.shapeLoop] at h
    cases h
  | cons ds rest ih =>
    intro i out seen e hlen hinv h
    have lift : ∀ seen' : List VectorDims, (∀ s, s ∈ seen' → s ∈ ds :: seen) →
        BroadcastConflict (rest ++ seen') → BroadcastConflict ((ds :: rest) ++ seen) := by
      rintro seen' hsub ⟨a, ha, b, hb, q, hq⟩
      have mem : ∀ s, s ∈ rest ++ seen' → s ∈ (ds :: rest) ++ seen := by
        intro s hs
        simp only [List.mem_append, List.mem_cons, List.cons_append] at hs ⊢
        rcases hs with hs | hs
        · exact Or.inr (Or.inl hs)
        · rcases List.mem_cons.1 (hsub s hs) with rfl | hs
          · exact Or.inl rfl
          · exact Or.inr (Or.inr hs)
      exact ⟨a, mem a ha, b, mem b hb, q, hq⟩
    unfold EltwiseShapeInfer.shapeLoop at h
    by_cases hi : i = idx
    · rw [if_pos hi] at h
      obtain ⟨he, hc⟩ := ih (i + 1) out seen e
        (fun s hs => hlen s (List.mem_cons_of_mem _ hs)) hinv h
      exact ⟨he, lift seen (fun s hs => List.mem_cons_of_mem _ hs) hc⟩
    · rw [if_neg hi, if_neg (not_not.2 (hlen ds (List.mem_cons_self _ _)))] at h
      cases hd : EltwiseShapeInfer.dimLoop (out.length - ds.length) ds 0 out with
      | error e1 =>
        rw [hd] at h
        simp only at h
        cases h
        obtain ⟨he, q, h1, h2, h3⟩ := dimLoop_error_right (hlen ds (List.mem_cons_self _ _)) hd
        refine ⟨he, ?_⟩
        rcases (hinv q).2 with ho | ⟨s, hs, ho⟩
        · exact absurd ho h2
        · refine ⟨ds, by simp, s, by simp [hs], q, ?_, h3, ?_⟩
          · rw [ho]; exact h1
          · rw [ho]; exact h2
      | ok out1 =>
        rw [hd] at h
        simp only at h
        obtain ⟨hl1, hm⟩ := dimLoop_ok_right (hlen ds (List.mem_cons_self _ _)) hd
        obtain ⟨he, hc⟩ := ih (i + 1) out1 (ds :: seen) e
          (fun s hs => by rw [hl1]; exact hlen s (List.mem_cons_of_mem _ hs))
          (hinv.merge hm) h
        exact ⟨he, lift (ds :: seen) (fun s hs => hs) hc⟩

/-- The first loop selects an input of maximal rank. -/
theorem maxRankLoop_spec :
    ∀ (rest pre : List VectorDims) (m mi : Nat),
      (∀ s ∈ pre, s.length ≤ m) →
      ((pre ++ rest)[mi]?.map List.length = some m ∨ (m = 0 ∧ mi = 0)) →
      (∀ s ∈ pre ++ rest, s.length ≤ (EltwiseShapeInfer.maxRankLoop rest pre.length (m, mi)).1) ∧
      ((pre ++ rest)[(EltwiseShapeInfer.maxRankLoop rest pre.length (m, mi)).2]?.map List.length =
          some (EltwiseShapeInfer.maxRankLoop rest pre.length (m, mi)).1 ∨
        ((EltwiseShapeInfer.maxRankLoop rest pre.length (m, mi)).1 = 0 ∧
          (EltwiseShapeInfer.maxRankLoop rest pre.length (m, mi)).2 = 0)) := by
  intro rest
  induction rest with
  | nil =>
    intro pre m mi hpre hsel
    simp only [EltwiseShapeInfer.maxRankLoop, List.append_nil] at hsel ⊢
    exact ⟨hpre, hsel⟩
  | cons item rest ih =>
    intro pre m mi hpre hsel
    have happ : pre ++ item :: rest = (pre ++ [item]) ++ rest := by simp
    have hlen : (pre ++ [item]).length = pre.length + 1 := by simp
    unfold EltwiseShapeInfer.maxRankLoop
    by_cases hgt : item.length > m
    · rw [if_pos hgt, happ, ← hlen]
      refine ih (pre ++ [item]) item.length pre.length ?_ (Or.inl ?_)
      · intro s hs
        rcases List.mem_append.1 hs with hs | hs
        · exact le_of_lt (lt_of_le_of_lt (hpre s hs) hgt)
        · rw [List.mem_singleton.1 hs]
      · rw [← happ, List.getElem?_append_right (le_refl _)]
        simp
    · rw [if_neg hgt, happ, ← hlen]
      refine ih (pre ++ [item]) m mi ?_ ?_
      · intro s hs
        rcases List.mem_append.1 hs with hs | hs
        · exact hpre s hs
        · rw [List.mem_singleton.1 hs]; omega
      · rw [← happ]; exact hsel

/-- On a non-empty list the selected index holds an input whose rank bounds
every rank. -/
theorem maxRank_base {input_shapes : List VectorDims} (hne : input_shapes ≠ []) :
    ∃ base, input_shapes[(EltwiseShapeInfer.maxRankLoop input_shapes 0 (0, 0)).2]? = some base ∧
      base ∈ input_shapes ∧ ∀ s ∈ input_shapes, s.length ≤ base.length := by
  obtain ⟨hmax, hsel⟩ := maxRankLoop_spec input_shapes [] 0 0 (by simp) (Or.inr ⟨rfl, rfl⟩)
  simp only [List.nil_append, List.length_nil] at hmax hsel
  rcases hsel with hsel | ⟨h1, h2⟩
  · cases hb : input_shapes[(EltwiseShapeInfer.maxRankLoop input_shapes 0 (0, 0)).2]? with
    | none => rw [hb] at hsel; simp at hsel
    | some base =>
      rw [hb] at hsel
      simp only [Option.map_some', Option.some.injEq] at hsel
      exact ⟨base, rfl, List.getElem?_mem hb, fun s hs => by rw [hsel]; exact hmax s hs⟩
  · cases input_shapes with
    | nil => exact absurd rfl hne
    | cons first rest =>
      refine ⟨first, by rw [h2]; simp, by simp, fun s hs => ?_⟩
      have := hmax s hs
      omega

theorem BroadcastOf.single (base : VectorDims) : BroadcastOf [base] base := by
  intro q
  refine ⟨fun s hs => ?_, Or.inr ⟨base, by simp, rfl⟩⟩
  rw [List.mem_singleton.1 hs]
  exact Or.inr rfl

/-- The result of `infer` on a non-empty list: either one output shape of the
base rank summarising all inputs, or the dimension mismatch with two
conflicting inputs. -/
theorem infer_cases {input_shapes : List VectorDims} (hne : input_shapes ≠ []) :
    (∃ out, EltwiseShapeInfer.infer input_shapes = .ok { dims := [out], status := .success } ∧
      (∀ s ∈ input_shapes, s.length ≤ out.length) ∧ (∃ s ∈ input_shapes, s.length = out.length) ∧
      BroadcastOf input_shapes out) ∨
    ((∃ j, EltwiseShapeInfer.infer input_shapes = .error (.dimMismatch j)) ∧
      BroadcastConflict input_shapes) := by
  obtain ⟨base, hb, hmem, hmax⟩ := maxRank_base hne
  have hsub : ∀ s, s ∈ input_shapes ++ [base] ↔ s ∈ input_shapes := by
    intro s
    simp only [List.mem_append, List.mem_singleton]
    constructor
    · rintro (hs | rfl)
      · exact hs
      · exact hmem
    · exact Or.inl
  unfold EltwiseShapeInfer.infer
  rw [hb]
  simp only
  cases hs : EltwiseShapeInfer.shapeLoop (EltwiseShapeInfer.maxRankLoop input_shapes 0 (0, 0)).2
      input_shapes 0 base with
  | error e =>
    right
    obtain ⟨⟨j, he⟩, a, ha, b, hb', q, hq⟩ := shapeLoop_error _ input_shapes 0 base [base] e hmax
      (BroadcastOf.single base) hs
    exact ⟨⟨j, by rw [he]⟩, a, (hsub a).1 ha, b, (hsub b).1 hb', q, hq⟩
  | ok merged =>
    left
    obtain ⟨hl, hbr⟩ := shapeLoop_ok _ input_shapes 0 base [base] merged hmax
      (fun k s hk hi => by
        rw [Nat.zero_add] at hi
        rw [hi, hb] at hk
        simp only [Option.some.injEq] at hk
        simp [hk])
      (BroadcastOf.single base) hs
    exact ⟨merged, rfl, fun s hs' => by rw [hl]; exact hmax s hs', ⟨base, hmem, hl.symm⟩,
      hbr.congr hsub⟩

theorem BroadcastOf.compatible {shapes : List VectorDims} {out : VectorDims}
    (h : BroadcastOf shapes out) : BroadcastCompatible shapes := by
  intro a ha b hb q
  rcases (h q).1 a ha with h1 | h1
  · exact Or.inr (Or.inl h1)
  · rcases (h q).1 b hb with h2 | h2
    · exact Or.inr (Or.inr h2)
    · exact Or.inl (h1.trans h2.symm)

theorem BroadcastConflict.not_compatible {shapes : List VectorDims}
    (h : BroadcastConflict shapes) : ¬ BroadcastCompatible shapes := by
  obtain ⟨a, ha, b, hb, q, h1, h2, h3⟩ := h
  intro hc
  rcases hc a ha b hb q with h | h | h
  · exact h1 h
  · exact h2 h
  · exact h3 h

theorem BroadcastOf.numpy {shapes : List VectorDims} {out : VectorDims}
    (h1 : ∀ s ∈ shapes, s.length ≤ out.length) (h2 : ∃ s ∈ shapes, s.length = out.length)
    (h : BroadcastOf shapes out) : IsNumpyBroadcast shapes out := by
  refine ⟨h1, h2, fun q => ?_⟩
  by_cases ho : rightDim out q = 1
  · right
    refine ⟨fun s hs => ?_, ho⟩
    rcases (h q).1 s hs with hs1 | hs1
    · exact hs1
    · exact hs1.trans ho
  · left
    rcases (h q).2 with h3 | ⟨s, hs, h3⟩
    · exact absurd h3 ho
    · refine ⟨s, hs, by rw [h3]; exact ho, h3.symm, fun t ht ht1 => ?_⟩
      rcases (h q).1 t ht with h4 | h4
      · exact absurd h4 ht1
      · exact h4.trans h3.symm

/-- A shape is determined by its rank and its right-aligned extents. -/
theorem eq_of_rightDim {a b : VectorDims} (hl : a.length = b.length)
    (h : ∀ q, rightDim a q = rightDim b q) : a = b := by
  have hr : a.reverse = b.reverse := by
    apply List.ext_getElem (by simpa using hl)
    intro q h1 h2
    have := h q
    unfold rightDim at this
    rwa [List.getD_eq_getElem _ _ h1, List.getD_eq_getElem _ _ h2] at this
  simpa using congrArg List.reverse hr

/-- The NumPy broadcast of a list of shapes is unique. -/
theorem IsNumpyBroadcast.unique {shapes : List VectorDims} {out1 out2 : VectorDims}
    (h1 : IsNumpyBroadcast shapes out1) (h2 : IsNumpyBroadcast shapes out2) : out1 = out2 := by
  obtain ⟨a1, ⟨s1, hs1, e1⟩, c1⟩ := h1
  obtain ⟨a2, ⟨s2, hs2, e2⟩, c2⟩ := h2
  have hl : out1.length = out2.length :=
    le_antisymm (e1 ▸ a2 s1 hs1) (e2 ▸ a1 s2 hs2)
  refine eq_of_rightDim hl fun q => ?_
  rcases c1 q with ⟨s, hs, hs1', ho, hu⟩ | ⟨hall, ho⟩
  · rcases c2 q with ⟨t, ht, ht1, ho', _⟩ | ⟨hall', _⟩
    · rw [ho, ho', hu t ht ht1]
    · exact absurd (hall' s hs) hs1'
  · rcases c2 q with ⟨t, ht, ht1, _, _⟩ | ⟨_, ho'⟩
    · exact absurd (hall t ht) ht1
    · rw [ho, ho']

/-- C16: on every non-empty list of broadcast-compatible input shapes
`EltwiseShapeInfer.infer` returns status success and exactly one output shape,
their NumPy broadcast: its rank is the maximal input rank and each
right-aligned extent is the extent different from 1 shared by the inputs at
that position, or 1 when every input has 1 or no dimension there. -/
theorem eltwise_infer_numpy_broadcast (input_shapes : List VectorDims)
    (hne : input_shapes ≠ []) (hcompat : BroadcastCompatible input_shapes) :
    ∃ out, EltwiseShapeInfer.infer input_shapes = .ok { dims := [out], status := .success } ∧
      IsNumpyBroadcast input_shapes out := by
  rcases infer_cases hne with ⟨out, hinf, h1, h2, hb⟩ | ⟨_, hconf⟩
  · exact ⟨out, hinf, hb.numpy h1 h2⟩
  · exact absurd hcompat hconf.not_compatible

/-- Instance of C16: the shapes `[2,1,4]` and `[3,1]` are compatible and are
broadcast to `[2,3,4]`. -/
theorem eltwise_infer_numpy_broadcast_witness :
    BroadcastCompatible [[2, 1, 4], [3, 1]] ∧
    EltwiseShapeInfer.infer [[2, 1, 4], [3, 1]] =
      .ok { dims := [[2, 3, 4]], status := .success } ∧
    ∃ out, EltwiseShapeInfer.infer [[2, 1, 4], [3, 1]] =
        .ok { dims := [out], status := .success } ∧
      IsNumpyBroadcast [[2, 1, 4], [3, 1]] out :=
  have hc : BroadcastCompatible [[2, 1, 4], [3, 1]] := by
    intro a ha b hb q
    simp only [List.mem_cons, List.mem_singleton, List.not_mem_nil, or_false] at ha hb
    rcases ha with rfl | rfl <;> rcases hb with rfl | rfl <;>
      rcases q with _ | _ | _ | q <;> simp [rightDim]
  ⟨hc, rfl, eltwise_infer_numpy_broadcast [[2, 1, 4], [3, 1]] (by simp) hc⟩

/-- C17: on every non-empty list of input shapes `EltwiseShapeInfer.infer`
fails with the dimension mismatch if and only if, with the shapes
right-aligned, some position holds two input extents that differ from each
other and are both different from 1. -/
theorem eltwise_infer_dim_mismatch (input_shapes : List VectorDims) (hne : input_shapes ≠ []) :
    (∃ j, EltwiseShapeInfer.infer input_shapes = .error (.dimMismatch j)) ↔
      BroadcastConflict input_shapes := by
  constructor
  · rintro ⟨j, hj⟩
    rcases infer_cases hne with ⟨out, hinf, _, _, _⟩ | ⟨_, hconf⟩
    · rw [hinf] at hj; cases hj
    · exact hconf
  · intro hconf
    rcases infer_cases hne with ⟨out, _, _, _, hb⟩ | ⟨herr, _⟩
    · exact absurd hb.compatible hconf.not_compatible
    · exact herr

/-- Instance of C17: `[3,2]` against `[2,1,4]` holds 2 and 4 at the last
position, and the inference fails at dimension index 1. -/
theorem eltwise_infer_dim_mismatch_witness :
    EltwiseShapeInfer.infer [[3, 2], [2, 1, 4]] = .error (.dimMismatch 1) ∧
    BroadcastConflict [[3, 2], [2, 1, 4]] ∧
    ((∃ j, EltwiseShapeInfer.infer [[3, 2], [2, 1, 4]] = .error (.dimMismatch j)) ↔
      BroadcastConflict [[3, 2], [2, 1, 4]]) :=
  ⟨rfl, ⟨[3, 2], by simp, [2, 1, 4], by simp, 0, by decide, by decide, by decide⟩,
    eltwise_infer_dim_mismatch [[3, 2], [2, 1, 4]] (by simp)⟩

/-- C25: `EltwiseShapeInfer.infer` is independent of the order of its inputs:
for every non-empty list of input shapes and every permutation of it, either
both calls fail or both return the same single output shape with status
success. -/
theorem eltwise_infer_order_independent (input_shapes permuted : List VectorDims)
    (hne : input_shapes ≠ []) (hperm : input_shapes.Perm permuted) :
    ((∃ e, EltwiseShapeInfer.infer input_shapes = .error e) ∧
      (∃ e, EltwiseShapeInfer.infer permuted = .error e)) ∨
    (∃ out, EltwiseShapeInfer.infer input_shapes = .ok { dims := [out], status := .success } ∧
      EltwiseShapeInfer.infer permuted = .ok { dims := [out], status := .success }) := by
  have hne' : permuted ≠ [] := fun h => hne (List.Perm.eq_nil (h ▸ hperm))
  have hmem : ∀ s, s ∈ permuted ↔ s ∈ input_shapes := fun s => (hperm.mem_iff).symm
  rcases infer_cases hne with ⟨out, hinf, h1, h2, hb⟩ | ⟨⟨j, herr⟩, hconf⟩
  · rcases infer_cases hne' with ⟨out', hinf', h1', h2', hb'⟩ | ⟨_, hconf'⟩
    · right
      have hnp : IsNumpyBroadcast input_shapes out := hb.numpy h1 h2
      have hnp' : IsNumpyBroadcast input_shapes out' :=
        (hb'.congr hmem).numpy (fun s hs => h1' s ((hmem s).2 hs))
          (h2'.imp fun s hs => ⟨(hmem s).1 hs.1, hs.2⟩)
      rw [hnp'.unique hnp] at hinf'
      exact ⟨out, hinf, hinf'⟩
    · obtain ⟨a, ha, b, hb2, q, hq⟩ := hconf'
      exact absurd hb.compatible
        (BroadcastConflict.not_compatible ⟨a, (hmem a).1 ha, b, (hmem b).1 hb2, q, hq⟩)
  · rcases infer_cases hne' with ⟨out', _, _, _, hb'⟩ | ⟨⟨j', herr'⟩, _⟩
    · exact absurd (hb'.congr hmem).compatible hconf.not_compatible
    · exact Or.inl ⟨⟨_, herr⟩, ⟨_, herr'⟩⟩

/-- Instance of C25: `[1,3]` and `[2,1]` give `[2,3]` in both orders, although
the starting shape is `[1,3]` in one order and `[2,1]` in the other. -/
theorem eltwise_infer_order_independent_witness :
    EltwiseShapeInfer.infer [[1, 3], [2, 1]] = .ok { dims := [[2, 3]], status := .success } ∧
    EltwiseShapeInfer.infer [[2, 1], [1, 3]] = .ok { dims := [[2, 3]], status := .success } ∧
    [[1, 3], [2, 1]][(EltwiseShapeInfer.maxRankLoop [[1, 3], [2, 1]] 0 (0, 0)).2]? =
      some [1, 3] ∧
    [[2, 1], [1, 3]][(EltwiseShapeInfer.maxRankLoop [[2, 1], [1, 3]] 0 (0, 0)).2]? =
      some [2, 1] ∧
    (((∃ e, EltwiseShapeInfer.infer [[1, 3], [2, 1]] = .error e) ∧
        (∃ e, EltwiseShapeInfer.infer [[2, 1], [1, 3]] = .error e)) ∨
      (∃ out,
        EltwiseShapeInfer.infer [[1, 3], [2, 1]] = .ok { dims := [out], status := .success } ∧
        EltwiseShapeInfer.infer [[2, 1], [1, 3]] =
          .ok { dims := [out], status := .success })) :=
  ⟨rfl, rfl, rfl, rfl,
    eltwise_infer_order_independent [[1, 3], [2, 1]] [[2, 1], [1, 3]] (by simp)
      (List.Perm.swap _ _ _)⟩

/-- C26: on every non-empty list of input shapes `EltwiseShapeInfer.infer`
never fails its rank assertion and never indexes a shape out of range, and a
returned shape has the maximal input rank: no input is longer and some input
is as long. -/
theorem eltwise_infer_rank_safe (input_shapes : List VectorDims) (hne : input_shapes ≠ []) :
    EltwiseShapeInfer.infer input_shapes ≠ .error .rankMismatch ∧
    EltwiseShapeInfer.infer input_shapes ≠ .error .outOfRange ∧
    ∀ result, EltwiseShapeInfer.infer input_shapes = .ok result →
      ∃ out, result = { dims := [out], status := .success } ∧
        (∀ s ∈ input_shapes, s.length ≤ out.length) ∧
        ∃ s ∈ input_shapes, s.length = out.length := by
  rcases infer_cases hne with ⟨out, hinf, h1, h2, _⟩ | ⟨⟨j, herr⟩, _⟩
  · rw [hinf]
    refine ⟨fun h => (by cases h), fun h => (by cases h), fun result hres => ?_⟩
    cases hres
    exact ⟨out, rfl, h1, h2⟩
  · rw [herr]
    exact ⟨fun h => (by cases h), fun h => (by cases h), fun _ h => (by cases h)⟩

/-- Instance of C26: `[3,1]`, `[2,1,4]` and `[5,3,4]` conflict, and the failure is
the dimension mismatch, not the rank assertion; `[3,1]` and `[2,1,4]` alone
give a shape of rank 3. -/
theorem eltwise_infer_rank_safe_witness :
    EltwiseShapeInfer.infer [[3, 1], [2, 1, 4], [5, 3, 4]] = .error (.dimMismatch 0) ∧
    EltwiseShapeInfer.infer [[3, 1], [2, 1, 4], [5, 3, 4]] ≠ .error .rankMismatch ∧
    ∃ out, (⟨[[2, 3, 4]], .success⟩ : Result) = { dims := [out], status := .success } ∧
      (∀ s ∈ [[3, 1], [2, 1, 4]], s.length ≤ out.length) ∧
      ∃ s ∈ [[3, 1], [2, 1, 4]], s.length = out.length :=
  ⟨rfl, (eltwise_infer_rank_safe [[3, 1], [2, 1, 4], [5, 3, 4]] (by simp)).1,
    (eltwise_infer_rank_safe [[3, 1], [2, 1, 4]] (by simp)).2.2 ⟨[[2, 3, 4]], .success⟩ rfl⟩

/-! ## Order of the event trace -/

theorem step_trace_events (node : TensorIterator) (i : Nat) (st : LoopState) :
    (node.step i st).trace = st.trace ++ node.iterationEvents i st.buffers.length
      (node.continue_cond_check.getStatus (node.step i st).mem) := by
  rw [step_trace]
  simp only [TensorIterator.iterationEvents, List.append_assoc]

theorem iterationEvents_iteration (node : TensorIterator) (i buffers : Nat) (status : Int) :
    ∀ e ∈ node.iterationEvents i buffers status, e.iteration = some i := by
  intro e he
  simp only [TensorIterator.iterationEvents, List.mem_append, List.mem_map, List.mem_range,
    List.mem_singleton] at he
  rcases he with ((((⟨k, _, rfl⟩ | he) | rfl) | ⟨k, _, rfl⟩) | ⟨k, _, rfl⟩) | rfl
  · rfl
  · split at he
    · cases he
    · simp only [List.mem_map, List.mem_range] at he
      obtain ⟨k, _, rfl⟩ := he
      rfl
  · rfl
  · rfl
  · rfl
  · rfl

/-- Appending events of stages between `s` and `t` to events of stages up to
`s` keeps the stages ascending. -/
theorem stage_append {l1 : List Event} (l2 : List Event) (s t : Nat) (hst : s ≤ t)
    (h1 : l1.Pairwise (fun a b => a.stage ≤ b.stage) ∧ ∀ a ∈ l1, a.stage ≤ s)
    (h2 : ∀ b ∈ l2, b.stage = t) :
    (l1 ++ l2).Pairwise (fun a b => a.stage ≤ b.stage) ∧ ∀ a ∈ l1 ++ l2, a.stage ≤ t := by
  refine ⟨List.pairwise_append.2 ⟨h1.1, ?_, fun a ha b hb => ?_⟩, fun a ha => ?_⟩
  · rw [List.pairwise_iff_getElem]
    intro p q hp hq _
    rw [h2 _ (List.getElem_mem _), h2 _ (List.getElem_mem _)]
  · rw [h2 b hb]
    exact le_trans (h1.2 a ha) hst
  · rcases List.mem_append.1 ha with ha | ha
    · exact le_trans (h1.2 a ha) hst
    · exact le_of_eq (h2 a ha)

theorem iterationEvents_stage (node : TensorIterator) (i buffers : Nat) (status : Int) :
    (node.iterationEvents i buffers status).Pairwise (fun a b => a.stage ≤ b.stage) := by
  have h0 : (([] : List Event).Pairwise (fun a b => a.stage ≤ b.stage)) ∧
      ∀ a ∈ ([] : List Event), a.stage ≤ 0 := ⟨List.Pairwise.nil, fun a ha => (by cases ha)⟩
  have h1 := stage_append ((List.range node.before_mappers.length).map (Event.beforeTransfer i))
    0 0 le_rfl h0 (fun b hb => by obtain ⟨k, _, rfl⟩ := List.mem_map.1 hb; rfl)
  have h2 := stage_append
    (if i = 0 then [] else (List.range node.back_mappers.length).map (Event.backTransfer i))
    0 0 le_rfl h1
    (fun b hb => by
      split at hb
      · cases hb
      · obtain ⟨k, _, rfl⟩ := List.mem_map.1 hb; rfl)
  have h3 := stage_append [Event.bodyExec i] 0 1 (by omega) h2
    (fun b hb => by rw [List.mem_singleton.1 hb]; rfl)
  have h4 := stage_append ((List.range node.after_mappers.length).map (Event.afterTransfer i))
    1 2 (by omega) h3 (fun b hb => by obtain ⟨k, _, rfl⟩ := List.mem_map.1 hb; rfl)
  have h5 := stage_append ((List.range buffers).map (Event.bufferExec i)) 2 2 le_rfl h4
    (fun b hb => by obtain ⟨k, _, rfl⟩ := List.mem_map.1 hb; rfl)
  have h6 := stage_append [Event.condRead i status] 2 3 (by omega) h5
    (fun b hb => by rw [List.mem_singleton.1 hb]; rfl)
  simpa only [List.nil_append] using h6.1

theorem iterationEvents_inOrder (node : TensorIterator) (i buffers : Nat) (status : Int) :
    (node.iterationEvents i buffers status).Pairwise Event.InOrder := by
  have hs := iterationEvents_stage node i buffers status
  have hi := iterationEvents_iteration node i buffers status
  rw [List.pairwise_iff_getElem] at hs ⊢
  intro p q hp hq hpq x y hx hy
  rw [hi _ (List.getElem_mem _)] at hx hy
  cases hx
  cases hy
  exact Or.inr ⟨rfl, hs p q hp hq hpq⟩

/-- What one iteration contributes: its body execution, its mapper transfers
and one read of the continue condition. -/
theorem iterationEvents_mem (node : TensorIterator) (i buffers : Nat) (status : Int) :
    Event.bodyExec i ∈ node.iterationEvents i buffers status ∧
    (∀ k < node.before_mappers.length,
      Event.beforeTransfer i k ∈ node.iterationEvents i buffers status) ∧
    (0 < i → ∀ k < node.back_mappers.length,
      Event.backTransfer i k ∈ node.iterationEvents i buffers status) ∧
    (∀ k < node.after_mappers.length,
      Event.afterTransfer i k ∈ node.iterationEvents i buffers status) ∧
    Event.condRead i status ∈ node.iterationEvents i buffers status := by
  unfold TensorIterator.iterationEvents
  refine ⟨by simp, fun k hk => by simp [hk], fun hi k hk => ?_, fun k hk => by simp [hk],
    by simp⟩
  rw [if_neg (by omega)]
  simp [hk]

theorem Event.inOrder_refl (a : Event) : a.InOrder a := by
  intro i j hi hj
  rw [hi] at hj
  cases hj
  exact Or.inr ⟨rfl, le_rfl⟩

/-- In a list in schedule order, an event that may not follow another one
precedes it. -/
theorem precedes_of_pairwise {events : List Event} (h : events.Pairwise Event.InOrder)
    {a b : Event} (hab : ¬ b.InOrder a) : Precedes events a b := by
  intro p q hp hq
  by_contra hlt
  rcases Nat.lt_or_eq_of_le (Nat.le_of_not_lt hlt) with hqp | hqp
  · obtain ⟨hp', hpa⟩ := List.getElem?_eq_some.1 hp
    obtain ⟨hq', hqb⟩ := List.getElem?_eq_some.1 hq
    have := (List.pairwise_iff_getElem.1 h) q p hq' hp' hqp
    rw [hpa, hqb] at this
    exact hab this
  · rw [hqp, hp] at hq
    cases hq
    exact hab (Event.inOrder_refl a)

/-- The trace of the loop stays in schedule order, names only iterations that
ran, and holds the events of every iteration that ran. -/
theorem loop_trace_order (node : TensorIterator) (bound : Option Nat) :
    ∀ (fuel i : Nat) (cond : Int) (st : LoopState) (n : Nat) (stf : LoopState),
      node.loop bound fuel i cond st = some (.ok (n, stf)) →
      st.trace.Pairwise Event.InOrder →
      (∀ e ∈ st.trace, ∀ j, e.iteration = some j → j < i) →
      i ≤ n ∧ stf.trace.Pairwise Event.InOrder ∧
      (∀ e ∈ stf.trace, ∀ j, e.iteration = some j → j < n) ∧
      stf.buffers.length = st.buffers.length ∧
      (∀ e ∈ st.trace, e ∈ stf.trace) ∧
      (∀ e ∈ stf.trace, e ∈ st.trace ∨
        ∃ j status, e ∈ node.iterationEvents j st.buffers.length status) ∧
      ∀ j, i ≤ j → j < n →
        ∃ status, ∀ e ∈ node.iterationEvents j st.buffers.length status, e ∈ stf.trace := by
  intro fuel
  induction fuel with
  | zero =>
    intro i cond st n stf hrun hp hb
    unfold TensorIterator.loop at hrun
    split at hrun
    · cases hrun
    · split at hrun
      · cases hrun
        exact ⟨le_rfl, hp, hb, rfl, fun _ h => h, fun _ h => Or.inl h,
          fun j h1 h2 => absurd h2 (by omega)⟩
      · cases hrun
  | succ fuel ih =>
    intro i cond st n stf hrun hp hb
    unfold TensorIterator.loop at hrun
    split at hrun
    · cases hrun
    · split at hrun
      · cases hrun
        exact ⟨le_rfl, hp, hb, rfl, fun _ h => h, fun _ h => Or.inl h,
          fun j h1 h2 => absurd h2 (by omega)⟩
      · simp only at hrun
        have htr := step_trace_events node i st
        have hblen : (node.step i st).buffers.length = st.buffers.length := by
          rw [step_buffers, List.length_map]
        have hp' : (node.step i st).trace.Pairwise Event.InOrder := by
          rw [htr, List.pairwise_append]
          refine ⟨hp, iterationEvents_inOrder _ _ _ _, fun a ha b hb' x y hx hy => ?_⟩
          rw [iterationEvents_iteration _ _ _ _ b hb'] at hy
          cases hy
          exact Or.inl (hb a ha x hx)
        have hb' : ∀ e ∈ (node.step i st).trace, ∀ j, e.iteration = some j → j < i + 1 := by
          intro e he j hj
          rw [htr, List.mem_append] at he
          rcases he with he | he
          · exact Nat.lt_succ_of_lt (hb e he j hj)
          · rw [iterationEvents_iteration _ _ _ _ e he] at hj
            cases hj
            exact Nat.lt_succ_self _
        obtain ⟨h1, h2, h3, h4, h5, h7, h6⟩ := ih (i + 1) _ _ n stf hrun hp' hb'
        refine ⟨by omega, h2, h3, h4.trans hblen, fun e he => h5 e ?_, fun e he => ?_,
          fun j hj1 hj2 => ?_⟩
        · rw [htr]; exact List.mem_append_left _ he
        · rcases h7 e he with he' | ⟨j, status, he'⟩
          · rw [htr, List.mem_append] at he'
            rcases he' with he' | he'
            · exact Or.inl he'
            · exact Or.inr ⟨_, _, he'⟩
          · rw [hblen] at he'
            exact Or.inr ⟨j, status, he'⟩
        · rcases Nat.eq_or_lt_of_le hj1 with hji | hji
          · subst hji
            refine ⟨node.continue_cond_check.getStatus (node.step i st).mem,
              fun e he => h5 e ?_⟩
            rw [htr]; exact List.mem_append_right _ he
          · rw [← hblen]
            exact h6 j hji hj2

theorem Event.inOrder_of_none_left {a : Event} (b : Event) (h : a.iteration = none) :
    a.InOrder b := by
  intro i j hi _
  rw [h] at hi
  cases hi

theorem Event.inOrder_of_none_right (a : Event) {b : Event} (h : b.iteration = none) :
    a.InOrder b := by
  intro i j _ hj
  rw [h] at hj
  cases hj

theorem pairwise_inOrder_of_none {l : List Event} (h : ∀ e ∈ l, e.iteration = none) :
    l.Pairwise Event.InOrder := by
  rw [List.pairwise_iff_getElem]
  intro p q hp hq _
  exact Event.inOrder_of_none_left _ (h _ (List.getElem_mem _))

/-- A back-edge transfer belongs to an iteration after the first. -/
theorem backTransfer_not_mem_zero (node : TensorIterator) (j buffers k : Nat) (status : Int)
    (h : Event.backTransfer 0 k ∈ node.iterationEvents j buffers status) : False := by
  have hj := iterationEvents_iteration node j buffers status _ h
  simp only [Event.iteration, Option.some.injEq] at hj
  subst hj
  simp [TensorIterator.iterationEvents] at h

/-! ## The trace as a log of the operations performed -/

theorem replay_cons (node : TensorIterator) (e : Event) (es : List Event)
    (s : Memory × List DynamicBuffer) :
    node.replay (e :: es) s = node.replay es (node.perform e s) := rfl

theorem replay_append (node : TensorIterator) (l1 l2 : List Event)
    (s : Memory × List DynamicBuffer) :
    node.replay (l1 ++ l2) s = node.replay l2 (node.replay l1 s) := by
  simp only [TensorIterator.replay, List.foldl_append]

theorem faithful_append (node : TensorIterator) :
    ∀ (l1 l2 : List Event) (s : Memory × List DynamicBuffer),
      node.Faithful (l1 ++ l2) s ↔ node.Faithful l1 s ∧ node.Faithful l2 (node.replay l1 s) := by
  intro l1
  induction l1 with
  | nil =>
    intro l2 s
    simp [TensorIterator.Faithful, TensorIterator.replay]
  | cons e es ih =>
    intro l2 s
    show (_ ∧ node.Faithful (es ++ l2) (node.perform e s)) ↔
      ((_ ∧ node.Faithful es (node.perform e s)) ∧
        node.Faithful l2 (node.replay (e :: es) s))
    rw [ih, replay_cons, and_assoc]

/-- Replaying the events `ev o, ev (o+1), ...` that each perform the action of
the list item they name folds the action over the items. -/
theorem replay_range_aux {α : Type} (node : TensorIterator) (ev : Nat → Event)
    (act : α → Memory → Memory) (bs : List DynamicBuffer) (xs : List α)
    (hperf : ∀ k m, node.perform (ev k) (m, bs) =
      (xs[k]?).elim (m, bs) (fun x => (act x m, bs))) :
    ∀ (tail pre : List α) (m : Memory), xs = pre ++ tail →
      node.replay ((List.range' pre.length tail.length).map ev) (m, bs) =
        (tail.foldl (fun acc x => act x acc) m, bs) := by
  intro tail
  induction tail with
  | nil =>
    intro pre m _
    rfl
  | cons x tail ih =>
    intro pre m hxs
    have hk : xs[pre.length]? = some x := by
      rw [hxs, List.getElem?_append_right (le_refl _)]
      simp
    simp only [List.length_cons, List.range'_succ, List.map_cons]
    rw [replay_cons, hperf, hk]
    simp only [Option.elim]
    have := ih (pre ++ [x]) (act x m) (by rw [hxs]; simp)
    simp only [List.length_append, List.length_singleton] at this
    exact this

theorem replay_range {α : Type} (node : TensorIterator) (ev : Nat → Event)
    (act : α → Memory → Memory) (bs : List DynamicBuffer) (xs : List α)
    (hperf : ∀ k m, node.perform (ev k) (m, bs) =
      (xs[k]?).elim (m, bs) (fun x => (act x m, bs))) (m : Memory) :
    node.replay ((List.range xs.length).map ev) (m, bs) =
      (xs.foldl (fun acc x => act x acc) m, bs) := by
  have := replay_range_aux node ev act bs xs hperf xs [] m rfl
  rwa [List.length_nil, ← List.range_eq_range'] at this

/-- Replaying the `bufferExec` events of one iteration advances every dynamic
buffer on the same memory. -/
theorem replay_bufferExec_aux (node : TensorIterator) (i : Nat) (m : Memory) :
    ∀ (tail pre : List DynamicBuffer),
      node.replay ((List.range' pre.length tail.length).map (Event.bufferExec i))
          (m, pre ++ tail) =
        (m, pre ++ tail.map (fun b => b.execute m i)) := by
  intro tail
  induction tail with
  | nil =>
    intro pre
    simp [TensorIterator.replay]
  | cons b tail ih =>
    intro pre
    have hk : (pre ++ b :: tail)[pre.length]? = some b := by
      rw [List.getElem?_append_right (le_refl _)]
      simp
    have hset : (pre ++ b :: tail).set pre.length (b.execute m (i : Int)) =
        (pre ++ [b.execute m (i : Int)]) ++ tail := by
      rw [List.set_append_right _ _ (le_refl _)]
      simp
    have hperf : node.perform (Event.bufferExec i pre.length) (m, pre ++ b :: tail) =
        (m, (pre ++ [b.execute m (i : Int)]) ++ tail) := by
      simp only [TensorIterator.perform, hk, hset]
    simp only [List.length_cons, List.range'_succ, List.map_cons]
    rw [replay_cons, hperf]
    have := ih (pre ++ [b.execute m (i : Int)])
    simp only [List.length_append, List.length_singleton] at this
    rw [this]
    simp

theorem replay_bufferExec (node : TensorIterator) (i : Nat) (m : Memory)
    (bs : List DynamicBuffer) :
    node.replay ((List.range bs.length).map (Event.bufferExec i)) (m, bs) =
      (m, bs.map (fun b => b.execute m i)) := by
  have := replay_bufferExec_aux node i m bs []
  simpa only [List.length_nil, ← List.range_eq_range', List.nil_append] using this

theorem faithful_of_no_read (node : TensorIterator) :
    ∀ (l : List Event) (s : Memory × List DynamicBuffer),
      (∀ e ∈ l, ∀ i status, e ≠ Event.condRead i status) → node.Faithful l s := by
  intro l
  induction l with
  | nil => intro s _; trivial
  | cons e es ih =>
    intro s h
    exact ⟨fun i status he => absurd he (h e (List.mem_cons_self _ _) i status),
      ih _ fun e' he' => h e' (List.mem_cons_of_mem _ he')⟩

theorem faithful_map_range (node : TensorIterator) (ev : Nat → Event) (n : Nat)
    (s : Memory × List DynamicBuffer) (hev : ∀ k i status, ev k ≠ Event.condRead i status) :
    node.Faithful ((List.range n).map ev) s := by
  apply faithful_of_no_read
  intro e he
  obtain ⟨k, _, rfl⟩ := List.mem_map.1 he
  exact hev k

/-- Replaying the transfer events of a mapper sequence applies the mappers in
order. -/
theorem replay_mappers (node : TensorIterator) (hs : List PortMapHelper) (ev : Nat → Event)
    (n : Int) (bs : List DynamicBuffer)
    (hperf : ∀ k m, node.perform (ev k) (m, bs) =
      (hs[k]?).elim (m, bs) (fun h => (h.execute n m, bs))) (m : Memory) :
    node.replay ((List.range hs.length).map ev) (m, bs) = (applyMappers hs n m, bs) :=
  replay_range node ev (fun (h : PortMapHelper) (acc : Memory) => h.execute n acc) bs hs hperf m

theorem replay_before (node : TensorIterator) (i : Nat) (m : Memory) (bs : List DynamicBuffer) :
    node.replay ((List.range node.before_mappers.length).map (Event.beforeTransfer i)) (m, bs)
      = (applyMappers node.before_mappers i m, bs) :=
  replay_mappers node _ _ _ bs (fun k m => by
    simp only [TensorIterator.perform]
    cases node.before_mappers[k]? <;> rfl) m

theorem replay_back (node : TensorIterator) (i : Nat) (m : Memory) (bs : List DynamicBuffer) :
    node.replay ((List.range node.back_mappers.length).map (Event.backTransfer i)) (m, bs)
      = (applyMappers node.back_mappers i m, bs) :=
  replay_mappers node _ _ _ bs (fun k m => by
    simp only [TensorIterator.perform]
    cases node.back_mappers[k]? <;> rfl) m

theorem replay_after (node : TensorIterator) (i : Nat) (m : Memory) (bs : List DynamicBuffer) :
    node.replay ((List.range node.after_mappers.length).map (Event.afterTransfer i)) (m, bs)
      = (applyMappers node.after_mappers i m, bs) :=
  replay_mappers node _ _ _ bs (fun k m => by
    simp only [TensorIterator.perform]
    cases node.after_mappers[k]? <;> rfl) m

theorem replay_last (node : TensorIterator) (m : Memory) (bs : List DynamicBuffer) :
    node.replay ((List.range node.last_mappers.length).map Event.lastTransfer) (m, bs)
      = (applyMappers node.last_mappers (-1) m, bs) :=
  replay_mappers node _ _ _ bs (fun k m => by
    simp only [TensorIterator.perform]
    cases node.last_mappers[k]? <;> rfl) m

theorem replay_first (node : TensorIterator) (m : Memory) (bs : List DynamicBuffer) :
    node.replay ((List.range node.first_mappers.length).map Event.firstTransfer) (m, bs)
      = (applyMappers (node.first_mappers.map Prod.snd) (-1) m, bs) := by
  rw [replay_range node Event.firstTransfer
    (fun (keyed : (Int × Int) × PortMapHelper) acc => keyed.2.execute (-1) acc) bs
    node.first_mappers (fun k m => by
      simp only [TensorIterator.perform]
      cases node.first_mappers[k]? <;> rfl) m]
  simp only [applyMappers, List.foldl_map]

theorem replay_bufferTransfer (node : TensorIterator) (m : Memory) (bs : List DynamicBuffer) :
    node.replay ((List.range bs.length).map Event.bufferTransfer) (m, bs)
      = (transferBuffers bs m, bs) :=
  replay_range node Event.bufferTransfer (fun (b : DynamicBuffer) acc => b.transfer acc) bs bs
    (fun k m => by
      simp only [TensorIterator.perform]
      cases bs[k]? <;> rfl) m

/-- One `Iterating` step is the replay of the events it logs. -/
theorem replay_iterationEvents (node : TensorIterator) (i : Nat) (st : LoopState)
    (status : Int) :
    node.replay (node.iterationEvents i st.buffers.length status) (st.mem, st.buffers) =
      ((node.step i st).mem, (node.step i st).buffers) := by
  have hbody : ∀ s : Memory × List DynamicBuffer, node.replay [Event.bodyExec i] s =
      ({ s.1 with bodyOut := node.sub_graph s.1.bodyIn }, s.2) := fun _ => rfl
  have hcond : ∀ s : Memory × List DynamicBuffer,
      node.replay [Event.condRead i status] s = s := fun _ => rfl
  have hbackpart : ∀ m : Memory, node.replay
      (if i = 0 then [] else (List.range node.back_mappers.length).map (Event.backTransfer i))
      (applyMappers node.before_mappers i m, st.buffers) =
      (node.beforeBody i m, st.buffers) := by
    intro m
    unfold TensorIterator.beforeBody
    split
    · rfl
    · exact replay_back node i _ _
  unfold TensorIterator.iterationEvents
  rw [replay_append, replay_append, replay_append, replay_append, replay_append, replay_before,
    hbackpart, hbody, replay_after, replay_bufferExec, hcond, step_mem, step_buffers, step_mem]

/-- The events of one step are a faithful log when the logged status is the
one read after the step. -/
theorem faithful_iterationEvents (node : TensorIterator) (i : Nat) (st : LoopState) :
    node.Faithful (node.iterationEvents i st.buffers.length
      (node.continue_cond_check.getStatus (node.step i st).mem)) (st.mem, st.buffers) := by
  have hrep := replay_iterationEvents node i st
    (node.continue_cond_check.getStatus (node.step i st).mem)
  unfold TensorIterator.iterationEvents at hrep ⊢
  rw [replay_append] at hrep
  have hcond : ∀ s : Memory × List DynamicBuffer,
      node.replay [Event.condRead i (node.continue_cond_check.getStatus (node.step i st).mem)] s
        = s := fun _ => rfl
  rw [hcond] at hrep
  rw [faithful_append]
  refine ⟨faithful_of_no_read node _ _ ?_, ?_⟩
  · intro e he
    simp only [List.mem_append, List.mem_map, List.mem_range, List.mem_singleton] at he
    rcases he with (((⟨k, _, rfl⟩ | he) | rfl) | ⟨k, _, rfl⟩) | ⟨k, _, rfl⟩
    · intro _ _ h; cases h
    · split at he
      · cases he
      · simp only [List.mem_map, List.mem_range] at he
        obtain ⟨k, _, rfl⟩ := he
        intro _ _ h; cases h
    · intro _ _ h; cases h
    · intro _ _ h; cases h
    · intro _ _ h; cases h
  · rw [hrep]
    refine ⟨fun i' status he => ?_, trivial⟩
    cases he
    rfl

/-- The trace the loop adds is the log of the operations it performed: its
replay from the state the loop started in gives the state the loop ended in,
and every logged condition value is the value read at that point. -/
theorem loop_replay (node : TensorIterator) (bound : Option Nat) :
    ∀ (fuel i : Nat) (cond : Int) (st : LoopState) (n : Nat) (stf : LoopState),
      node.loop bound fuel i cond st = some (.ok (n, stf)) →
      ∃ suffix, stf.trace = st.trace ++ suffix ∧
        node.replay suffix (st.mem, st.buffers) = (stf.mem, stf.buffers) ∧
        node.Faithful suffix (st.mem, st.buffers) := by
  intro fuel
  induction fuel with
  | zero =>
    intro i cond st n stf hrun
    unfold TensorIterator.loop at hrun
    split at hrun
    · cases hrun
    · split at hrun
      · cases hrun
        exact ⟨[], by simp, rfl, trivial⟩
      · cases hrun
  | succ fuel ih =>
    intro i cond st n stf hrun
    unfold TensorIterator.loop at hrun
    split at hrun
    · cases hrun
    · split at hrun
      · cases hrun
        exact ⟨[], by simp, rfl, trivial⟩
      · simp only at hrun
        obtain ⟨suffix, h1, h2, h3⟩ := ih (i + 1) _ _ n stf hrun
        refine ⟨node.iterationEvents i st.buffers.length
          (node.continue_cond_check.getStatus (node.step i st).mem) ++ suffix, ?_, ?_, ?_⟩
        · rw [h1, step_trace_events, List.append_assoc]
        · rw [replay_append, replay_iterationEvents, h2]
        · rw [faithful_append, replay_iterationEvents]
          exact ⟨faithful_iterationEvents node i st, h3⟩

/-- The trace of a finished execution is the log of the operations performed:
replayed from the start memory and the reset dynamic buffers it gives the
final memory and buffers, and every logged condition value is the value read
at that point. -/
theorem execute_replay (node : TensorIterator) (fuel : Nat) (r : ExecResult)
    (hexec : node.execute fuel = some (.ok r)) :
    ∃ est : Int,
      node.replay r.trace (node.mem, node.buffers.map (fun b => b.reset est)) =
        (r.node.mem, r.node.buffers) ∧
      node.Faithful r.trace (node.mem, node.buffers.map (fun b => b.reset est)) := by
  obtain ⟨trip, n, st, -, hloop, rfl⟩ := execute_inv node fuel r hexec
  obtain ⟨suffix, htr, hrep, hfaith⟩ := loop_replay node _ fuel 0 _ _ n st hloop
  refine ⟨boundEstimate (combineBound trip node.numIteration), ?_, ?_⟩
  · simp only
    rw [htr, replay_append, replay_append, replay_append]
    have hfirst := replay_first node node.mem
      (node.buffers.map (fun b => b.reset (boundEstimate (combineBound trip node.numIteration))))
    rw [show (node.firstTransfer (combineBound trip node.numIteration)).trace =
      (List.range node.first_mappers.length).map Event.firstTransfer from rfl, hfirst]
    rw [show (applyMappers (node.first_mappers.map Prod.snd) (-1) node.mem,
        node.buffers.map (fun b => b.reset (boundEstimate (combineBound trip node.numIteration))))
      = ((node.firstTransfer (combineBound trip node.numIteration)).mem,
        (node.firstTransfer (combineBound trip node.numIteration)).buffers) from rfl,
      hrep, replay_last, replay_bufferTransfer]
  · simp only
    rw [htr, faithful_append, faithful_append, faithful_append]
    have hfirst := replay_first node node.mem
      (node.buffers.map (fun b => b.reset (boundEstimate (combineBound trip node.numIteration))))
    refine ⟨⟨⟨faithful_map_range node _ _ _ (fun _ _ _ h => by cases h), ?_⟩,
      faithful_map_range node _ _ _ (fun _ _ _ h => by cases h)⟩,
      faithful_map_range node _ _ _ (fun _ _ _ h => by cases h)⟩
    rw [show (node.firstTransfer (combineBound trip node.numIteration)).trace =
      (List.range node.first_mappers.length).map Event.firstTransfer from rfl, hfirst]
    exact hfaith

/-- C23: within one execution the event trace is the log of the operations
performed, in schedule order.  Replaying the trace, each event as the transfer,
body execution or buffer step it names, from the start memory and the reset
buffers gives the final memory and buffers, and every logged condition value
is the value read at that point.  For every iteration `i` the before and back
mappers of `i` come first, then body execution `i`, then the after mappers of
`i`, then the read of the continue condition.  Every iteration that ran has
these events, the body events are those of the iterations that ran, and a
back-edge copy of the output of iteration `i` (the back transfer of iteration
`i + 1`; iteration 0 has none) comes after body execution `i` and before body
execution `i + 1`. -/
theorem event_trace_order (node : TensorIterator) (fuel : Nat) (r : ExecResult)
    (hexec : node.execute fuel = some (.ok r)) :
    (∃ est : Int,
      node.replay r.trace (node.mem, node.buffers.map (fun b => b.reset est)) =
        (r.node.mem, r.node.buffers) ∧
      node.Faithful r.trace (node.mem, node.buffers.map (fun b => b.reset est))) ∧
    r.trace.Pairwise Event.InOrder ∧
    (∀ i, Event.bodyExec i ∈ r.trace ↔ i < r.iterations) ∧
    (∀ i, i < r.iterations →
      (∀ k < node.before_mappers.length, Event.beforeTransfer i k ∈ r.trace) ∧
      (0 < i → ∀ k < node.back_mappers.length, Event.backTransfer i k ∈ r.trace) ∧
      (∀ k < node.after_mappers.length, Event.afterTransfer i k ∈ r.trace) ∧
      ∃ status, Event.condRead i status ∈ r.trace) ∧
    (∀ k, Event.backTransfer 0 k ∉ r.trace) ∧
    ∀ (i k : Nat) (status : Int),
      Precedes r.trace (Event.beforeTransfer i k) (Event.bodyExec i) ∧
      Precedes r.trace (Event.backTransfer i k) (Event.bodyExec i) ∧
      Precedes r.trace (Event.bodyExec i) (Event.afterTransfer i k) ∧
      Precedes r.trace (Event.afterTransfer i k) (Event.condRead i status) ∧
      Precedes r.trace (Event.bodyExec i) (Event.backTransfer (i + 1) k) ∧
      Precedes r.trace (Event.backTransfer (i + 1) k) (Event.bodyExec (i + 1)) := by
  have hlog := execute_replay node fuel r hexec
  obtain ⟨trip, n, st, -, hloop, rfl⟩ := execute_inv node fuel r hexec
  have hfirst : ∀ e ∈ (node.firstTransfer (combineBound trip node.numIteration)).trace,
      e.iteration = none := by
    intro e he
    obtain ⟨k, _, rfl⟩ := List.mem_map.1 he
    rfl
  obtain ⟨-, hp, hbound, -, -, hsrc, hocc⟩ := loop_trace_order node _ fuel 0 _ _ n st hloop
    (pairwise_inOrder_of_none hfirst)
    (fun e he j hj => by rw [hfirst e he] at hj; cases hj)
  have htail : ∀ e ∈ (List.range node.last_mappers.length).map Event.lastTransfer
      ++ (List.range st.buffers.length).map Event.bufferTransfer, e.iteration = none := by
    intro e he
    rcases List.mem_append.1 he with he | he <;> obtain ⟨k, _, rfl⟩ := List.mem_map.1 he <;> rfl
  have hmem : ∀ e : Event, e.iteration ≠ none →
      (e ∈ st.trace ++ (List.range node.last_mappers.length).map Event.lastTransfer
        ++ (List.range st.buffers.length).map Event.bufferTransfer ↔ e ∈ st.trace) := by
    intro e hne
    rw [List.append_assoc, List.mem_append]
    exact ⟨fun h => h.resolve_right fun h' => hne (htail e h'), Or.inl⟩
  have hpair : (st.trace ++ (List.range node.last_mappers.length).map Event.lastTransfer
      ++ (List.range st.buffers.length).map Event.bufferTransfer).Pairwise Event.InOrder := by
    rw [List.append_assoc, List.pairwise_append]
    exact ⟨hp, pairwise_inOrder_of_none htail,
      fun a _ b hb => Event.inOrder_of_none_right a (htail b hb)⟩
  have hnot : ∀ (a b : Event) (i j : Nat), a.iteration = some i → b.iteration = some j →
      (j < i ∨ (j = i ∧ b.stage < a.stage)) → ¬ a.InOrder b := by
    intro a b i j ha hb hlt hin
    rcases hin i j ha hb with h | ⟨h1, h2⟩ <;> omega
  simp only
  refine ⟨hlog, hpair, fun i => ?_, fun i hi => ?_, fun k => ?_, fun i k status => ?_⟩
  · rw [hmem _ (by simp [Event.iteration])]
    constructor
    · intro h
      exact hbound _ h i rfl
    · intro hi
      obtain ⟨status, hall⟩ := hocc i (Nat.zero_le _) hi
      exact hall _ (iterationEvents_mem node i _ status).1
  · obtain ⟨status, hall⟩ := hocc i (Nat.zero_le _) hi
    obtain ⟨-, h1, h2, h3, h4⟩ := iterationEvents_mem node i
      (node.firstTransfer (combineBound trip node.numIteration)).buffers.length status
    refine ⟨fun k hk => ?_, fun h0 k hk => ?_, fun k hk => ?_, status, ?_⟩
    · rw [hmem _ (by simp [Event.iteration])]; exact hall _ (h1 k hk)
    · rw [hmem _ (by simp [Event.iteration])]; exact hall _ (h2 h0 k hk)
    · rw [hmem _ (by simp [Event.iteration])]; exact hall _ (h3 k hk)
    · rw [hmem _ (by simp [Event.iteration])]; exact hall _ h4
  · rw [hmem _ (by simp [Event.iteration])]
    intro h
    rcases hsrc _ h with h' | ⟨j, status, h'⟩
    · have := hfirst _ h'
      simp [Event.iteration] at this
    · exact backTransfer_not_mem_zero node j _ k status h'
  · refine ⟨precedes_of_pairwise hpair ?_, precedes_of_pairwise hpair ?_,
      precedes_of_pairwise hpair ?_, precedes_of_pairwise hpair ?_,
      precedes_of_pairwise hpair ?_, precedes_of_pairwise hpair ?_⟩
    · exact hnot _ _ i i rfl rfl (Or.inr ⟨rfl, by simp [Event.stage]⟩)
    · exact hnot _ _ i i rfl rfl (Or.inr ⟨rfl, by simp [Event.stage]⟩)
    · exact hnot _ _ i i rfl rfl (Or.inr ⟨rfl, by simp [Event.stage]⟩)
    · exact hnot _ _ i i rfl rfl (Or.inr ⟨rfl, by simp [Event.stage]⟩)
    · exact hnot _ _ (i + 1) i rfl rfl (Or.inl (Nat.lt_succ_self i))
    · exact hnot _ _ (i + 1) (i + 1) rfl rfl (Or.inr ⟨rfl, by simp [Event.stage]⟩)

/-- Instance of C23: the prepared example loop with trip count 2 runs two
iterations; its trace is listed, its replay gives the final memory, and the
back-edge copy of iteration 1 lies between the two body executions. -/
theorem event_trace_order_witness :
    sumLoopRun.trace =
      [.firstTransfer 0,
       .beforeTransfer 0 0, .bodyExec 0, .afterTransfer 0 0, .bufferExec 0 0, .condRead 0 1,
       .beforeTransfer 1 0, .backTransfer 1 0, .bodyExec 1, .afterTransfer 1 0,
       .bufferExec 1 0, .condRead 1 1,
       .lastTransfer 0, .bufferTransfer 0] ∧
    ((sumLoopPrepared 2 1).replay sumLoopRun.trace
      ((sumLoopPrepared 2 1).mem,
        (sumLoopPrepared 2 1).buffers.map (fun b => b.reset 2))).1 = sumLoopRun.node.mem ∧
    (∃ est : Int,
      (sumLoopPrepared 2 1).replay sumLoopRun.trace
          ((sumLoopPrepared 2 1).mem, (sumLoopPrepared 2 1).buffers.map (fun b => b.reset est))
        = (sumLoopRun.node.mem, sumLoopRun.node.buffers) ∧
      (sumLoopPrepared 2 1).Faithful sumLoopRun.trace
        ((sumLoopPrepared 2 1).mem, (sumLoopPrepared 2 1).buffers.map (fun b => b.reset est))) ∧
    Event.backTransfer 1 0 ∈ sumLoopRun.trace ∧
    Precedes sumLoopRun.trace (Event.bodyExec 0) (Event.backTransfer 1 0) ∧
    Precedes sumLoopRun.trace (Event.backTransfer 1 0) (Event.bodyExec 1) :=
  ⟨by decide, by decide,
    (event_trace_order (sumLoopPrepared 2 1) 5 sumLoopRun rfl).1,
    (((event_trace_order (sumLoopPrepared 2 1) 5 sumLoopRun rfl).2.2.2.1 1 (by decide)).2.1
      (by decide)) 0 (by decide),
    ((event_trace_order (sumLoopPrepared 2 1) 5 sumLoopRun rfl).2.2.2.2.2 0 0 0).2.2.2.2.1,
    ((event_trace_order (sumLoopPrepared 2 1) 5 sumLoopRun rfl).2.2.2.2.2 0 0 0).2.2.2.2.2⟩

/-! ## DynamicBuffer growth -/

theorem getElem?_of_take_eq {l1 l2 : List Int} {q p : Nat} (h : l1.take q = l2.take q)
    (hp : p < q) : l1[p]? = l2[p]? := by
  have := congrArg (fun l : List Int => l[p]?) h
  simpa only [List.getElem?_take, if_pos hp] using this

/-- The accumulation step in terms of its stages: the located state when the
buffer is large enough, the grown state otherwise; then the chunk copy. -/
theorem DynamicBuffer.accumulate_stages (b : DynamicBuffer) (src : Tensor) :
    b.accumulate src =
      { (if (b.located src).check_buffer then b.located src else b.grown src) with
        mem_holder_buffer :=
          DynamicBuffer.copy src.data
            (if (b.located src).check_buffer then b.located src
              else b.grown src).mem_holder_buffer
            (if (b.located src).check_buffer then b.located src
              else b.grown src).chunk_offset_in_byte
            (if (b.located src).check_buffer then b.located src
              else b.grown src).chunk_unit_in_byte
        count := (if (b.located src).check_buffer then b.located src else b.grown src).count + 1
        num_execs :=
          (if (b.located src).check_buffer then b.located src
            else b.grown src).num_execs + 1 } := rfl

/-- The located state of a buffer that holds `chunks`: the destination range
starts behind the chunks written so far and is one chunk long. -/
theorem DynamicBuffer.located_of_holds (b : DynamicBuffer) (s : Nat)
    (chunks : List (List Int)) (src : Tensor) (hb : b.Holds s chunks)
    (hfirst : chunks = [] → src.data.length = s) :
    (b.located src).chunk_offset_in_byte = ((chunks.length * s : Nat) : Int) ∧
    (b.located src).chunk_unit_in_byte = s ∧ (b.located src).count = chunks.length ∧
    (b.located src).mem_holder_buffer = b.mem_holder_buffer := by
  obtain ⟨hcount, hexecs, hunit, -⟩ := hb
  unfold DynamicBuffer.located
  simp only
  split
  · rename_i h0
    have hnil : chunks = [] := by
      rw [hexecs] at h0
      exact List.length_eq_zero.mp (by omega)
    have hc := hfirst hnil
    refine ⟨?_, hc, hcount, rfl⟩
    simp only [DynamicBuffer.init, hcount, hc]
    push_cast
    rfl
  · rename_i hne
    have hpos : 0 < chunks.length := by
      rcases Nat.eq_zero_or_pos chunks.length with h0 | h0
      · rw [h0] at hexecs; exact absurd hexecs hne
      · exact h0
    refine ⟨?_, (hunit hpos).1, hcount, rfl⟩
    rw [hcount, (hunit hpos).2]
    push_cast
    rfl

/-- C22: growth of a dynamic buffer preserves content. When `execute` finds the
buffer too small for this iteration's range and replaces it, the new buffer is
at least as large as the range being written (one chunk of `s` bytes behind
the `chunks` written by the earlier iterations), and every byte written by the
earlier iterations is found unchanged at the same position in the new buffer,
also after the new chunk is copied in. -/
theorem growth_preserves_content (b : DynamicBuffer) (m : Memory) (iter : Int) (src : Tensor)
    (s : Nat) (chunks : List (List Int)) (hread : m.read b.from_ = some src)
    (hholds : b.Holds s chunks) (hall : ∀ x ∈ chunks, x.length = s)
    (hfirst : chunks = [] → src.data.length = s)
    (hsmall : (b.located src).check_buffer = false) :
    (b.execute m iter).mem_holder_buffer =
      DynamicBuffer.copy src.data (b.grown src).mem_holder_buffer
        ((chunks.length * s : Nat) : Int) s ∧
    (b.located src).chunk_offset_in_byte + ((b.located src).chunk_unit_in_byte : Int) ≤
      ((b.grown src).mem_holder_buffer.length : Int) ∧
    chunks.length * s + s ≤ (b.grown src).mem_holder_buffer.length ∧
    (∀ p, p < chunks.length * s → b.mem_holder_buffer[p]? = chunks.flatten[p]?) ∧
    (∀ p, p < chunks.length * s →
      (b.grown src).mem_holder_buffer[p]? = b.mem_holder_buffer[p]?) ∧
    (∀ p, p < chunks.length * s →
      (b.execute m iter).mem_holder_buffer[p]? = b.mem_holder_buffer[p]?) := by
  obtain ⟨hoff, hunit, hcount, hbuf⟩ := b.located_of_holds s chunks src hholds hfirst
  have hjoin := join_length_const chunks s hall
  have htake := hholds.2.2.2
  have hk : chunks.length * s ≤ b.mem_holder_buffer.length := by
    have := congrArg List.length htake
    rw [List.length_take, hjoin] at this
    omega
  -- the new buffer
  have hgrown : (b.grown src).mem_holder_buffer =
      DynamicBuffer.copy b.mem_holder_buffer
        (List.replicate (max ((b.located src).growth b.mem_holder_buffer.length
          (chunks.length * s + s)) (chunks.length * s + s)) 0) 0 (chunks.length * s) := by
    simp only [DynamicBuffer.grown, DynamicBuffer.move_buffer, DynamicBuffer.move_data,
      DynamicBuffer.create_buffer, hoff, hunit, hcount, hbuf]
    have hreq : (((chunks.length * s : Nat) : Int) + (s : Int)).toNat
        = chunks.length * s + s := by omega
    have hq : min (chunks.length * s) b.mem_holder_buffer.length = chunks.length * s := by
      omega
    rw [hreq, hq]
  have hlen : chunks.length * s + s ≤ (b.grown src).mem_holder_buffer.length := by
    rw [hgrown, DynamicBuffer.copy_length, List.length_replicate]
    exact le_max_right _ _
  have hgoff : (b.grown src).chunk_offset_in_byte = ((chunks.length * s : Nat) : Int) := hoff
  have hgunit : (b.grown src).chunk_unit_in_byte = s := hunit
  have hexec : (b.execute m iter).mem_holder_buffer =
      DynamicBuffer.copy src.data (b.grown src).mem_holder_buffer
        ((chunks.length * s : Nat) : Int) s := by
    unfold DynamicBuffer.execute
    rw [hread]
    simp only
    rw [DynamicBuffer.accumulate_stages, hsmall]
    simp only [Bool.false_eq_true, if_false, hgoff, hgunit]
  have hkeep : ∀ p, p < chunks.length * s →
      (b.grown src).mem_holder_buffer[p]? = b.mem_holder_buffer[p]? := by
    intro p hp
    refine getElem?_of_take_eq (q := chunks.length * s) ?_ hp
    rw [hgrown]
    exact DynamicBuffer.copy_take_prefix _ _ _ hk
      (by rw [List.length_replicate]; exact le_trans (Nat.le_add_right _ _) (le_max_right _ _))
  refine ⟨hexec, ?_, hlen, fun p hp => ?_, hkeep, fun p hp => ?_⟩
  · rw [hoff, hunit]
    exact_mod_cast hlen
  · refine getElem?_of_take_eq (q := chunks.length * s) ?_ hp
    rw [htake, List.take_of_length_le (by rw [hjoin])]
  · rw [hexec, ← hkeep p hp]
    refine getElem?_of_take_eq (q := chunks.length * s) ?_ hp
    have := DynamicBuffer.copy_take_append_bytes src.data (b.grown src).mem_holder_buffer
      (chunks.length * s) s hlen
    have h2 := congrArg (List.take (chunks.length * s)) this
    rw [List.take_take, Nat.min_eq_left (Nat.le_add_right _ _),
      List.take_append_of_le_length (by rw [List.length_take]; omega),
      List.take_take, Nat.min_self] at h2
    exact h2

/-- Instance of C22: the full example buffer `[1, 2]` receives the chunk
`[3, 4]`; its replacement has 4 bytes, starts with `[1, 2]`, and holds
`[1, 2, 3, 4]` after the copy. -/
theorem growth_preserves_content_witness :
    (fullBuffer.located ⟨[1, 2], [3, 4]⟩).check_buffer = false ∧
    (fullBuffer.grown ⟨[1, 2], [3, 4]⟩).mem_holder_buffer = [1, 2, 0, 0] ∧
    (fullBuffer.execute (chunkMemory [3, 4]) 1).mem_holder_buffer = [1, 2, 3, 4] ∧
    ([[(1 : Int), 2]].length * 2 + 2 ≤
      (fullBuffer.grown ⟨[1, 2], [3, 4]⟩).mem_holder_buffer.length) ∧
    (∀ p, p < [[(1 : Int), 2]].length * 2 →
      (fullBuffer.execute (chunkMemory [3, 4]) 1).mem_holder_buffer[p]? =
        fullBuffer.mem_holder_buffer[p]?) :=
  have h := growth_preserves_content fullBuffer (chunkMemory [3, 4]) 1 ⟨[1, 2], [3, 4]⟩ 2
    [[1, 2]] rfl ⟨rfl, rfl, fun _ => ⟨rfl, rfl⟩, rfl⟩ (by simp) (by simp) rfl
  ⟨rfl, rfl, rfl, h.2.2.1, h.2.2.2.2.2⟩

/-! ## PortChecker -/

end ov.intel_cpu.node

namespace intel_npu

/-! ## NPU device helpers -/

/-- The bits of the interface-type selector `0x7000000` are the bits 24, 25
and 26. -/
theorem selector_testBit (i : Nat) :
    (0x7000000 : Nat).testBit i = (decide (24 ≤ i) && decide (i - 24 < 3)) := by
  rw [show (0x7000000 : Nat) = (2 ^ 3 - 1) <<< 24 by decide, Nat.testBit_shiftLeft,
    Nat.testBit_two_pow_sub_one]

/-- The selected interface type is zero exactly when bits 24, 25 and 26 are
clear. -/
theorem selector_and_eq_zero (deviceId : Nat) :
    deviceId &&& 0x7000000 = 0 ↔
      (deviceId.testBit 24 = false ∧ deviceId.testBit 25 = false ∧
        deviceId.testBit 26 = false) := by
  constructor
  · intro h
    have hb : ∀ i, (deviceId.testBit i && (0x7000000 : Nat).testBit i) = false := by
      intro i
      rw [← Nat.testBit_and, h, Nat.zero_testBit]
    have h24 := hb 24
    have h25 := hb 25
    have h26 := hb 26
    rw [selector_testBit] at h24 h25 h26
    simp only [Nat.reduceLeDiff, Nat.reduceSub, Nat.reduceLT, Nat.zero_lt_succ, Nat.le_refl,
      Nat.sub_self, decide_True, Bool.and_true, Nat.lt_add_one, Nat.one_lt_ofNat] at h24 h25 h26
    exact ⟨h24, h25, h26⟩
  · rintro ⟨h24, h25, h26⟩
    apply Nat.eq_of_testBit_eq
    intro i
    rw [Nat.testBit_and, selector_testBit, Nat.zero_testBit]
    by_cases h1 : i = 24
    · subst h1; rw [h24]; rfl
    by_cases h2 : i = 25
    · subst h2; rw [h25]; rfl
    by_cases h3 : i = 26
    · subst h3; rw [h26]; rfl
    have : (decide (24 ≤ i) && decide (i - 24 < 3)) = false := by
      rw [Bool.and_eq_false_iff]
      by_cases h : 24 ≤ i
      · right; simp only [decide_eq_false_iff_not]; omega
      · left; simp only [decide_eq_false_iff_not]; exact h
    rw [this, Bool.and_false]

/-- C18: for every `deviceId` (every natural number, so every 32-bit value),
`utils.isNPUDevice deviceId` is true if and only if `deviceId &&& 0x7000000 = 0`,
that is if and only if bits 26-24 are all zero; two ids that agree on bits
26-24 get the same answer. -/
theorem isNPUDevice_interface_bits (deviceId : Nat) :
    (utils.isNPUDevice deviceId = true ↔ deviceId &&& 0x7000000 = 0) ∧
    (utils.isNPUDevice deviceId = true ↔
      (deviceId.testBit 24 = false ∧ deviceId.testBit 25 = false ∧
        deviceId.testBit 26 = false)) ∧
    ∀ other : Nat,
      other.testBit 24 = deviceId.testBit 24 → other.testBit 25 = deviceId.testBit 25 →
      other.testBit 26 = deviceId.testBit 26 →
      utils.isNPUDevice other = utils.isNPUDevice deviceId := by
  have hdef : ∀ d : Nat, utils.isNPUDevice d = true ↔ d &&& 0x7000000 = 0 := by
    intro d
    unfold utils.isNPUDevice
    simp only [beq_iff_eq]
  refine ⟨hdef deviceId, (hdef deviceId).trans (selector_and_eq_zero deviceId), ?_⟩
  intro other h24 h25 h26
  rw [Bool.eq_iff_iff, (hdef other).trans (selector_and_eq_zero other),
    (hdef deviceId).trans (selector_and_eq_zero deviceId), h24, h25, h26]

/-- Instance of C18: `0xF8FFFFFF` has bits 26-24 clear and is an NPU device, and
so is `0x00000001`, which agrees with it on these bits. -/
theorem isNPUDevice_interface_bits_witness :
    utils.isNPUDevice 0xF8FFFFFF = true ∧
    utils.isNPUDevice 0x1000000 = false ∧
    utils.isNPUDevice 0x00000001 = utils.isNPUDevice 0xF8FFFFFF :=
  ⟨(isNPUDevice_interface_bits 0xF8FFFFFF).2.1.2 ⟨by decide, by decide, by decide⟩, by decide,
    (isNPUDevice_interface_bits 0xF8FFFFFF).2.2 0x00000001 (by decide) (by decide)
      (by decide)⟩

/-- C19: for every `swDevId` (every natural number, so every 32-bit value),
`utils.getSliceIdBySwDeviceId swDevId` equals `(swDevId / 2) % 8`, the value of
bits 3-1; the result is below 8 and two ids that agree on bits 3-1 get the same
result, whatever their bit 0 and bits 4-31. -/
theorem getSliceIdBySwDeviceId_bits (swDevId : Nat) :
    utils.getSliceIdBySwDeviceId swDevId = (swDevId / 2) % 8 ∧
    utils.getSliceIdBySwDeviceId swDevId =
      (swDevId.testBit 1).toNat + 2 * (swDevId.testBit 2).toNat +
        4 * (swDevId.testBit 3).toNat ∧
    utils.getSliceIdBySwDeviceId swDevId < 8 ∧
    ∀ other : Nat,
      other.testBit 1 = swDevId.testBit 1 → other.testBit 2 = swDevId.testBit 2 →
      other.testBit 3 = swDevId.testBit 3 →
      utils.getSliceIdBySwDeviceId other = utils.getSliceIdBySwDeviceId swDevId := by
  have hdef : ∀ d : Nat, utils.getSliceIdBySwDeviceId d = (d / 2) % 8 := by
    intro d
    unfold utils.getSliceIdBySwDeviceId
    simp only
    rw [show (0x7 : Nat) = 2 ^ 3 - 1 by decide, Nat.and_pow_two_sub_one_eq_mod,
      Nat.shiftRight_eq_div_pow]
  have hbits : ∀ d : Nat, utils.getSliceIdBySwDeviceId d =
      (d.testBit 1).toNat + 2 * (d.testBit 2).toNat + 4 * (d.testBit 3).toNat := by
    intro d
    rw [hdef, Nat.toNat_testBit, Nat.toNat_testBit, Nat.toNat_testBit]
    omega
  refine ⟨hdef swDevId, hbits swDevId, ?_, ?_⟩
  · rw [hdef]; omega
  · intro other h1 h2 h3
    rw [hbits, hbits, h1, h2, h3]

/-- Instance of C19: `0xFFFFFFF5` has bits 3-1 equal to `010`, slice 2, like
`0x00000004`. -/
theorem getSliceIdBySwDeviceId_bits_witness :
    utils.getSliceIdBySwDeviceId 0xFFFFFFF5 = 2 ∧
    utils.getSliceIdBySwDeviceId 0xFFFFFFF5 = (0xFFFFFFF5 / 2) % 8 ∧
    utils.getSliceIdBySwDeviceId 0x00000004 = utils.getSliceIdBySwDeviceId 0xFFFFFFF5 :=
  ⟨by decide, (getSliceIdBySwDeviceId_bits 0xFFFFFFF5).1,
    (getSliceIdBySwDeviceId_bits 0xFFFFFFF5).2.2.2 0x00000004 (by decide) (by decide)
      (by decide)⟩

/-- C20: the platform parameter has priority over the device id: for every
platform different from `AUTO_DETECT`, every device id and every list of
available device names, the empty list included, `utils.getCompilationPlatform`
returns the platform unchanged and raises nothing. -/
theorem getCompilationPlatform_platform_priority (AUTO_DETECT platform deviceId : String)
    (availableDevicesNames : List String) (hplatform : platform ≠ AUTO_DETECT) :
    utils.getCompilationPlatform AUTO_DETECT platform deviceId availableDevicesNames =
      .ok platform := by
  unfold utils.getCompilationPlatform
  rw [if_pos hplatform]

/-- Instance of C20: platform `3720` with device id `4000.0` and no available
device is returned unchanged. -/
theorem getCompilationPlatform_platform_priority_witness :
    "3720" ≠ "AUTO_DETECT" ∧
    utils.getCompilationPlatform "AUTO_DETECT" "3720" "4000.0" [] = .ok "3720" :=
  ⟨by decide, getCompilationPlatform_platform_priority "AUTO_DETECT" "3720" "4000.0" []
    (by decide)⟩

/-- The three outcomes of `utils.getCompilationPlatform`, by its branches. -/
theorem getCompilationPlatform_cases (AUTO_DETECT platform deviceId : String)
    (availableDevicesNames : List String) :
    (platform ≠ AUTO_DETECT ∧
      utils.getCompilationPlatform AUTO_DETECT platform deviceId availableDevicesNames =
        .ok platform) ∨
    (platform = AUTO_DETECT ∧ deviceId ≠ "" ∧
      utils.getCompilationPlatform AUTO_DETECT platform deviceId availableDevicesNames =
        .ok (utils.getPlatformByDeviceName deviceId)) ∨
    (platform = AUTO_DETECT ∧ deviceId = "" ∧ availableDevicesNames = [] ∧
      utils.getCompilationPlatform AUTO_DETECT platform deviceId availableDevicesNames =
        .error NO_DEVICES_FOUND) ∨
    (platform = AUTO_DETECT ∧ deviceId = "" ∧
      ∃ deviceName rest, availableDevicesNames = deviceName :: rest ∧
        utils.getCompilationPlatform AUTO_DETECT platform deviceId availableDevicesNames =
          .ok (utils.getPlatformByDeviceName deviceName)) := by
  unfold utils.getCompilationPlatform
  by_cases hp : platform = AUTO_DETECT
  · rw [if_neg (not_not.2 hp)]
    by_cases hd : deviceId = ""
    · rw [if_neg (not_not.2 hd)]
      cases availableDevicesNames with
      | nil => exact Or.inr (Or.inr (Or.inl ⟨hp, hd, rfl, rfl⟩))
      | cons deviceName rest =>
        refine Or.inr (Or.inr (Or.inr ⟨hp, hd, deviceName, rest, rfl, ?_⟩))
        simp only [List.isEmpty_cons, Bool.false_eq_true, if_false, List.getElem?_cons_zero]
    · rw [if_pos hd]
      exact Or.inr (Or.inl ⟨hp, hd, rfl⟩)
  · rw [if_pos hp]
    exact Or.inl ⟨hp, rfl⟩

/-- C21: `utils.getCompilationPlatform` raises if and only if the platform is
`AUTO_DETECT`, the device id is the empty string and the list of available
device names is empty; the exception then carries the message "No NPU devices
were found.", and in every other case a string is returned. -/
theorem getCompilationPlatform_throws_iff (AUTO_DETECT platform deviceId : String)
    (availableDevicesNames : List String) :
    ((∃ message,
        utils.getCompilationPlatform AUTO_DETECT platform deviceId availableDevicesNames =
          .error message) ↔
      (platform = AUTO_DETECT ∧ deviceId = "" ∧ availableDevicesNames = [])) ∧
    (∀ message,
      utils.getCompilationPlatform AUTO_DETECT platform deviceId availableDevicesNames =
        .error message → message = "No NPU devices were found.") ∧
    (¬ (platform = AUTO_DETECT ∧ deviceId = "" ∧ availableDevicesNames = []) →
      ∃ result,
        utils.getCompilationPlatform AUTO_DETECT platform deviceId availableDevicesNames =
          .ok result) := by
  rcases getCompilationPlatform_cases AUTO_DETECT platform deviceId availableDevicesNames with
    ⟨hp, h⟩ | ⟨hp, hd, h⟩ | ⟨hp, hd, hl, h⟩ | ⟨hp, hd, deviceName, rest, hl, h⟩
  · rw [h]
    exact ⟨⟨fun ⟨_, he⟩ => (by cases he), fun hc => absurd hc.1 hp⟩,
      fun _ he => (by cases he), fun _ => ⟨_, rfl⟩⟩
  · rw [h]
    exact ⟨⟨fun ⟨_, he⟩ => (by cases he), fun hc => absurd hc.2.1 hd⟩,
      fun _ he => (by cases he), fun _ => ⟨_, rfl⟩⟩
  · rw [h]
    refine ⟨⟨fun _ => ⟨hp, hd, hl⟩, fun _ => ⟨_, rfl⟩⟩, fun message he => ?_,
      fun hc => absurd ⟨hp, hd, hl⟩ hc⟩
    cases he
    rfl
  · rw [h]
    exact ⟨⟨fun ⟨_, he⟩ => (by cases he), fun hc => by rw [hl] at hc; cases hc.2.2⟩,
      fun _ he => (by cases he), fun _ => ⟨_, rfl⟩⟩

/-- Instance of C21: with platform `AUTO_DETECT`, an empty device id and no
available device the call raises with the message; with one available device
it returns. -/
theorem getCompilationPlatform_throws_iff_witness :
    utils.getCompilationPlatform "AUTO_DETECT" "AUTO_DETECT" "" [] =
      .error "No NPU devices were found." ∧
    (∃ message, utils.getCompilationPlatform "AUTO_DETECT" "AUTO_DETECT" "" [] =
      .error message) ∧
    ∃ result, utils.getCompilationPlatform "AUTO_DETECT" "AUTO_DETECT" "" ["3720.0"] =
      .ok result :=
  ⟨rfl,
    (getCompilationPlatform_throws_iff "AUTO_DETECT" "AUTO_DETECT" "" []).1.2 ⟨rfl, rfl, rfl⟩,
    (getCompilationPlatform_throws_iff "AUTO_DETECT" "AUTO_DETECT" "" ["3720.0"]).2.2
      (fun hc => by cases hc.2.2)⟩

/-- C24: with platform `AUTO_DETECT`, a non-empty device id gives
`getPlatformByDeviceName deviceId` whatever the list of available devices is;
an empty device id with a non-empty list gives `getPlatformByDeviceName` of the
first element, whatever the remaining elements are. -/
theorem getCompilationPlatform_auto_detect (AUTO_DETECT deviceId : String) :
    (deviceId ≠ "" → ∀ availableDevicesNames : List String,
      utils.getCompilationPlatform AUTO_DETECT AUTO_DETECT deviceId availableDevicesNames =
        .ok (utils.getPlatformByDeviceName deviceId)) ∧
    (∀ (deviceName : String) (rest : List String),
      utils.getCompilationPlatform AUTO_DETECT AUTO_DETECT "" (deviceName :: rest) =
        .ok (utils.getPlatformByDeviceName deviceName)) ∧
    (∀ (deviceName : String) (rest other : List String),
      utils.getCompilationPlatform AUTO_DETECT AUTO_DETECT "" (deviceName :: rest) =
        utils.getCompilationPlatform AUTO_DETECT AUTO_DETECT "" (deviceName :: other)) := by
  have hfirst : ∀ (deviceName : String) (rest : List String),
      utils.getCompilationPlatform AUTO_DETECT AUTO_DETECT "" (deviceName :: rest) =
        .ok (utils.getPlatformByDeviceName deviceName) := by
    intro deviceName rest
    unfold utils.getCompilationPlatform
    rw [if_neg (not_not.2 rfl), if_neg (not_not.2 rfl)]
    simp only [List.isEmpty_cons, Bool.false_eq_true, if_false, List.getElem?_cons_zero]
  refine ⟨fun hd availableDevicesNames => ?_, hfirst, fun deviceName rest other => ?_⟩
  · unfold utils.getCompilationPlatform
    rw [if_neg (not_not.2 rfl), if_pos hd]
  · rw [hfirst, hfirst]

/-- Instance of C24: device id `3720.0` gives platform `3720` although the list
names another device, and an empty device id takes `4000` from the first list
element `4000.1`. -/
theorem getCompilationPlatform_auto_detect_witness :
    utils.getCompilationPlatform "AUTO_DETECT" "AUTO_DETECT" "3720.0" ["4000.1"] = .ok "3720" ∧
    utils.getCompilationPlatform "AUTO_DETECT" "AUTO_DETECT" "" ["4000.1", "3720.0"] =
      .ok "4000" ∧
    utils.getCompilationPlatform "AUTO_DETECT" "AUTO_DETECT" "3720.0" ["4000.1"] =
      .ok (utils.getPlatformByDeviceName "3720.0") :=
  ⟨rfl, rfl,
    (getCompilationPlatform_auto_detect "AUTO_DETECT" "3720.0").1 (by decide) ["4000.1"]⟩

end intel_npu
